import Mathlib

/-!
Verification of the fast-routing core (network model, cost model, point-to-point
Dijkstra search and cost-bounded isochrone search) against its specification.

The Rust source is embedded shallowly:

* `f64` costs, lengths and speeds become `ℚ` (exact rational arithmetic; the
  claims under study are algorithmic, not about floating-point rounding).
* `HashMap` becomes an association list with insert-replace semantics (`updA`);
  all statements are phrased through `List.lookup`, so the list order never
  matters.
* `BinaryHeap` (a max-heap on the reversed cost order, i.e. a min-heap by cost
  with an unspecified tie order) becomes a list with `popMin`, which removes
  one minimal-cost element.  Every theorem proved here is insensitive to the
  tie-breaking choice.
* the two `while` loops of `dijkstra_search` and `dijkstra_isochrone` become
  fuel-indexed recursions returning `Option`; `none` models a run that needs
  more fuel (in particular a diverging run has every fuel return `none`).
  "The call returns r" is rendered as `∃ fuel, run fuel = some r`.
-/

/-! ## Association lists (model of HashMap) -/

/-- Insert-replace for an association list: the model of `HashMap::insert`. -/
def updA {α β : Type} [BEq α] (m : List (α × β)) (k : α) (v : β) : List (α × β) :=
  (k, v) :: m.filter (fun p => !(p.1 == k))

theorem lookup_filter_ne {α β : Type} [BEq α] [LawfulBEq α]
    (m : List (α × β)) (k k' : α) (h : k' ≠ k) :
    (m.filter (fun p => !(p.1 == k))).lookup k' = m.lookup k' := by
  induction m with
  | nil => rfl
  | cons a t ih =>
    by_cases hak : a.1 = k
    · have : (a.1 == k) = true := beq_iff_eq.mpr hak
      simp only [List.filter, this, Bool.not_true]
      rw [ih]
      have : (k' == a.1) = false := by
        rw [beq_eq_false_iff_ne]
        exact fun hk => h (hk.trans hak)
      simp [List.lookup, this]
    · have : (a.1 == k) = false := beq_eq_false_iff_ne.mpr hak
      simp only [List.filter, this, Bool.not_false]
      by_cases hk'a : k' = a.1
      · have hb : (k' == a.1) = true := beq_iff_eq.mpr hk'a
        cases a with
        | mk a1 a2 => simp [List.lookup, hb]
      · have hb : (k' == a.1) = false := beq_eq_false_iff_ne.mpr hk'a
        cases a with
        | mk a1 a2 => simp [List.lookup, hb, ih]

theorem lookup_updA_self {α β : Type} [BEq α] [LawfulBEq α]
    (m : List (α × β)) (k : α) (v : β) :
    (updA m k v).lookup k = some v := by
  simp [updA, List.lookup]

theorem lookup_updA_ne {α β : Type} [BEq α] [LawfulBEq α]
    (m : List (α × β)) (k k' : α) (v : β) (h : k' ≠ k) :
    (updA m k v).lookup k' = m.lookup k' := by
  have hb : (k' == k) = false := beq_eq_false_iff_ne.mpr h
  simp only [updA, List.lookup, hb]
  exact lookup_filter_ne m k k' h

/-! ## Routing modes and the cost model (network.rs) -/

/-- Routing modes supported by the library. -/
inductive RoutingMode : Type where
  | Walking
  | Cycling
  | Car
  | Wheelchair
deriving DecidableEq, Repr

/-- Default speed for the routing mode in km/h. -/
def RoutingMode.default_speed : RoutingMode → ℚ
  | .Walking => 5
  | .Cycling => 15
  | .Car => 50
  | .Wheelchair => 4

/-- Edge in the routing network.  The `geometry` field of the Rust struct is
omitted: it is never read by any modeled operation (it is only exported). -/
structure Edge : Type where
  id : ℕ
  source : ℕ
  target : ℕ
  length : ℚ
  costs : List (RoutingMode × ℚ)
  max_speed : Option ℚ
  oneway : Bool
  surface : Option String
  highway_type : Option String
deriving Repr, DecidableEq

/-- Calculate cost for given routing mode and speed (`Edge::calculate_cost`).
The Rust method mutates `self.costs`; the model returns the updated edge. -/
def Edge.calculateCost (e : Edge) (mode : RoutingMode) (speed_kmh : Option ℚ) : Edge :=
  let speed := speed_kmh.getD mode.default_speed
  let time_cost := e.length / 1000 / speed * 3600
  { e with costs := updA e.costs mode time_cost }

/-- Get cost for a routing mode (`Edge::get_cost`). -/
def Edge.getCost (e : Edge) (mode : RoutingMode) : Option ℚ :=
  e.costs.lookup mode

/-- Check if edge is accessible for given routing mode (`Edge::is_accessible`). -/
def Edge.isAccessible (e : Edge) (mode : RoutingMode) : Bool :=
  match mode with
  | .Car =>
    match e.highway_type with
    | none => true
    | some highway =>
      !(highway == "footway" || highway == "cycleway" || highway == "path" ||
        highway == "steps")
  | .Walking => true
  | .Cycling =>
    match e.highway_type with
    | none => true
    | some highway =>
      !(highway == "motorway" || highway == "trunk" || highway == "steps")
  | .Wheelchair =>
    (match e.surface with
     | none => true
     | some surface =>
       (surface == "paved" || surface == "asphalt" || surface == "concrete"))
    &&
    (match e.highway_type with
     | none => true
     | some highway => !(highway == "steps" || highway == "path"))

/-- C8: for every edge, mode and optional override speed, the computed and
cached cost equals `(length / 1000) / speed * 3600` seconds where the speed is
the override when one is given and otherwise the mode's default speed, and the
default speeds are Walking 5, Cycling 15, Car 50, Wheelchair 4 km/h. -/
theorem claim_C8_cost_formula (e : Edge) (mode : RoutingMode) (speed_kmh : Option ℚ) :
    (e.calculateCost mode speed_kmh).getCost mode
      = some (e.length / 1000 / (speed_kmh.getD mode.default_speed) * 3600) ∧
    RoutingMode.default_speed .Walking = 5 ∧
    RoutingMode.default_speed .Cycling = 15 ∧
    RoutingMode.default_speed .Car = 50 ∧
    RoutingMode.default_speed .Wheelchair = 4 := by
  refine ⟨?_, rfl, rfl, rfl, rfl⟩
  simp [Edge.calculateCost, Edge.getCost, lookup_updA_self]

/-- C9: the accessibility decision table of `Edge::is_accessible`: Car is
inaccessible exactly on road classes footway/cycleway/path/steps, Walking is
always accessible, Cycling is inaccessible exactly on motorway/trunk/steps,
and Wheelchair is accessible exactly when the surface is absent or
paved/asphalt/concrete and the road class is not steps/path. -/
theorem claim_C9_accessibility (e : Edge) :
    (e.isAccessible .Car = false ↔
      ∃ h, e.highway_type = some h ∧
        (h = "footway" ∨ h = "cycleway" ∨ h = "path" ∨ h = "steps")) ∧
    (e.isAccessible .Walking = true) ∧
    (e.isAccessible .Cycling = false ↔
      ∃ h, e.highway_type = some h ∧ (h = "motorway" ∨ h = "trunk" ∨ h = "steps")) ∧
    (e.isAccessible .Wheelchair = true ↔
      ((e.surface = none ∨
        ∃ s, e.surface = some s ∧ (s = "paved" ∨ s = "asphalt" ∨ s = "concrete")) ∧
       ¬ ∃ h, e.highway_type = some h ∧ (h = "steps" ∨ h = "path"))) := by
  refine ⟨?_, rfl, ?_, ?_⟩
  · cases hht : e.highway_type with
    | none => simp [Edge.isAccessible, hht]
    | some h => simp [Edge.isAccessible, hht]; try tauto
  · cases hht : e.highway_type with
    | none => simp [Edge.isAccessible, hht]
    | some h => simp [Edge.isAccessible, hht]; try tauto
  · cases hht : e.highway_type with
    | none =>
      cases hs : e.surface with
      | none => simp [Edge.isAccessible, hht, hs]
      | some s => simp [Edge.isAccessible, hht, hs]; try tauto
    | some h =>
      cases hs : e.surface with
      | none => simp [Edge.isAccessible, hht, hs]; try tauto
      | some s => simp [Edge.isAccessible, hht, hs]; try tauto

/-! ## The network aggregate (network.rs) -/

/-- Node in the routing network (the `Point` location becomes a lon/lat pair). -/
structure Node : Type where
  id : ℕ
  lon : ℚ
  lat : ℚ
  elevation : Option ℚ
deriving Repr, DecidableEq

/-- Edge with cost information stored inside the petgraph adjacency structure. -/
structure EdgeWithCost : Type where
  edge_id : ℕ
  cost : ℚ
deriving Repr, DecidableEq

/-- Error taxonomy of error.rs (the IO/serde variants are irrelevant here). -/
inductive RoutingError : Type where
  | Network : String → RoutingError
  | ContractionHierarchy : String → RoutingError
  | Isochrone : String → RoutingError
  | Geometry : String → RoutingError
deriving Repr, DecidableEq

/-- Main network structure for routing.  `graphNodes`/`graphEdges` model the
petgraph `UnGraph`: node weights listed in index order, and arcs as
(source index, target index, weight) triples in insertion order. -/
structure Network : Type where
  graphNodes : List Node
  graphEdges : List (ℕ × ℕ × EdgeWithCost)
  node_index_map : List (ℕ × ℕ)
  edge_index_map : List (ℕ × ℕ)
  nodes : List (ℕ × Node)
  edges : List (ℕ × Edge)
deriving Repr, DecidableEq

/-- Create a new empty network (`Network::new`). -/
def Network.new : Network := ⟨[], [], [], [], [], []⟩

/-- Add a node to the network (`Network::add_node`; always returns `Ok`). -/
def Network.addNode (n : Network) (node : Node) : Network :=
  let node_index := n.graphNodes.length
  { n with
    graphNodes := n.graphNodes ++ [node]
    node_index_map := updA n.node_index_map node.id node_index
    nodes := updA n.nodes node.id node }

/-- Tail of `Network::add_edge` after the lazy cost computation: `edge` is the
local variable `edge` of the Rust method, with the cost for `mode` possibly
already computed.  The Rust method mutates `self` and returns a
`RoutingResult<()>`; the model returns the (possibly unchanged) network
together with the status, mirroring the exact control flow: all mutations
happen after the two node-index lookups. -/
def Network.addEdgeWith (n : Network) (edge : Edge) (mode : RoutingMode) :
    Network × Except RoutingError Unit :=
  match edge.getCost mode with
  | none => (n, .error (.Network "No cost calculated for mode"))
  | some cost =>
    match n.node_index_map.lookup edge.source with
    | none =>
      (n, .error (.Network ("Source node " ++ toString edge.source ++ " not found")))
    | some source_idx =>
      match n.node_index_map.lookup edge.target with
      | none =>
        (n, .error (.Network ("Target node " ++ toString edge.target ++ " not found")))
      | some target_idx =>
        let edge_index := n.graphEdges.length
        ({ n with
           graphEdges := n.graphEdges ++ [(source_idx, target_idx, ⟨edge.id, cost⟩)]
           edge_index_map := updA n.edge_index_map edge.id edge_index
           edges := updA n.edges edge.id edge },
         .ok ())

/-- Add an edge to the network (`Network::add_edge`): calculate the cost for
`mode` if not already set, then run the rest of the method. -/
def Network.addEdge (n : Network) (edge0 : Edge) (mode : RoutingMode) :
    Network × Except RoutingError Unit :=
  n.addEdgeWith
    (if (edge0.costs.lookup mode).isSome then edge0 else edge0.calculateCost mode none)
    mode

/-- C10: if either endpoint of the edge is absent from the node lookup,
`add_edge` reports a network error and the returned state is the input network
unchanged in every component. -/
theorem claim_C10_addEdge_atomic (n : Network) (e : Edge) (m : RoutingMode)
    (h : n.node_index_map.lookup e.source = none ∨
         n.node_index_map.lookup e.target = none) :
    (n.addEdge e m).1 = n ∧ ∃ s, (n.addEdge e m).2 = .error (.Network s) := by
  have hsrc : (if (e.costs.lookup m).isSome then e else e.calculateCost m none).source
      = e.source := by
    by_cases hc : (e.costs.lookup m).isSome <;> simp [hc, Edge.calculateCost]
  have htgt : (if (e.costs.lookup m).isSome then e else e.calculateCost m none).target
      = e.target := by
    by_cases hc : (e.costs.lookup m).isSome <;> simp [hc, Edge.calculateCost]
  unfold Network.addEdge Network.addEdgeWith
  rcases hcost : (if (e.costs.lookup m).isSome = true then e
                  else e.calculateCost m none).getCost m with _ | c
  · simp [hcost]
  · simp only [hcost, hsrc, htgt]
    rcases h with h | h
    · simp [h]
    · simp only [h]
      cases hs : n.node_index_map.lookup e.source with
      | none => simp [hs]
      | some si => simp [hs]

/-- Witness for C10 at a concrete input. -/
theorem claim_C10_addEdge_atomic_witness :
    (Network.new.addEdge ⟨5, 1, 2, 1000, [], none, false, none, none⟩
        RoutingMode.Walking).1 = Network.new ∧
    ∃ s, (Network.new.addEdge ⟨5, 1, 2, 1000, [], none, false, none, none⟩
        RoutingMode.Walking).2 = .error (.Network s) :=
  claim_C10_addEdge_atomic Network.new ⟨5, 1, 2, 1000, [], none, false, none, none⟩
    RoutingMode.Walking (Or.inl rfl)

/-! ## C3: the cost cached by add_edge ignores the edge's max-speed -/

/-- Two-node network used to exercise `add_edge` concretely. -/
def cexNetC3 : Network := (Network.new.addNode ⟨1, 0, 0, none⟩).addNode ⟨2, 0, 0, none⟩

/-- Edge of length 1000 m carrying a max-speed of 10 km/h and no cached cost. -/
def cexEdgeC3 : Edge := ⟨5, 1, 2, 1000, [], some 10, false, none, none⟩

/-- C3 counterexample: adding `cexEdgeC3` (max-speed 10 km/h, length 1 km, no
cached Walking cost, both endpoints present) caches the Walking cost 720 s,
which is the mode-default-speed value (1 km at 5 km/h), not the 360 s that the
claimed max-speed-based computation (1 km at 10 km/h) would give: `add_edge`
passes `None` to `calculate_cost`, so the edge's own max-speed is ignored. -/
theorem claim_C3_counterexample :
    cexEdgeC3.costs.lookup RoutingMode.Walking = none ∧
    cexNetC3.node_index_map.lookup cexEdgeC3.source = some 0 ∧
    cexNetC3.node_index_map.lookup cexEdgeC3.target = some 1 ∧
    cexEdgeC3.max_speed = some 10 ∧
    ((cexNetC3.addEdge cexEdgeC3 RoutingMode.Walking).1.edges.lookup 5).bind
        (fun ed => ed.getCost RoutingMode.Walking) = some 720 ∧
    cexEdgeC3.length / 1000 / 10 * 3600 = 360 ∧ (360 : ℚ) ≠ 720 := by
  refine ⟨rfl, rfl, rfl, rfl, ?_, ?_, ?_⟩
  · have h1 : (cexNetC3.addEdge cexEdgeC3 RoutingMode.Walking).1.edges.lookup 5
        = some (cexEdgeC3.calculateCost RoutingMode.Walking none) := rfl
    rw [h1]
    show (cexEdgeC3.calculateCost RoutingMode.Walking none).getCost RoutingMode.Walking
        = some 720
    have h2 : (cexEdgeC3.calculateCost RoutingMode.Walking none).getCost RoutingMode.Walking
        = some (cexEdgeC3.length / 1000 / RoutingMode.Walking.default_speed * 3600) := by
      simp [Edge.calculateCost, Edge.getCost, lookup_updA_self]
    rw [h2]
    norm_num [cexEdgeC3, RoutingMode.default_speed]
  · norm_num [cexEdgeC3]
  · norm_num

/-- C3 amended: for every edge that has no cached cost for the given mode and
whose endpoints are present in the graph, `add_edge` computes and caches the
cost for that mode using the mode's default speed, ignoring the edge's own
max-speed entirely. -/
theorem claim_C3_amended (n : Network) (e : Edge) (m : RoutingMode)
    (hnc : e.costs.lookup m = none)
    (si ti : ℕ)
    (hs : n.node_index_map.lookup e.source = some si)
    (ht : n.node_index_map.lookup e.target = some ti) :
    ((n.addEdge e m).1.edges.lookup e.id).bind (fun ed => ed.getCost m)
      = some (e.length / 1000 / m.default_speed * 3600) ∧
    (n.addEdge e m).2 = .ok () := by
  have hedge : (if (e.costs.lookup m).isSome = true then e
      else e.calculateCost m none) = e.calculateCost m none := by
    simp [hnc]
  have hv : (e.calculateCost m none).getCost m
      = some (e.length / 1000 / m.default_speed * 3600) := by
    simp [Edge.calculateCost, Edge.getCost, lookup_updA_self]
  have hsrc : (e.calculateCost m none).source = e.source := rfl
  have htgt : (e.calculateCost m none).target = e.target := rfl
  have hid : (e.calculateCost m none).id = e.id := rfl
  unfold Network.addEdge Network.addEdgeWith
  rw [hedge, hv, hsrc, htgt, hs, ht]
  constructor
  · simp only [hid]
    rw [lookup_updA_self]
    simp [hv]
  · rfl

/-- Witness for the amended C3 at a concrete input. -/
theorem claim_C3_amended_witness :
    ((cexNetC3.addEdge cexEdgeC3 RoutingMode.Walking).1.edges.lookup
        cexEdgeC3.id).bind (fun ed => ed.getCost RoutingMode.Walking)
      = some (cexEdgeC3.length / 1000 / RoutingMode.Walking.default_speed * 3600) ∧
    (cexNetC3.addEdge cexEdgeC3 RoutingMode.Walking).2 = .ok () :=
  claim_C3_amended cexNetC3 cexEdgeC3 RoutingMode.Walking rfl 0 1 rfl rfl

/-! ## The priority queue and adjacency iteration -/

/-- Model of `BinaryHeap::pop` for the reversed-cost ordering: remove one
element of minimal cost (the leftmost minimal one; the Rust tie order among
equal costs is unspecified, and no theorem below depends on the choice). -/
def popMin : List (ℕ × ℚ) → Option ((ℕ × ℚ) × List (ℕ × ℚ))
  | [] => none
  | x :: xs =>
    match popMin xs with
    | none => some (x, [])
    | some (m, rest) => if x.2 ≤ m.2 then some (x, xs) else some (m, x :: rest)

/-- Model of petgraph `UnGraph::edges(u)`: all arcs incident to the node index
`u`, oriented away from `u` (the pair is (other endpoint index, cost)); a
self-loop is listed once. -/
def adjOf (es : List (ℕ × ℕ × EdgeWithCost)) (u : ℕ) : List (ℕ × ℚ) :=
  es.foldr (fun e acc =>
    (if e.1 = u then [(e.2.1, e.2.2.cost)] else []) ++
    (if e.2.1 = u ∧ e.1 ≠ e.2.1 then [(e.1, e.2.2.cost)] else []) ++ acc) []

/-- Node weight lookup (`Graph::node_weight`) composed with the `id` field. -/
def weightId (gnodes : List Node) (i : ℕ) : Option ℕ :=
  (gnodes.get? i).map Node.id

/-! ## Point-to-point Dijkstra (contraction.rs) -/

/-- Mutable state of `ContractionHierarchy::dijkstra_search`: the tentative
distance map, the predecessor map (both keyed by node index) and the frontier
heap. -/
structure DijState : Type where
  distances : List (ℕ × ℚ)
  predecessors : List (ℕ × ℕ)
  heap : List (ℕ × ℚ)
deriving Repr, DecidableEq

/-- Body of the `for edge in graph.edges(node)` relaxation loop of
`dijkstra_search`, folded over the arcs incident to the popped node `u`
(popped with cost `c`). -/
def dijRelaxStep (u : ℕ) (c : ℚ) (s : DijState) (a : ℕ × ℚ) : DijState :=
  let new_cost := c + a.2
  let improved : Bool :=
    match s.distances.lookup a.1 with
    | some d => decide (new_cost < d)
    | none => true
  if improved = true then
    ⟨updA s.distances a.1 new_cost, updA s.predecessors a.1 u,
     (a.1, new_cost) :: s.heap⟩
  else s

/-- The relaxation loop is a fold of `dijRelaxStep` over the incident arcs. -/
def dijRelax (u : ℕ) (c : ℚ) (st : DijState) (arcs : List (ℕ × ℚ)) : DijState :=
  arcs.foldl (dijRelaxStep u c) st

/-- Predecessor walk of the path reconstruction: the list of nodes visited by
`while let Some(&pred) = predecessors.get(&current)`, starting at `current`
(nodes without a predecessor entry, i.e. the source, are not listed). -/
def chase (preds : List (ℕ × ℕ)) : ℕ → ℕ → Option (List ℕ)
  | _, 0 => none
  | current, fuel+1 =>
    match preds.lookup current with
    | none => some []
    | some p => (chase preds p fuel).map (fun l => current :: l)

/-- Path reconstruction of `dijkstra_search` at the target pop: push the id of
every predecessor-linked node starting from the target (skipping indices with
no node weight, as the `if let` does), then the id of the source, and reverse. -/
def reconstructPath (gnodes : List Node) (preds : List (ℕ × ℕ))
    (from_idx to_idx : ℕ) (fuel : ℕ) : Option (List ℕ) :=
  (chase preds to_idx fuel).map (fun l =>
    (l.filterMap (weightId gnodes) ++ (weightId gnodes from_idx).toList).reverse)

/-- Main loop of `dijkstra_search`, with fuel.  Returning `none` means the loop
did not finish within `fuel` iterations (the reconstruction walk also draws on
the same fuel). -/
def dijkstraLoop (gnodes : List Node) (es : List (ℕ × ℕ × EdgeWithCost))
    (from_idx to_idx : ℕ) :
    ℕ → DijState → Option (Except RoutingError (Option (ℚ × List ℕ)))
  | 0, _ => none
  | fuel+1, st =>
    match popMin st.heap with
    | none => some (Except.ok none)
    | some ((node, cost), rest) =>
      if node = to_idx then
        match reconstructPath gnodes st.predecessors from_idx to_idx (fuel+1) with
        | none => none
        | some path => some (Except.ok (some (cost, path)))
      else
        match st.distances.lookup node with
        | some d =>
          if cost > d then
            dijkstraLoop gnodes es from_idx to_idx fuel ⟨st.distances, st.predecessors, rest⟩
          else
            dijkstraLoop gnodes es from_idx to_idx fuel
              (dijRelax node cost ⟨st.distances, st.predecessors, rest⟩ (adjOf es node))
        | none =>
          dijkstraLoop gnodes es from_idx to_idx fuel
            (dijRelax node cost ⟨st.distances, st.predecessors, rest⟩ (adjOf es node))

/-- Perform shortest path search using basic Dijkstra
(`ContractionHierarchy::shortest_path`; the "contraction hierarchy" stores the
original network unchanged, so the model takes the network directly). -/
def shortestPath (n : Network) (from_node_id to_node_id : ℕ) (fuel : ℕ) :
    Option (Except RoutingError (Option (ℚ × List ℕ))) :=
  match n.node_index_map.lookup from_node_id with
  | none =>
    some (.error (.Network ("Node " ++ toString from_node_id ++ " not found")))
  | some from_idx =>
    match n.node_index_map.lookup to_node_id with
    | none =>
      some (.error (.Network ("Node " ++ toString to_node_id ++ " not found")))
    | some to_idx =>
      dijkstraLoop n.graphNodes n.graphEdges from_idx to_idx fuel
        ⟨[(from_idx, 0)], [], [(from_idx, 0)]⟩

/-! ## Isochrone search (isochrone.rs) -/

/-- Mutable state of `IsochroneCalculator::dijkstra_isochrone`: the distance
map keyed by node id, and the frontier heap of (node id, cost) entries. -/
structure IsoState : Type where
  distances : List (ℕ × ℚ)
  heap : List (ℕ × ℚ)
deriving Repr, DecidableEq

/-- Body of the neighbor-exploration loop of `dijkstra_isochrone`, folded over
the arcs incident to the index of the popped node id (popped with cost `c`):
candidates beyond `maxCost` are discarded, neighbor indices without a node
weight are skipped, and improvements are recorded by node id. -/
def isoRelaxStep (gnodes : List Node) (c maxCost : ℚ) (s : IsoState)
    (a : ℕ × ℚ) : IsoState :=
  let new_cost := c + a.2
  if new_cost > maxCost then s
  else
    match weightId gnodes a.1 with
    | none => s
    | some neighbor_id =>
      let is_better : Bool :=
        match s.distances.lookup neighbor_id with
        | some existing => decide (new_cost < existing)
        | none => true
      if is_better = true then
        ⟨updA s.distances neighbor_id new_cost, (neighbor_id, new_cost) :: s.heap⟩
      else s

/-- The neighbor-exploration loop is a fold of `isoRelaxStep` over the arcs. -/
def isoRelax (gnodes : List Node) (c maxCost : ℚ) (st : IsoState)
    (arcs : List (ℕ × ℚ)) : IsoState :=
  arcs.foldl (isoRelaxStep gnodes c maxCost) st

/-- Processing of one popped, non-stale entry of `dijkstra_isochrone`: skip it
entirely when its cost exceeds `maxCost` or when its id has no node index,
otherwise relax all incident arcs.  The graph is passed as its three
search-relevant components (node weights, arcs, id-to-index map). -/
def isoExpand (gnodes : List Node) (es : List (ℕ × ℕ × EdgeWithCost))
    (idxMap : List (ℕ × ℕ)) (maxCost : ℚ) (u : ℕ) (c : ℚ) (st : IsoState) : IsoState :=
  if c > maxCost then st
  else
    match idxMap.lookup u with
    | none => st
    | some current_idx => isoRelax gnodes c maxCost st (adjOf es current_idx)

/-- Main loop of `dijkstra_isochrone`, with fuel; `none` means the loop did not
finish within `fuel` iterations. -/
def isoLoop (gnodes : List Node) (es : List (ℕ × ℕ × EdgeWithCost))
    (idxMap : List (ℕ × ℕ)) (maxCost : ℚ) : ℕ → IsoState → Option (List (ℕ × ℚ))
  | 0, _ => none
  | fuel+1, st =>
    match popMin st.heap with
    | none => some st.distances
    | some ((u, c), rest) =>
      match st.distances.lookup u with
      | some best =>
        if c > best then isoLoop gnodes es idxMap maxCost fuel ⟨st.distances, rest⟩
        else isoLoop gnodes es idxMap maxCost fuel
          (isoExpand gnodes es idxMap maxCost u c ⟨st.distances, rest⟩)
      | none => isoLoop gnodes es idxMap maxCost fuel
          (isoExpand gnodes es idxMap maxCost u c ⟨st.distances, rest⟩)

/-- Dijkstra-based search to find all reachable nodes within the cost limit
(`IsochroneCalculator::dijkstra_isochrone`): check the start id, seed the
distance map and frontier with the start node at cost 0, and run the loop. -/
def dijkstraIsochrone (n : Network) (start_node_id : ℕ) (maxCost : ℚ) (fuel : ℕ) :
    Option (Except RoutingError (List (ℕ × ℚ))) :=
  match n.node_index_map.lookup start_node_id with
  | none =>
    some (.error (.Network ("Start node " ++ toString start_node_id ++ " not found")))
  | some _ =>
    (isoLoop n.graphNodes n.graphEdges n.node_index_map maxCost fuel
      ⟨[(start_node_id, 0)], [(start_node_id, 0)]⟩).map .ok

/-- Result of isochrone calculation (`IsochroneResult`). -/
structure IsochroneResult : Type where
  travel_costs : List (ℕ × ℚ)
  max_cost : ℚ
  reachable_nodes : ℕ
  start_node : ℕ
deriving Repr, DecidableEq

/-- Calculate a detailed isochrone from a starting node
(`IsochroneCalculator::calculate`). -/
def calculate (n : Network) (start_node_id : ℕ) (maxCost : ℚ) (fuel : ℕ) :
    Option (Except RoutingError IsochroneResult) :=
  match dijkstraIsochrone n start_node_id maxCost fuel with
  | none => none
  | some (.error e) => some (.error e)
  | some (.ok travel_costs) =>
    some (.ok ⟨travel_costs, maxCost, travel_costs.length, start_node_id⟩)

/-! ## C5: unknown node ids fail with a lookup error -/

/-- C5: for every network and every fuel, `shortest_path` returns a network
lookup error whenever the source or the target id is absent from the node
lookup, and `calculate` returns a network lookup error whenever the start id
is absent; in particular neither ever returns a normal result there. -/
theorem claim_C5_unknown_node_errors :
    (∀ (n : Network) (a b : ℕ) (fuel : ℕ),
      n.node_index_map.lookup a = none ∨ n.node_index_map.lookup b = none →
      ∃ s, shortestPath n a b fuel = some (.error (.Network s))) ∧
    (∀ (n : Network) (s0 : ℕ) (T : ℚ) (fuel : ℕ),
      n.node_index_map.lookup s0 = none →
      ∃ s, calculate n s0 T fuel = some (.error (.Network s))) := by
  constructor
  · intro n a b fuel h
    unfold shortestPath
    rcases h with h | h
    · rw [h]
      exact ⟨_, rfl⟩
    · cases ha : n.node_index_map.lookup a with
      | none => exact ⟨_, rfl⟩
      | some fi =>
        rw [h]
        exact ⟨_, rfl⟩
  · intro n s0 T fuel h
    unfold calculate dijkstraIsochrone
    rw [h]
    exact ⟨_, rfl⟩

/-- Witness for C5 at concrete inputs: the empty network knows no node ids. -/
theorem claim_C5_unknown_node_errors_witness :
    (∃ s, shortestPath Network.new 1 2 7 = some (.error (.Network s))) ∧
    (∃ s, calculate Network.new 3 60 7 = some (.error (.Network s))) :=
  ⟨claim_C5_unknown_node_errors.1 Network.new 1 2 7 (Or.inl rfl),
   claim_C5_unknown_node_errors.2 Network.new 3 60 7 rfl⟩

/-! ## C7: the oneway flag never influences storage seen by the searches -/

/-- Agreement of two networks on every component the searches and subsequent
`add_node`/`add_edge` control flow can read (everything except the stored
`Edge` records, which keep the oneway metadata). -/
def SearchEq (n₁ n₂ : Network) : Prop :=
  n₁.graphNodes = n₂.graphNodes ∧ n₁.graphEdges = n₂.graphEdges ∧
  n₁.node_index_map = n₂.node_index_map ∧ n₁.edge_index_map = n₂.edge_index_map ∧
  n₁.nodes = n₂.nodes

theorem addEdgeWith_searchEq (n₁ n₂ : Network) (e₁ e₂ : Edge) (m : RoutingMode)
    (hid : e₁.id = e₂.id) (hsrc : e₁.source = e₂.source) (htgt : e₁.target = e₂.target)
    (hc : e₁.costs = e₂.costs) (h : SearchEq n₁ n₂) :
    SearchEq (n₁.addEdgeWith e₁ m).1 (n₂.addEdgeWith e₂ m).1 := by
  obtain ⟨h1, h2, h3, h4, h5⟩ := h
  have hg : e₂.getCost m = e₁.getCost m := by
    unfold Edge.getCost; rw [hc]
  unfold Network.addEdgeWith
  rw [hg]
  cases hgc : e₁.getCost m with
  | none => exact ⟨h1, h2, h3, h4, h5⟩
  | some cost =>
    rw [← hsrc, ← h3]
    cases hs : n₁.node_index_map.lookup e₁.source with
    | none => exact ⟨h1, h2, h3, h4, h5⟩
    | some si =>
      rw [← htgt]
      cases ht : n₁.node_index_map.lookup e₁.target with
      | none => exact ⟨h1, h2, h3, h4, h5⟩
      | some ti =>
        refine ⟨h1, ?_, rfl, ?_, h5⟩
        · show n₁.graphEdges ++ _ = n₂.graphEdges ++ _
          rw [h2, hid]
        · show updA n₁.edge_index_map e₁.id n₁.graphEdges.length
            = updA n₂.edge_index_map e₂.id n₂.graphEdges.length
          rw [h2, h4, hid]

theorem addEdge_searchEq (n₁ n₂ : Network) (e₁ e₂ : Edge) (m : RoutingMode)
    (hid : e₁.id = e₂.id) (hsrc : e₁.source = e₂.source) (htgt : e₁.target = e₂.target)
    (hc : e₁.costs = e₂.costs) (hlen : e₁.length = e₂.length) (h : SearchEq n₁ n₂) :
    SearchEq (n₁.addEdge e₁ m).1 (n₂.addEdge e₂ m).1 := by
  unfold Network.addEdge
  rw [← hc]
  by_cases hcs : (e₁.costs.lookup m).isSome = true
  · simp only [hcs, if_true]
    exact addEdgeWith_searchEq n₁ n₂ e₁ e₂ m hid hsrc htgt hc h
  · simp only [hcs, if_false]
    refine addEdgeWith_searchEq n₁ n₂ _ _ m hid hsrc htgt ?_ h
    show updA e₁.costs m _ = updA e₂.costs m _
    rw [hc, hlen]

/-- Build step: either `add_node` or `add_edge` for a mode. -/
inductive BuildOp : Type where
  | node : Node → BuildOp
  | edge : Edge → RoutingMode → BuildOp

/-- Apply a build step to a network (discarding the `add_edge` status, as the
loaders do when they continue building). -/
def applyOp (n : Network) : BuildOp → Network
  | .node nd => n.addNode nd
  | .edge e m => (n.addEdge e m).1

/-- Build a network from a sequence of build steps. -/
def buildNetwork (ops : List BuildOp) : Network := ops.foldl applyOp Network.new

/-- Normalize the oneway flag of an edge build step; two op lists with the
same image under this map differ only in oneway flags. -/
def eraseOneway : BuildOp → BuildOp
  | .node nd => .node nd
  | .edge e m => .edge { e with oneway := false } m

theorem applyOp_searchEq (n₁ n₂ : Network) (op₁ op₂ : BuildOp)
    (hop : eraseOneway op₁ = eraseOneway op₂) (h : SearchEq n₁ n₂) :
    SearchEq (applyOp n₁ op₁) (applyOp n₂ op₂) := by
  cases op₁ with
  | node nd₁ =>
    cases op₂ with
    | node nd₂ =>
      have hnd : nd₁ = nd₂ := by simpa [eraseOneway] using hop
      subst hnd
      obtain ⟨h1, h2, h3, h4, h5⟩ := h
      exact ⟨by simp [applyOp, Network.addNode, h1],
             by simp [applyOp, Network.addNode, h2],
             by simp [applyOp, Network.addNode, h1, h3],
             by simp [applyOp, Network.addNode, h4],
             by simp [applyOp, Network.addNode, h5]⟩
    | edge e₂ m₂ => simp [eraseOneway] at hop
  | edge e₁ m₁ =>
    cases op₂ with
    | node nd₂ => simp [eraseOneway] at hop
    | edge e₂ m₂ =>
      simp only [eraseOneway, BuildOp.edge.injEq] at hop
      obtain ⟨he, hm⟩ := hop
      subst hm
      have hid := congrArg Edge.id he
      have hsrc := congrArg Edge.source he
      have htgt := congrArg Edge.target he
      have hc := congrArg Edge.costs he
      have hlen := congrArg Edge.length he
      exact addEdge_searchEq n₁ n₂ _ _ m₁ hid hsrc htgt hc hlen h

theorem buildNetwork_searchEq_aux (ops₁ ops₂ : List BuildOp)
    (h : ops₁.map eraseOneway = ops₂.map eraseOneway) :
    ∀ n₁ n₂ : Network, SearchEq n₁ n₂ →
      SearchEq (ops₁.foldl applyOp n₁) (ops₂.foldl applyOp n₂) := by
  induction ops₁ generalizing ops₂ with
  | nil =>
    cases ops₂ with
    | nil => intro n₁ n₂ hn; exact hn
    | cons op₂ t₂ => simp at h
  | cons op₁ t₁ ih =>
    cases ops₂ with
    | nil => simp at h
    | cons op₂ t₂ =>
      simp only [List.map, List.cons.injEq] at h
      intro n₁ n₂ hn
      exact ih t₂ h.2 _ _ (applyOp_searchEq n₁ n₂ op₁ op₂ h.1 hn)

/-- C7: building a network from two op sequences that differ only in the
oneway flags of the edges they add produces identical results for every
`shortest_path` query and every isochrone `calculate` query: the stored graph
is traversable in both directions regardless of the oneway metadata, which is
recorded but never read by the searches. -/
theorem claim_C7_oneway_noninterference (ops₁ ops₂ : List BuildOp)
    (h : ops₁.map eraseOneway = ops₂.map eraseOneway)
    (a b s0 : ℕ) (T : ℚ) (fuel fuel' : ℕ) :
    shortestPath (buildNetwork ops₁) a b fuel = shortestPath (buildNetwork ops₂) a b fuel ∧
    calculate (buildNetwork ops₁) s0 T fuel' = calculate (buildNetwork ops₂) s0 T fuel' := by
  obtain ⟨h1, h2, h3, h4, h5⟩ :=
    buildNetwork_searchEq_aux ops₁ ops₂ h Network.new Network.new
      ⟨rfl, rfl, rfl, rfl, rfl⟩
  constructor
  · unfold shortestPath buildNetwork
    rw [h1, h2, h3]
  · unfold calculate dijkstraIsochrone buildNetwork
    rw [h1, h2, h3]

/-- Witness for C7: flipping the oneway flag of the single edge of a concrete
two-node network changes neither query result. -/
theorem claim_C7_oneway_noninterference_witness :
    shortestPath (buildNetwork [.node ⟨1, 0, 0, none⟩, .node ⟨2, 0, 0, none⟩,
        .edge ⟨5, 1, 2, 1000, [], none, true, none, none⟩ RoutingMode.Walking]) 1 2 9
      = shortestPath (buildNetwork [.node ⟨1, 0, 0, none⟩, .node ⟨2, 0, 0, none⟩,
        .edge ⟨5, 1, 2, 1000, [], none, false, none, none⟩ RoutingMode.Walking]) 1 2 9 ∧
    calculate (buildNetwork [.node ⟨1, 0, 0, none⟩, .node ⟨2, 0, 0, none⟩,
        .edge ⟨5, 1, 2, 1000, [], none, true, none, none⟩ RoutingMode.Walking]) 1 3600 9
      = calculate (buildNetwork [.node ⟨1, 0, 0, none⟩, .node ⟨2, 0, 0, none⟩,
        .edge ⟨5, 1, 2, 1000, [], none, false, none, none⟩ RoutingMode.Walking]) 1 3600 9 :=
  claim_C7_oneway_noninterference _ _ rfl 1 2 1 3600 9 9

/-! ## Properties of popMin and of lookup -/

theorem popMin_none_iff (l : List (ℕ × ℚ)) : popMin l = none ↔ l = [] := by
  cases l with
  | nil => simp [popMin]
  | cons x xs =>
    simp only [popMin]
    cases h : popMin xs with
    | none => simp
    | some p =>
      cases p with
      | mk m rest => by_cases hle : x.2 ≤ m.2 <;> simp [hle]

theorem popMin_perm (l : List (ℕ × ℚ)) (x : ℕ × ℚ) (r : List (ℕ × ℚ))
    (h : popMin l = some (x, r)) : l.Perm (x :: r) := by
  induction l generalizing x r with
  | nil => simp [popMin] at h
  | cons a xs ih =>
    simp only [popMin] at h
    cases hxs : popMin xs with
    | none =>
      rw [hxs] at h
      have hnil : xs = [] := (popMin_none_iff xs).mp hxs
      subst hnil
      simp at h
      obtain ⟨h1, h2⟩ := h
      subst h1; subst h2
      exact List.Perm.refl _
    | some p =>
      cases p with
      | mk m rest =>
        rw [hxs] at h
        by_cases hle : a.2 ≤ m.2
        · simp [hle] at h
          obtain ⟨h1, h2⟩ := h
          subst h1; subst h2
          exact List.Perm.refl _
        · simp [hle] at h
          obtain ⟨h1, h2⟩ := h
          subst h1; subst h2
          have hp := ih m rest hxs
          have h1 : (a :: xs).Perm (a :: m :: rest) := List.Perm.cons a hp
          exact h1.trans (List.Perm.swap m a rest)

theorem popMin_le (l : List (ℕ × ℚ)) (x : ℕ × ℚ) (r : List (ℕ × ℚ))
    (h : popMin l = some (x, r)) : ∀ e ∈ l, x.2 ≤ e.2 := by
  induction l generalizing x r with
  | nil => simp [popMin] at h
  | cons a xs ih =>
    simp only [popMin] at h
    cases hxs : popMin xs with
    | none =>
      rw [hxs] at h
      have hnil : xs = [] := (popMin_none_iff xs).mp hxs
      subst hnil
      simp at h
      obtain ⟨h1, _⟩ := h
      subst h1
      intro e he
      simp at he
      subst he
      exact le_refl _
    | some p =>
      cases p with
      | mk m rest =>
        rw [hxs] at h
        by_cases hle : a.2 ≤ m.2
        · simp [hle] at h
          obtain ⟨h1, _⟩ := h
          subst h1
          intro e he
          rcases List.mem_cons.mp he with he | he
          · subst he; exact le_refl _
          · exact le_trans hle (ih m rest hxs e he)
        · simp [hle] at h
          obtain ⟨h1, _⟩ := h
          subst h1
          intro e he
          rcases List.mem_cons.mp he with he | he
          · subst he; exact le_of_lt (lt_of_not_le hle)
          · exact ih m rest hxs e he

theorem popMin_mem (l : List (ℕ × ℚ)) (x : ℕ × ℚ) (r : List (ℕ × ℚ))
    (h : popMin l = some (x, r)) : x ∈ l :=
  (popMin_perm l x r h).mem_iff.mpr (List.mem_cons_self x r)

theorem popMin_sub (l : List (ℕ × ℚ)) (x : ℕ × ℚ) (r : List (ℕ × ℚ))
    (h : popMin l = some (x, r)) : ∀ e ∈ r, e ∈ l := by
  intro e he
  exact (popMin_perm l x r h).mem_iff.mpr (List.mem_cons_of_mem x he)

theorem lookup_eq_none_of_not_mem {β : Type} (m : List (ℕ × β)) (k : ℕ)
    (h : ∀ p ∈ m, p.1 ≠ k) : m.lookup k = none := by
  induction m with
  | nil => rfl
  | cons a t ih =>
    have ha : a.1 ≠ k := h a (List.mem_cons_self a t)
    have hb : (k == a.1) = false := beq_eq_false_iff_ne.mpr (fun hk => ha hk.symm)
    cases a with
    | mk a1 a2 =>
      simp only [List.lookup, hb]
      exact ih (fun p hp => h p (List.mem_cons_of_mem _ hp))

theorem lookup_isSome_mem {β : Type} (m : List (ℕ × β)) (k : ℕ) (v : β)
    (h : m.lookup k = some v) : (k, v) ∈ m := by
  induction m with
  | nil => simp [List.lookup] at h
  | cons a t ih =>
    cases a with
    | mk a1 a2 =>
      by_cases hk : k = a1
      · subst hk
        simp [List.lookup] at h
        subst h
        exact List.mem_cons_self _ _
      · have hb : (k == a1) = false := beq_eq_false_iff_ne.mpr hk
        simp only [List.lookup, hb] at h
        exact List.mem_cons_of_mem _ (ih h)

/-! ## The effective id-level graph explored by the isochrone search -/

/-- Arcs of an incidence list translated to node ids, dropping arcs whose
endpoint index has no node weight (as the search does). -/
def idArcsOf (gnodes : List Node) (arcs : List (ℕ × ℚ)) : List (ℕ × ℚ) :=
  arcs.filterMap (fun a => (weightId gnodes a.1).map (fun j => (j, a.2)))

/-- One relaxation step of the isochrone search phrased on node ids. -/
def relaxId (c maxCost : ℚ) (s : IsoState) (a : ℕ × ℚ) : IsoState :=
  let new_cost := c + a.2
  if new_cost > maxCost then s
  else
    let is_better : Bool :=
      match s.distances.lookup a.1 with
      | some existing => decide (new_cost < existing)
      | none => true
    if is_better = true then
      ⟨updA s.distances a.1 new_cost, (a.1, new_cost) :: s.heap⟩
    else s

/-- Effective id-level adjacency explored when expanding node id `u`: empty
when `u` has no node index, otherwise the id-translated incidence list of that
index. -/
def idAdj (gnodes : List Node) (es : List (ℕ × ℕ × EdgeWithCost))
    (idxMap : List (ℕ × ℕ)) (u : ℕ) : List (ℕ × ℚ) :=
  match idxMap.lookup u with
  | none => []
  | some i => idArcsOf gnodes (adjOf es i)

theorem isoRelaxStep_eq (gnodes : List Node) (c maxCost : ℚ) (s : IsoState)
    (a : ℕ × ℚ) :
    isoRelaxStep gnodes c maxCost s a
      = match weightId gnodes a.1 with
        | none => s
        | some j => relaxId c maxCost s (j, a.2) := by
  cases hw : weightId gnodes a.1 with
  | none =>
    by_cases hg : c + a.2 > maxCost
    · simp [isoRelaxStep, hg]
    · simp [isoRelaxStep, hg, hw]
  | some j =>
    by_cases hg : c + a.2 > maxCost
    · simp [isoRelaxStep, relaxId, hg]
    · simp [isoRelaxStep, relaxId, hg, hw]

theorem isoRelax_eq (gnodes : List Node) (c maxCost : ℚ) (arcs : List (ℕ × ℚ)) :
    ∀ st, isoRelax gnodes c maxCost st arcs
      = (idArcsOf gnodes arcs).foldl (relaxId c maxCost) st := by
  induction arcs with
  | nil => intro st; rfl
  | cons a t ih =>
    intro st
    show (a :: t).foldl (isoRelaxStep gnodes c maxCost) st = _
    rw [List.foldl_cons, isoRelaxStep_eq]
    cases hw : weightId gnodes a.1 with
    | none =>
      have harcs : idArcsOf gnodes (a :: t) = idArcsOf gnodes t := by
        simp [idArcsOf, List.filterMap, hw]
      rw [harcs]
      exact ih st
    | some j =>
      have harcs : idArcsOf gnodes (a :: t) = (j, a.2) :: idArcsOf gnodes t := by
        simp [idArcsOf, List.filterMap, hw]
      rw [harcs, List.foldl_cons]
      exact ih _

theorem isoExpand_eq (gnodes : List Node) (es : List (ℕ × ℕ × EdgeWithCost))
    (idxMap : List (ℕ × ℕ)) (maxCost : ℚ) (u : ℕ) (c : ℚ) (st : IsoState) :
    isoExpand gnodes es idxMap maxCost u c st
      = if c > maxCost then st
        else (idAdj gnodes es idxMap u).foldl (relaxId c maxCost) st := by
  unfold isoExpand idAdj
  by_cases hg : c > maxCost
  · simp [hg]
  · simp only [hg, if_false]
    cases hl : idxMap.lookup u with
    | none => rfl
    | some i => exact isoRelax_eq gnodes c maxCost (adjOf es i) st

/-! ## Specification of the relaxation fold -/

theorem relaxId_cases (c T : ℚ) (s : IsoState) (a : ℕ × ℚ) :
    (relaxId c T s a = s ∧
      (T < c + a.2 ∨ ∃ d, s.distances.lookup a.1 = some d ∧ d ≤ c + a.2)) ∨
    (relaxId c T s a
        = ⟨updA s.distances a.1 (c + a.2), (a.1, c + a.2) :: s.heap⟩ ∧
      c + a.2 ≤ T ∧ ∀ d, s.distances.lookup a.1 = some d → c + a.2 < d) := by
  by_cases hg : c + a.2 > T
  · left
    exact ⟨by simp [relaxId, hg], Or.inl hg⟩
  · have hT : c + a.2 ≤ T := le_of_not_lt hg
    cases hl : s.distances.lookup a.1 with
    | none =>
      right
      refine ⟨?_, hT, ?_⟩
      · simp [relaxId, hg, hl]
      · intro d hd; cases hd
    | some d =>
      by_cases hlt : c + a.2 < d
      · right
        refine ⟨?_, hT, ?_⟩
        · simp [relaxId, hg, hl, hlt]
        · intro d' hd'; cases hd'; exact hlt
      · left
        refine ⟨?_, Or.inr ⟨d, rfl, le_of_not_lt hlt⟩⟩
        simp [relaxId, hg, hl, hlt]

theorem foldRelax_dom (c T : ℚ) (L : List (ℕ × ℚ)) :
    ∀ st v d, st.distances.lookup v = some d →
      ∃ d', (L.foldl (relaxId c T) st).distances.lookup v = some d' ∧ d' ≤ d := by
  induction L with
  | nil => intro st v d h; exact ⟨d, h, le_refl d⟩
  | cons a t ih =>
    intro st v d h
    rw [List.foldl_cons]
    rcases relaxId_cases c T st a with ⟨heq, _⟩ | ⟨heq, _, himp⟩
    · rw [heq]; exact ih st v d h
    · rw [heq]
      by_cases hv : v = a.1
      · subst hv
        obtain ⟨d', hd', hle⟩ := ih ⟨updA st.distances a.1 (c + a.2),
          (a.1, c + a.2) :: st.heap⟩ a.1 (c + a.2) (lookup_updA_self _ _ _)
        exact ⟨d', hd', le_trans hle (le_of_lt (himp d h))⟩
      · obtain ⟨d', hd', hle⟩ := ih ⟨updA st.distances a.1 (c + a.2),
          (a.1, c + a.2) :: st.heap⟩ v d
          (by show (updA st.distances a.1 (c + a.2)).lookup v = some d
              rw [lookup_updA_ne _ _ _ _ hv]; exact h)
        exact ⟨d', hd', hle⟩

theorem foldRelax_heap_super (c T : ℚ) (L : List (ℕ × ℚ)) :
    ∀ st e, e ∈ st.heap → e ∈ (L.foldl (relaxId c T) st).heap := by
  induction L with
  | nil => intro st e he; exact he
  | cons a t ih =>
    intro st e he
    rw [List.foldl_cons]
    rcases relaxId_cases c T st a with ⟨heq, _⟩ | ⟨heq, _, _⟩
    · rw [heq]; exact ih st e he
    · rw [heq]; exact ih _ e (List.mem_cons_of_mem _ he)

theorem foldRelax_new (c T : ℚ) (L : List (ℕ × ℚ)) :
    ∀ st v d', (L.foldl (relaxId c T) st).distances.lookup v = some d' →
      st.distances.lookup v = some d' ∨
        ((v, d') ∈ (L.foldl (relaxId c T) st).heap ∧
         ∃ w, (v, w) ∈ L ∧ d' = c + w ∧ c + w ≤ T) := by
  induction L with
  | nil => intro st v d' h; exact Or.inl h
  | cons a t ih =>
    intro st v d' h
    rw [List.foldl_cons] at h
    rcases relaxId_cases c T st a with ⟨heq, _⟩ | ⟨heq, hT, _⟩
    · rw [heq] at h
      rcases ih st v d' h with h' | ⟨hmem, w, hw, he, hT'⟩
      · exact Or.inl h'
      · exact Or.inr ⟨by rw [List.foldl_cons, heq]; exact hmem,
          w, List.mem_cons_of_mem _ hw, he, hT'⟩
    · rw [heq] at h
      rcases ih _ v d' h with h' | ⟨hmem, w, hw, he, hT'⟩
      · by_cases hv : v = a.1
        · subst hv
          rw [lookup_updA_self] at h'
          cases h'
          refine Or.inr ⟨?_, a.2, List.mem_cons_self _ _, rfl, hT⟩
          rw [List.foldl_cons, heq]
          exact foldRelax_heap_super c T t _ _ (List.mem_cons_self _ _)
        · rw [lookup_updA_ne _ _ _ _ hv] at h'
          exact Or.inl h'
      · exact Or.inr ⟨by rw [List.foldl_cons, heq]; exact hmem,
          w, List.mem_cons_of_mem _ hw, he, hT'⟩

theorem foldRelax_heap_shape (c T : ℚ) (L : List (ℕ × ℚ)) :
    ∀ st, ∃ pushed,
      (L.foldl (relaxId c T) st).heap = pushed ++ st.heap ∧
      ∀ e ∈ pushed, (∃ w, (e.1, w) ∈ L ∧ e.2 = c + w ∧ e.2 ≤ T) ∧
        (∃ d', (L.foldl (relaxId c T) st).distances.lookup e.1 = some d' ∧ d' ≤ e.2) := by
  induction L with
  | nil => intro st; exact ⟨[], rfl, by intro e he; cases he⟩
  | cons a t ih =>
    intro st
    rw [List.foldl_cons]
    rcases relaxId_cases c T st a with ⟨heq, _⟩ | ⟨heq, hT, _⟩
    · rw [heq]
      obtain ⟨pushed, hp, hprops⟩ := ih st
      refine ⟨pushed, hp, ?_⟩
      intro e he
      obtain ⟨⟨w, hw, hew, hT'⟩, hd⟩ := hprops e he
      exact ⟨⟨w, List.mem_cons_of_mem _ hw, hew, hT'⟩, hd⟩
    · rw [heq]
      obtain ⟨pushed, hp, hprops⟩ := ih ⟨updA st.distances a.1 (c + a.2),
        (a.1, c + a.2) :: st.heap⟩
      refine ⟨pushed ++ [(a.1, c + a.2)], by rw [hp]; simp, ?_⟩
      intro e he
      rcases List.mem_append.mp he with he | he
      · obtain ⟨⟨w, hw, hew, hT'⟩, hd⟩ := hprops e he
        exact ⟨⟨w, List.mem_cons_of_mem _ hw, hew, hT'⟩, hd⟩
      · have : e = (a.1, c + a.2) := by simpa using he
        subst this
        refine ⟨⟨a.2, List.mem_cons_self _ _, rfl, hT⟩, ?_⟩
        exact foldRelax_dom c T t _ _ _ (lookup_updA_self _ _ _)

theorem foldRelax_closure (c T : ℚ) (L : List (ℕ × ℚ)) :
    ∀ st v w, (v, w) ∈ L → c + w ≤ T →
      ∃ d', (L.foldl (relaxId c T) st).distances.lookup v = some d' ∧ d' ≤ c + w := by
  induction L with
  | nil => intro st v w hw; cases hw
  | cons a t ih =>
    intro st v w hw hT
    rw [List.foldl_cons]
    rcases List.mem_cons.mp hw with hw | hw
    · obtain ⟨hv, hw2⟩ : v = a.1 ∧ w = a.2 := by cases hw; exact ⟨rfl, rfl⟩
      subst hv; subst hw2
      rcases relaxId_cases c T st a with ⟨heq, hnr⟩ | ⟨heq, _, _⟩
      · rw [heq]
        rcases hnr with hg | ⟨d, hd, hle⟩
        · exact absurd hT (not_le_of_lt hg)
        · obtain ⟨d', hd', hle'⟩ := foldRelax_dom c T t st _ _ hd
          exact ⟨d', hd', le_trans hle' hle⟩
      · rw [heq]
        obtain ⟨d', hd', hle'⟩ := foldRelax_dom c T t
          ⟨updA st.distances a.1 (c + a.2), (a.1, c + a.2) :: st.heap⟩ a.1 (c + a.2)
          (lookup_updA_self _ _ _)
        exact ⟨d', hd', hle'⟩
    · rcases relaxId_cases c T st a with ⟨heq, _⟩ | ⟨heq, _, _⟩
      · rw [heq]; exact ih st v w hw hT
      · rw [heq]; exact ih _ v w hw hT

theorem foldRelax_ha (c T : ℚ) (L : List (ℕ × ℚ)) (st : IsoState)
    (ha : ∀ e ∈ st.heap, ∃ d, st.distances.lookup e.1 = some d ∧ d ≤ e.2) :
    ∀ e ∈ (L.foldl (relaxId c T) st).heap,
      ∃ d, (L.foldl (relaxId c T) st).distances.lookup e.1 = some d ∧ d ≤ e.2 := by
  intro e he
  obtain ⟨pushed, hp, hprops⟩ := foldRelax_heap_shape c T L st
  rw [hp] at he
  rcases List.mem_append.mp he with he | he
  · obtain ⟨_, d', hd', hle⟩ := hprops e he
    exact ⟨d', hd', hle⟩
  · obtain ⟨d, hd, hle⟩ := ha e he
    obtain ⟨d', hd', hle'⟩ := foldRelax_dom c T L st _ _ hd
    exact ⟨d', hd', le_trans hle' hle⟩

/-! ## Threshold-bounded walks in the effective id graph -/

/-- Walk from `u` to `t` of (additional) cost `c` in the id graph `adj`, where
`acc` is the cost already accumulated before `u` and every accumulated value
along the walk (including `acc` itself and the final total) stays at most `T`:
these are exactly the walks the threshold-pruned search can traverse. -/
inductive TWalk (adj : ℕ → List (ℕ × ℚ)) (T : ℚ) : ℚ → ℕ → ℕ → ℚ → Prop where
  | nil : ∀ {acc : ℚ} {u : ℕ}, acc ≤ T → TWalk adj T acc u u 0
  | cons : ∀ {acc : ℚ} {u v t : ℕ} {w c : ℚ}, acc ≤ T → (v, w) ∈ adj u →
      TWalk adj T (acc + w) v t c → TWalk adj T acc u t (w + c)

theorem TWalk.acc_le {adj : ℕ → List (ℕ × ℚ)} {T acc : ℚ} {u t : ℕ} {c : ℚ}
    (h : TWalk adj T acc u t c) : acc ≤ T := by
  cases h with
  | nil h => exact h
  | cons h _ _ => exact h

theorem TWalk.snoc {adj : ℕ → List (ℕ × ℚ)} {T acc : ℚ} {u t : ℕ} {c : ℚ}
    (h : TWalk adj T acc u t c) :
    ∀ {x : ℕ} {w : ℚ}, (x, w) ∈ adj t → acc + c + w ≤ T →
      TWalk adj T acc u x (c + w) := by
  induction h with
  | @nil acc u hacc =>
    intro x w harc hT
    have h0 : TWalk adj T (acc + w) x x 0 := TWalk.nil (by linarith)
    have h1 := TWalk.cons hacc harc h0
    have hco : (0 : ℚ) + w = w + 0 := by ring
    rw [hco]
    exact h1
  | @cons acc u v t w c hacc harc hrest ih =>
    intro x w' harc' hT
    have hT' : (acc + w) + c + w' ≤ T := by linarith
    have h2 := ih harc' hT'
    have h3 := TWalk.cons hacc harc h2
    have hco : (w + c + w' : ℚ) = w + (c + w') := by ring
    rw [hco]
    exact h3

theorem TWalk.cost_nonneg {adj : ℕ → List (ℕ × ℚ)} {T acc : ℚ} {u t : ℕ} {c : ℚ}
    (hadj : ∀ x, ∀ a ∈ adj x, 0 ≤ a.2) (h : TWalk adj T acc u t c) : 0 ≤ c := by
  induction h with
  | nil _ => exact le_refl 0
  | @cons acc u v t w c hacc harc hrest ih =>
    have hw : 0 ≤ w := hadj u (v, w) harc
    linarith [ih]

/-! ## The loop invariant of the isochrone search -/

/-- Invariant of `dijkstra_isochrone`, valid for arbitrary (possibly negative)
arc costs: every heap entry is at least the recorded distance of its node;
the start node is recorded at a non-positive value; every recorded value is
within the threshold (except possibly the seeded start); every recorded node
either has a non-stale heap entry or has relaxed all its arcs (closure); and
every recorded value is witnessed by a threshold-bounded walk (soundness). -/
structure IsoInvB (adj : ℕ → List (ℕ × ℚ)) (start : ℕ) (T : ℚ) (st : IsoState) : Prop where
  ha : ∀ e ∈ st.heap, ∃ d, st.distances.lookup e.1 = some d ∧ d ≤ e.2
  hstart : ∃ d, st.distances.lookup start = some d ∧ d ≤ 0
  hbound : ∀ v d, st.distances.lookup v = some d → d ≤ T ∨ (v = start ∧ d = 0)
  hcl : ∀ u d, st.distances.lookup u = some d →
    (∃ e ∈ st.heap, e.1 = u ∧ e.2 ≤ d) ∨
    (d ≤ T → ∀ a ∈ adj u, d + a.2 ≤ T →
      ∃ d', st.distances.lookup a.1 = some d' ∧ d' ≤ d + a.2)
  hsnd : ∀ v d, st.distances.lookup v = some d →
    (v = start ∧ d = 0) ∨ ∃ c', TWalk adj T 0 start v c' ∧ c' ≤ d

theorem isoInvB_stale (adj : ℕ → List (ℕ × ℚ)) (start : ℕ) (T : ℚ) (st : IsoState)
    (inv : IsoInvB adj start T st) (u : ℕ) (c : ℚ) (rest : List (ℕ × ℚ))
    (hpop : popMin st.heap = some ((u, c), rest)) (best : ℚ)
    (hbest : st.distances.lookup u = some best) (hstale : best < c) :
    IsoInvB adj start T ⟨st.distances, rest⟩ := by
  refine ⟨?_, inv.hstart, inv.hbound, ?_, inv.hsnd⟩
  · intro e he
    exact inv.ha e (popMin_sub _ _ _ hpop e he)
  · intro x d hx
    rcases inv.hcl x d hx with ⟨e, he, he1, he2⟩ | h2
    · left
      refine ⟨e, ?_, he1, he2⟩
      have hperm := popMin_perm _ _ _ hpop
      have : e ∈ (u, c) :: rest := hperm.mem_iff.mp he
      rcases List.mem_cons.mp this with heq | hmem
      · exfalso
        have hxu : x = u := by rw [← he1, heq]
        have : e.2 = c := by rw [heq]
        rw [hxu] at hx
        rw [hbest] at hx
        cases hx
        rw [this] at he2
        exact absurd he2 (not_le_of_lt hstale)
      · exact hmem
    · exact Or.inr h2

theorem isoInvB_skipT (adj : ℕ → List (ℕ × ℚ)) (start : ℕ) (T : ℚ) (st : IsoState)
    (inv : IsoInvB adj start T st) (u : ℕ) (c : ℚ) (rest : List (ℕ × ℚ))
    (hpop : popMin st.heap = some ((u, c), rest))
    (hc : st.distances.lookup u = some c) (hgT : T < c) :
    IsoInvB adj start T ⟨st.distances, rest⟩ := by
  refine ⟨?_, inv.hstart, inv.hbound, ?_, inv.hsnd⟩
  · intro e he
    exact inv.ha e (popMin_sub _ _ _ hpop e he)
  · intro x d hx
    rcases inv.hcl x d hx with ⟨e, he, he1, he2⟩ | h2
    · have hperm := popMin_perm _ _ _ hpop
      have hmem : e ∈ (u, c) :: rest := hperm.mem_iff.mp he
      rcases List.mem_cons.mp hmem with heq | hmem'
      · right
        intro hdT
        exfalso
        have hxu : x = u := by rw [← he1, heq]
        rw [hxu] at hx
        rw [hc] at hx
        cases hx
        have : e.2 = c := by rw [heq]
        rw [this] at he2
        exact absurd (lt_of_le_of_lt (le_trans he2 hdT) hgT) (lt_irrefl c)
      · exact Or.inl ⟨e, hmem', he1, he2⟩
    · exact Or.inr h2

theorem isoInvB_expand (adj : ℕ → List (ℕ × ℚ)) (start : ℕ) (T : ℚ) (st : IsoState)
    (inv : IsoInvB adj start T st) (u : ℕ) (c : ℚ) (rest : List (ℕ × ℚ))
    (hpop : popMin st.heap = some ((u, c), rest))
    (hc : st.distances.lookup u = some c) (hcT : c ≤ T) :
    IsoInvB adj start T ((adj u).foldl (relaxId c T) ⟨st.distances, rest⟩) := by
  have ha0 : ∀ e ∈ (⟨st.distances, rest⟩ : IsoState).heap,
      ∃ d, (⟨st.distances, rest⟩ : IsoState).distances.lookup e.1 = some d ∧ d ≤ e.2 := by
    intro e he
    exact inv.ha e (popMin_sub _ _ _ hpop e he)
  refine ⟨foldRelax_ha c T (adj u) _ ha0, ?_, ?_, ?_, ?_⟩
  · obtain ⟨d, hd, hd0⟩ := inv.hstart
    obtain ⟨d', hd', hle⟩ := foldRelax_dom c T (adj u) ⟨st.distances, rest⟩ start d hd
    exact ⟨d', hd', le_trans hle hd0⟩
  · intro v d hv
    rcases foldRelax_new c T (adj u) ⟨st.distances, rest⟩ v d hv with hold | ⟨_, w, _, heq, hwT⟩
    · exact inv.hbound v d hold
    · left; rw [heq]; exact hwT
  · intro x d' hx
    rcases foldRelax_new c T (adj u) ⟨st.distances, rest⟩ x d' hx
      with hold | ⟨hmem, w, hw, heq, hwT⟩
    · by_cases hxu : x = u
      · have hdc : d' = c := by
          rw [hxu] at hold
          rw [hc] at hold; cases hold; rfl
        right
        intro _ a hmem harcT
        obtain ⟨d'', hd'', hle⟩ := foldRelax_closure c T (adj u) ⟨st.distances, rest⟩
          a.1 a.2 (by rw [hxu] at hmem; exact hmem)
          (by rw [hdc] at harcT; exact harcT)
        exact ⟨d'', hd'', by rw [hdc]; exact hle⟩
      · rcases inv.hcl x d' hold with ⟨e, he, he1, he2⟩ | h2
        · left
          have hperm := popMin_perm _ _ _ hpop
          have hmem' : e ∈ (u, c) :: rest := hperm.mem_iff.mp he
          rcases List.mem_cons.mp hmem' with heq' | hmem''
          · exfalso
            apply hxu
            rw [← he1, heq']
          · exact ⟨e, foldRelax_heap_super c T (adj u) _ e hmem'', he1, he2⟩
        · right
          intro hdT a hmem harcT
          obtain ⟨d'', hd'', hle⟩ := h2 hdT a hmem harcT
          obtain ⟨dq, hdq, hle'⟩ := foldRelax_dom c T (adj u) ⟨st.distances, rest⟩
            a.1 d'' hd''
          exact ⟨dq, hdq, le_trans hle' hle⟩
    · left
      exact ⟨(x, d'), hmem, rfl, le_refl d'⟩
  · intro v d' hv
    rcases foldRelax_new c T (adj u) ⟨st.distances, rest⟩ v d' hv
      with hold | ⟨_, w, hw, heq, hwT⟩
    · exact inv.hsnd v d' hold
    · rcases inv.hsnd u c hc with ⟨hu, hc0⟩ | ⟨c'', hTW, hle⟩
      · subst hu
        right
        have h0T : (0 : ℚ) ≤ T := by rw [hc0] at hcT; exact hcT
        have hwT' : (0 : ℚ) + w ≤ T := by
          rw [hc0] at hwT; linarith
        have ht0 : TWalk adj T ((0 : ℚ) + w) v v 0 := TWalk.nil hwT'
        have hcons := TWalk.cons h0T hw ht0
        refine ⟨w + 0, hcons, ?_⟩
        rw [heq, hc0]; linarith
      · right
        have hsn := hTW.snoc hw (by linarith [hwT, hle] : (0 : ℚ) + c'' + w ≤ T)
        refine ⟨c'' + w, hsn, ?_⟩
        rw [heq]; linarith

/-- Properties of the final distance map of a terminating isochrone loop run:
start recorded at a non-positive value, all values within the threshold
(except possibly the seeded start), closure under arc relaxation, and a
bounded-walk witness for every recorded value. -/
def IsoFinal (adj : ℕ → List (ℕ × ℚ)) (start : ℕ) (T : ℚ) (M : List (ℕ × ℚ)) : Prop :=
  (∃ d, M.lookup start = some d ∧ d ≤ 0) ∧
  (∀ v d, M.lookup v = some d → d ≤ T ∨ (v = start ∧ d = 0)) ∧
  (∀ u d, M.lookup u = some d → d ≤ T → ∀ a ∈ adj u, d + a.2 ≤ T →
      ∃ d', M.lookup a.1 = some d' ∧ d' ≤ d + a.2) ∧
  (∀ v d, M.lookup v = some d →
      (v = start ∧ d = 0) ∨ ∃ c', TWalk adj T 0 start v c' ∧ c' ≤ d)

theorem isoLoop_final (gnodes : List Node) (es : List (ℕ × ℕ × EdgeWithCost))
    (idxMap : List (ℕ × ℕ)) (start : ℕ) (T : ℚ) :
    ∀ (fuel : ℕ) (st : IsoState) (M : List (ℕ × ℚ)),
      IsoInvB (idAdj gnodes es idxMap) start T st →
      isoLoop gnodes es idxMap T fuel st = some M →
      IsoFinal (idAdj gnodes es idxMap) start T M := by
  intro fuel
  induction fuel with
  | zero => intro st M _ h; simp [isoLoop] at h
  | succ fuel ih =>
    intro st M inv h
    rw [show isoLoop gnodes es idxMap T (fuel + 1) st
        = match popMin st.heap with
          | none => some st.distances
          | some ((u, c), rest) =>
            match st.distances.lookup u with
            | some best =>
              if c > best then isoLoop gnodes es idxMap T fuel ⟨st.distances, rest⟩
              else isoLoop gnodes es idxMap T fuel
                (isoExpand gnodes es idxMap T u c ⟨st.distances, rest⟩)
            | none => isoLoop gnodes es idxMap T fuel
                (isoExpand gnodes es idxMap T u c ⟨st.distances, rest⟩)
        from rfl] at h
    cases hpop : popMin st.heap with
    | none =>
      rw [hpop] at h
      cases h
      have hnil : st.heap = [] := (popMin_none_iff _).mp hpop
      refine ⟨inv.hstart, inv.hbound, ?_, inv.hsnd⟩
      intro u d hu hdT a hmem harcT
      rcases inv.hcl u d hu with ⟨e, he, _, _⟩ | h2
      · rw [hnil] at he; cases he
      · exact h2 hdT a hmem harcT
    | some p =>
      obtain ⟨⟨u, c⟩, rest⟩ := p
      rw [hpop] at h
      dsimp only at h
      cases hl : st.distances.lookup u with
      | none =>
        exfalso
        obtain ⟨d, hd, _⟩ := inv.ha (u, c) (popMin_mem _ _ _ hpop)
        rw [hl] at hd; cases hd
      | some best =>
        rw [hl] at h
        dsimp only at h
        by_cases hst : c > best
        · rw [if_pos hst] at h
          exact ih _ M (isoInvB_stale _ start T st inv u c rest hpop best hl hst) h
        · rw [if_neg hst] at h
          have hcb : c = best := by
            obtain ⟨d, hd, hdc⟩ := inv.ha (u, c) (popMin_mem _ _ _ hpop)
            rw [hl] at hd; cases hd
            exact le_antisymm (le_of_not_lt hst) hdc
          have hc : st.distances.lookup u = some c := by rw [hl, hcb]
          rw [isoExpand_eq] at h
          by_cases hcT : c > T
          · rw [if_pos hcT] at h
            exact ih _ M (isoInvB_skipT _ start T st inv u c rest hpop hc hcT) h
          · rw [if_neg hcT] at h
            exact ih _ M
              (isoInvB_expand _ start T st inv u c rest hpop hc (le_of_not_lt hcT)) h

/-! ## Comparing runs at different thresholds -/

theorem TWalk.mono {adj : ℕ → List (ℕ × ℚ)} {T T' acc : ℚ} {u t : ℕ} {c : ℚ}
    (hT : T ≤ T') (h : TWalk adj T acc u t c) : TWalk adj T' acc u t c := by
  induction h with
  | nil hacc => exact TWalk.nil (le_trans hacc hT)
  | @cons acc u v t w c hacc harc hrest ih =>
    exact TWalk.cons (le_trans hacc hT) harc ih

theorem TWalk.tighten {adj : ℕ → List (ℕ × ℚ)} {T T' acc : ℚ} {u t : ℕ} {c : ℚ}
    (hadj : ∀ x, ∀ a ∈ adj x, 0 ≤ a.2)
    (h : TWalk adj T acc u t c) (hT' : acc + c ≤ T') : TWalk adj T' acc u t c := by
  induction h with
  | nil _ => exact TWalk.nil (by linarith)
  | @cons acc u v t w c hacc harc hrest ih =>
    have hc0 : 0 ≤ c := TWalk.cost_nonneg hadj hrest
    have hw0 : 0 ≤ w := hadj u (v, w) harc
    have hih := ih (by linarith)
    exact TWalk.cons (by linarith) harc hih

theorem isoFinal_complete (adj : ℕ → List (ℕ × ℚ)) (start : ℕ) (T : ℚ)
    (M : List (ℕ × ℚ)) (hf : IsoFinal adj start T M) :
    ∀ {acc : ℚ} {u t : ℕ} {c : ℚ}, TWalk adj T acc u t c →
      ∀ du, M.lookup u = some du → du ≤ acc →
        ∃ dt, M.lookup t = some dt ∧ dt ≤ acc + c := by
  intro acc u t c h
  induction h with
  | @nil acc u _ =>
    intro du hdu hle
    exact ⟨du, hdu, by linarith⟩
  | @cons acc u v t w c hacc harc hrest ih =>
    intro du hdu hle
    have hawT : acc + w ≤ T := hrest.acc_le
    obtain ⟨dv, hdv, hdvle⟩ := hf.2.2.1 u du hdu (le_trans hle hacc) (v, w) harc
      (by show du + w ≤ T; linarith)
    obtain ⟨dt, hdt, hdtle⟩ := ih dv hdv (by linarith)
    exact ⟨dt, hdt, by linarith⟩

/-- Subset-and-equality comparison of two terminated runs over the same graph
with non-negative arc costs at thresholds T₁ ≤ T₂. -/
theorem isoFinal_compare (adj : ℕ → List (ℕ × ℚ)) (start : ℕ) (T₁ T₂ : ℚ)
    (M₁ M₂ : List (ℕ × ℚ))
    (hadj : ∀ x, ∀ a ∈ adj x, 0 ≤ a.2) (hT : T₁ ≤ T₂)
    (hf₁ : IsoFinal adj start T₁ M₁) (hf₂ : IsoFinal adj start T₂ M₂) :
    (∀ v d₁, M₁.lookup v = some d₁ → ∃ d₂, M₂.lookup v = some d₂) ∧
    (∀ v d₁ d₂, M₁.lookup v = some d₁ → M₂.lookup v = some d₂ → d₁ = d₂) := by
  obtain ⟨ds₂, hds₂, hds₂0⟩ := hf₂.1
  obtain ⟨ds₁, hds₁, hds₁0⟩ := hf₁.1
  have hsub : ∀ v d₁, M₁.lookup v = some d₁ →
      ∃ d₂, M₂.lookup v = some d₂ ∧ d₂ ≤ d₁ := by
    intro v d₁ h₁
    rcases hf₁.2.2.2 v d₁ h₁ with ⟨hv, hd0⟩ | ⟨c', hTW, hcle⟩
    · subst hv
      refine ⟨ds₂, hds₂, by rw [hd0]; exact hds₂0⟩
    · have hTW₂ := hTW.mono hT
      obtain ⟨d₂, hd₂, hle₂⟩ := isoFinal_complete adj start T₂ M₂ hf₂ hTW₂ ds₂ hds₂ hds₂0
      exact ⟨d₂, hd₂, by linarith⟩
  refine ⟨fun v d₁ h₁ => (hsub v d₁ h₁).imp (fun d₂ h => h.1), ?_⟩
  intro v d₁ d₂ h₁ h₂
  obtain ⟨d₂', hd₂', hle'⟩ := hsub v d₁ h₁
  rw [h₂] at hd₂'
  cases hd₂'
  have hd₂₁ : d₂ ≤ d₁ := hle'
  rcases hf₂.2.2.2 v d₂ h₂ with ⟨hv, hd0⟩ | ⟨c', hTW, hcle⟩
  · subst hv
    rw [h₁] at hds₁
    cases hds₁
    rw [hd0]
    rw [hd0] at hd₂₁
    linarith
  · have hc0 : 0 ≤ c' := TWalk.cost_nonneg hadj hTW
    rcases hf₁.2.1 v d₁ h₁ with hd₁T | ⟨hv, hd0⟩
    · have hTW₁ : TWalk adj T₁ 0 start v c' :=
        hTW.tighten hadj (by linarith)
      obtain ⟨d₁', hd₁', hle₁⟩ :=
        isoFinal_complete adj start T₁ M₁ hf₁ hTW₁ ds₁ hds₁ hds₁0
      rw [h₁] at hd₁'
      cases hd₁'
      linarith
    · rw [hd0]
      rw [hd0] at hd₂₁
      linarith

/-! ## From calculate to the loop invariants -/

theorem adjOf_mem (es : List (ℕ × ℕ × EdgeWithCost)) (u : ℕ) :
    ∀ a ∈ adjOf es u, ∃ p ∈ es, a.2 = p.2.2.cost ∧ (a.1 = p.2.1 ∨ a.1 = p.1) := by
  induction es with
  | nil => intro a ha; cases ha
  | cons e t ih =>
    intro a ha
    have hsplit : a ∈ (if e.1 = u then [(e.2.1, e.2.2.cost)] else [])
        ++ (if e.2.1 = u ∧ e.1 ≠ e.2.1 then [(e.1, e.2.2.cost)] else [])
        ++ adjOf t u := ha
    rcases List.mem_append.mp hsplit with h1 | h2
    · rcases List.mem_append.mp h1 with h1a | h1b
      · by_cases hc : e.1 = u
        · rw [if_pos hc] at h1a
          have : a = (e.2.1, e.2.2.cost) := by simpa using h1a
          subst this
          exact ⟨e, List.mem_cons_self _ _, rfl, Or.inl rfl⟩
        · rw [if_neg hc] at h1a; cases h1a
      · by_cases hc : e.2.1 = u ∧ e.1 ≠ e.2.1
        · rw [if_pos hc] at h1b
          have : a = (e.1, e.2.2.cost) := by simpa using h1b
          subst this
          exact ⟨e, List.mem_cons_self _ _, rfl, Or.inr rfl⟩
        · rw [if_neg hc] at h1b; cases h1b
    · obtain ⟨p, hp, hc, hend⟩ := ih a h2
      exact ⟨p, List.mem_cons_of_mem _ hp, hc, hend⟩

theorem idArcsOf_mem (gnodes : List Node) (arcs : List (ℕ × ℚ)) :
    ∀ a ∈ idArcsOf gnodes arcs, ∃ b ∈ arcs, a.2 = b.2 ∧ weightId gnodes b.1 = some a.1 := by
  intro a ha
  obtain ⟨b, hb, hmap⟩ := List.mem_filterMap.mp ha
  cases hw : weightId gnodes b.1 with
  | none => rw [hw] at hmap; cases hmap
  | some j =>
    rw [hw] at hmap
    simp at hmap
    cases hmap
    exact ⟨b, hb, rfl, hw⟩

theorem idAdj_nonneg (gnodes : List Node) (es : List (ℕ × ℕ × EdgeWithCost))
    (idxMap : List (ℕ × ℕ)) (hnn : ∀ p ∈ es, 0 ≤ p.2.2.cost) :
    ∀ x, ∀ a ∈ idAdj gnodes es idxMap x, 0 ≤ a.2 := by
  intro x a ha
  unfold idAdj at ha
  cases hl : idxMap.lookup x with
  | none => rw [hl] at ha; cases ha
  | some i =>
    rw [hl] at ha
    obtain ⟨b, hb, hab, _⟩ := idArcsOf_mem gnodes (adjOf es i) a ha
    obtain ⟨p, hp, hbp, _⟩ := adjOf_mem es i b hb
    rw [hab, hbp]
    exact hnn p hp

theorem lookup_singleton (start v : ℕ) (c0 d : ℚ)
    (h : List.lookup v [(start, c0)] = some d) : v = start ∧ d = c0 := by
  by_cases hv : v = start
  · subst hv
    simp [List.lookup] at h
    exact ⟨rfl, h.symm⟩
  · have hb : (v == start) = false := beq_eq_false_iff_ne.mpr hv
    simp [List.lookup, hb] at h

theorem isoInvB_init (adj : ℕ → List (ℕ × ℚ)) (start : ℕ) (T : ℚ) :
    IsoInvB adj start T ⟨[(start, 0)], [(start, 0)]⟩ := by
  have hls : List.lookup start [(start, (0 : ℚ))] = some 0 := by simp [List.lookup]
  refine ⟨?_, ⟨0, hls, le_refl 0⟩, ?_, ?_, ?_⟩
  · intro e he
    have he' : e = (start, 0) := by simpa using he
    subst he'
    exact ⟨0, hls, le_refl 0⟩
  · intro v d hv
    obtain ⟨hv', hd⟩ := lookup_singleton start v 0 d hv
    exact Or.inr ⟨hv', hd⟩
  · intro u d hu
    obtain ⟨hu', hd⟩ := lookup_singleton start u 0 d hu
    subst hu'; subst hd
    exact Or.inl ⟨(u, 0), List.mem_cons_self _ _, rfl, le_refl 0⟩
  · intro v d hv
    obtain ⟨hv', hd⟩ := lookup_singleton start v 0 d hv
    exact Or.inl ⟨hv', hd⟩

theorem calculate_ok (n : Network) (start : ℕ) (T : ℚ) (fuel : ℕ)
    (r : IsochroneResult) (h : calculate n start T fuel = some (.ok r)) :
    ∃ si, n.node_index_map.lookup start = some si ∧
      isoLoop n.graphNodes n.graphEdges n.node_index_map T fuel
        ⟨[(start, 0)], [(start, 0)]⟩ = some r.travel_costs ∧
      r.max_cost = T ∧ r.start_node = start := by
  unfold calculate dijkstraIsochrone at h
  cases hl : n.node_index_map.lookup start with
  | none => rw [hl] at h; cases h
  | some si =>
    rw [hl] at h
    cases hloop : isoLoop n.graphNodes n.graphEdges n.node_index_map T fuel
        ⟨[(start, 0)], [(start, 0)]⟩ with
    | none => rw [hloop] at h; cases h
    | some M =>
      rw [hloop] at h
      simp only [Option.map_some] at h
      cases h
      exact ⟨si, rfl, rfl, rfl, rfl⟩

/-- C4 amended: for every network whose cached arc costs are all non-negative,
every start id, and thresholds T₁ < T₂, whenever both `calculate` runs return
results, the node set of the T₁ result is a subset of that of the T₂ result
and every shared node has the same recorded cost in both. -/
theorem claim_C4_amended (n : Network) (start : ℕ) (T₁ T₂ : ℚ) (f₁ f₂ : ℕ)
    (r₁ r₂ : IsochroneResult)
    (hnn : ∀ p ∈ n.graphEdges, 0 ≤ p.2.2.cost)
    (hT : T₁ < T₂)
    (h₁ : calculate n start T₁ f₁ = some (.ok r₁))
    (h₂ : calculate n start T₂ f₂ = some (.ok r₂)) :
    (∀ v d₁, r₁.travel_costs.lookup v = some d₁ →
      ∃ d₂, r₂.travel_costs.lookup v = some d₂) ∧
    (∀ v d₁ d₂, r₁.travel_costs.lookup v = some d₁ →
      r₂.travel_costs.lookup v = some d₂ → d₁ = d₂) := by
  obtain ⟨si₁, _, hloop₁, _, _⟩ := calculate_ok n start T₁ f₁ r₁ h₁
  obtain ⟨si₂, _, hloop₂, _, _⟩ := calculate_ok n start T₂ f₂ r₂ h₂
  have hf₁ := isoLoop_final n.graphNodes n.graphEdges n.node_index_map start T₁
    f₁ _ _ (isoInvB_init _ start T₁) hloop₁
  have hf₂ := isoLoop_final n.graphNodes n.graphEdges n.node_index_map start T₂
    f₂ _ _ (isoInvB_init _ start T₂) hloop₂
  exact isoFinal_compare (idAdj n.graphNodes n.graphEdges n.node_index_map) start T₁ T₂
    r₁.travel_costs r₂.travel_costs
    (idAdj_nonneg n.graphNodes n.graphEdges n.node_index_map hnn)
    (le_of_lt hT) hf₁ hf₂

/-! ## C4 counterexample: negative cached cost plus a re-added node id -/

/-- API-constructible network: three nodes 10, 11, 12, edges 10-11 at cached
cost 8, 10-12 at cached cost 3, 11-12 at cached cost -6 (a negative cached
cost, as a negative edge length produces), then node id 12 is added again, so
the node lookup re-points id 12 at a fresh, arcless vertex while the old
vertex keeps its arcs. -/
def cexNetC4 : Network := buildNetwork
  [ .node ⟨10, 0, 0, none⟩, .node ⟨11, 0, 0, none⟩, .node ⟨12, 0, 0, none⟩,
    .edge ⟨1, 10, 11, 0, [(RoutingMode.Walking, 8)], none, false, none, none⟩
      RoutingMode.Walking,
    .edge ⟨2, 10, 12, 0, [(RoutingMode.Walking, 3)], none, false, none, none⟩
      RoutingMode.Walking,
    .edge ⟨3, 11, 12, 0, [(RoutingMode.Walking, -6)], none, false, none, none⟩
      RoutingMode.Walking,
    .node ⟨12, 0, 0, none⟩ ]

/-! ## C2: the threshold bound fails for negative thresholds -/

/-- One-node network used for the C2 counterexample. -/
def cexNetC2 : Network := Network.new.addNode ⟨7, 0, 0, none⟩


/-! ## Evaluation lemmas for concrete runs

The matches in the source-mirroring definitions do not rewrite well under
simp, so each definition gets hypothesis-conditioned equations in if-then-else
form; simp with norm_num can then execute a concrete run. -/

theorem lookup_cons_ite {β : Type} (k a : ℕ) (b : β) (es : List (ℕ × β)) :
    ((k, b) :: es).lookup a = if a = k then some b else es.lookup a := by
  by_cases h : a = k
  · simp [List.lookup, beq_iff_eq.mpr h, h]
  · simp [List.lookup, beq_eq_false_iff_ne.mpr h, h]

theorem popMin_single (x : ℕ × ℚ) : popMin [x] = some (x, []) := rfl

theorem popMin_cons_of (x m : ℕ × ℚ) (xs rest : List (ℕ × ℚ))
    (h : popMin xs = some (m, rest)) :
    popMin (x :: xs)
      = if x.2 ≤ m.2 then some (x, xs) else some (m, x :: rest) := by
  simp only [popMin, h]

theorem isoLoop_zero (gnodes : List Node) (es : List (ℕ × ℕ × EdgeWithCost))
    (idxMap : List (ℕ × ℕ)) (T : ℚ) (st : IsoState) :
    isoLoop gnodes es idxMap T 0 st = none := rfl

theorem isoLoop_none (gnodes : List Node) (es : List (ℕ × ℕ × EdgeWithCost))
    (idxMap : List (ℕ × ℕ)) (T : ℚ) (fuel : ℕ) (st : IsoState)
    (h : popMin st.heap = none) :
    isoLoop gnodes es idxMap T (fuel + 1) st = some st.distances := by
  show (match popMin st.heap with
    | none => some st.distances
    | some ((u, c), rest) =>
      match st.distances.lookup u with
      | some best =>
        if c > best then isoLoop gnodes es idxMap T fuel ⟨st.distances, rest⟩
        else isoLoop gnodes es idxMap T fuel
          (isoExpand gnodes es idxMap T u c ⟨st.distances, rest⟩)
      | none => isoLoop gnodes es idxMap T fuel
          (isoExpand gnodes es idxMap T u c ⟨st.distances, rest⟩)) = some st.distances
  rw [h]

theorem isoLoop_stale (gnodes : List Node) (es : List (ℕ × ℕ × EdgeWithCost))
    (idxMap : List (ℕ × ℕ)) (T : ℚ) (fuel : ℕ) (st : IsoState)
    (u : ℕ) (c : ℚ) (rest : List (ℕ × ℚ)) (best : ℚ)
    (h : popMin st.heap = some ((u, c), rest))
    (hl : st.distances.lookup u = some best) (hc : c > best) :
    isoLoop gnodes es idxMap T (fuel + 1) st
      = isoLoop gnodes es idxMap T fuel ⟨st.distances, rest⟩ := by
  show (match popMin st.heap with
    | none => some st.distances
    | some ((u, c), rest) =>
      match st.distances.lookup u with
      | some best =>
        if c > best then isoLoop gnodes es idxMap T fuel ⟨st.distances, rest⟩
        else isoLoop gnodes es idxMap T fuel
          (isoExpand gnodes es idxMap T u c ⟨st.distances, rest⟩)
      | none => isoLoop gnodes es idxMap T fuel
          (isoExpand gnodes es idxMap T u c ⟨st.distances, rest⟩)) = _
  rw [h]
  dsimp only
  rw [hl]
  dsimp only
  rw [if_pos hc]

theorem isoLoop_go (gnodes : List Node) (es : List (ℕ × ℕ × EdgeWithCost))
    (idxMap : List (ℕ × ℕ)) (T : ℚ) (fuel : ℕ) (st : IsoState)
    (u : ℕ) (c : ℚ) (rest : List (ℕ × ℚ)) (best : ℚ)
    (h : popMin st.heap = some ((u, c), rest))
    (hl : st.distances.lookup u = some best) (hc : ¬ (c > best)) :
    isoLoop gnodes es idxMap T (fuel + 1) st
      = isoLoop gnodes es idxMap T fuel
          (isoExpand gnodes es idxMap T u c ⟨st.distances, rest⟩) := by
  show (match popMin st.heap with
    | none => some st.distances
    | some ((u, c), rest) =>
      match st.distances.lookup u with
      | some best =>
        if c > best then isoLoop gnodes es idxMap T fuel ⟨st.distances, rest⟩
        else isoLoop gnodes es idxMap T fuel
          (isoExpand gnodes es idxMap T u c ⟨st.distances, rest⟩)
      | none => isoLoop gnodes es idxMap T fuel
          (isoExpand gnodes es idxMap T u c ⟨st.distances, rest⟩)) = _
  rw [h]
  dsimp only
  rw [hl]
  dsimp only
  rw [if_neg hc]

theorem isoExpand_gt (gnodes : List Node) (es : List (ℕ × ℕ × EdgeWithCost))
    (idxMap : List (ℕ × ℕ)) (maxCost : ℚ) (u : ℕ) (c : ℚ) (st : IsoState)
    (h : c > maxCost) : isoExpand gnodes es idxMap maxCost u c st = st := by
  unfold isoExpand
  rw [if_pos h]

theorem isoExpand_go (gnodes : List Node) (es : List (ℕ × ℕ × EdgeWithCost))
    (idxMap : List (ℕ × ℕ)) (maxCost : ℚ) (u : ℕ) (c : ℚ) (st : IsoState) (i : ℕ)
    (h : ¬ (c > maxCost)) (hidx : idxMap.lookup u = some i) :
    isoExpand gnodes es idxMap maxCost u c st
      = isoRelax gnodes c maxCost st (adjOf es i) := by
  unfold isoExpand
  rw [if_neg h, hidx]

theorem isoExpand_noidx (gnodes : List Node) (es : List (ℕ × ℕ × EdgeWithCost))
    (idxMap : List (ℕ × ℕ)) (maxCost : ℚ) (u : ℕ) (c : ℚ) (st : IsoState)
    (h : ¬ (c > maxCost)) (hidx : idxMap.lookup u = none) :
    isoExpand gnodes es idxMap maxCost u c st = st := by
  unfold isoExpand
  rw [if_neg h, hidx]

theorem isoRelaxStep_gt (gnodes : List Node) (c maxCost : ℚ) (s : IsoState)
    (a : ℕ × ℚ) (h : c + a.2 > maxCost) : isoRelaxStep gnodes c maxCost s a = s := by
  unfold isoRelaxStep
  rw [if_pos h]

theorem isoRelaxStep_wnone (gnodes : List Node) (c maxCost : ℚ) (s : IsoState)
    (a : ℕ × ℚ) (h : ¬ (c + a.2 > maxCost)) (hw : weightId gnodes a.1 = none) :
    isoRelaxStep gnodes c maxCost s a = s := by
  unfold isoRelaxStep
  rw [if_neg h, hw]

theorem isoRelaxStep_new (gnodes : List Node) (c maxCost : ℚ) (s : IsoState)
    (a : ℕ × ℚ) (j : ℕ) (h : ¬ (c + a.2 > maxCost)) (hw : weightId gnodes a.1 = some j)
    (hl : s.distances.lookup j = none) :
    isoRelaxStep gnodes c maxCost s a
      = ⟨updA s.distances j (c + a.2), (j, c + a.2) :: s.heap⟩ := by
  unfold isoRelaxStep
  rw [if_neg h, hw]
  dsimp only
  rw [hl]
  simp

theorem isoRelaxStep_better (gnodes : List Node) (c maxCost : ℚ) (s : IsoState)
    (a : ℕ × ℚ) (j : ℕ) (d : ℚ) (h : ¬ (c + a.2 > maxCost))
    (hw : weightId gnodes a.1 = some j) (hl : s.distances.lookup j = some d)
    (hlt : c + a.2 < d) :
    isoRelaxStep gnodes c maxCost s a
      = ⟨updA s.distances j (c + a.2), (j, c + a.2) :: s.heap⟩ := by
  unfold isoRelaxStep
  rw [if_neg h, hw]
  dsimp only
  rw [hl]
  dsimp only
  rw [if_pos (by simpa using hlt)]

theorem isoRelaxStep_worse (gnodes : List Node) (c maxCost : ℚ) (s : IsoState)
    (a : ℕ × ℚ) (j : ℕ) (d : ℚ) (h : ¬ (c + a.2 > maxCost))
    (hw : weightId gnodes a.1 = some j) (hl : s.distances.lookup j = some d)
    (hge : ¬ (c + a.2 < d)) :
    isoRelaxStep gnodes c maxCost s a = s := by
  unfold isoRelaxStep
  rw [if_neg h, hw]
  dsimp only
  rw [hl]
  dsimp only
  rw [if_neg (by simpa using hge)]

theorem calculate_eq_of (n : Network) (s : ℕ) (T : ℚ) (fuel si : ℕ)
    (M : List (ℕ × ℚ)) (hl : n.node_index_map.lookup s = some si)
    (hloop : isoLoop n.graphNodes n.graphEdges n.node_index_map T fuel
      ⟨[(s, 0)], [(s, 0)]⟩ = some M) :
    calculate n s T fuel = some (.ok ⟨M, T, M.length, s⟩) := by
  unfold calculate dijkstraIsochrone
  rw [hl]
  dsimp only
  rw [hloop]
  rfl

/-- Node weights of `cexNetC4` (the re-added id 12 sits at index 3). -/
def gnC4 : List Node :=
  [⟨10, 0, 0, none⟩, ⟨11, 0, 0, none⟩, ⟨12, 0, 0, none⟩, ⟨12, 0, 0, none⟩]

/-- Arcs of `cexNetC4` over node indices. -/
def esC4 : List (ℕ × ℕ × EdgeWithCost) :=
  [(0, 1, ⟨1, 8⟩), (0, 2, ⟨2, 3⟩), (1, 2, ⟨3, -6⟩)]

/-- Node lookup of `cexNetC4`: id 12 points at the arcless index 3. -/
def imC4 : List (ℕ × ℕ) := [(12, 3), (11, 1), (10, 0)]

theorem cexNetC4_loop5 :
    isoLoop gnC4 esC4 imC4 5 9 ⟨[(10, 0)], [(10, 0)]⟩ = some [(12, 3), (10, 0)] := by
  have h1 : isoLoop gnC4 esC4 imC4 5 9 ⟨[(10, 0)], [(10, 0)]⟩
      = isoLoop gnC4 esC4 imC4 5 8 ⟨[(12, 3), (10, 0)], [(12, 3)]⟩ := by
    rw [show (9 : ℕ) = 8 + 1 from rfl,
      isoLoop_go gnC4 esC4 imC4 5 8 ⟨[(10, 0)], [(10, 0)]⟩ 10 0 [] 0
        (popMin_single _) (by norm_num [lookup_cons_ite]) (by norm_num),
      isoExpand_go gnC4 esC4 imC4 5 10 0 ⟨[(10, 0)], []⟩ 0
        (by norm_num) (by norm_num [imC4, lookup_cons_ite]),
      show adjOf esC4 0 = [(1, 8), (2, 3)] from rfl]
    show isoLoop gnC4 esC4 imC4 5 8
      (isoRelaxStep gnC4 0 5 (isoRelaxStep gnC4 0 5 ⟨[(10, 0)], []⟩ (1, 8)) (2, 3)) = _
    rw [isoRelaxStep_gt gnC4 0 5 ⟨[(10, 0)], []⟩ (1, 8) (by norm_num),
      isoRelaxStep_new gnC4 0 5 ⟨[(10, 0)], []⟩ (2, 3) 12
        (by norm_num) rfl (by norm_num [lookup_cons_ite])]
    norm_num [updA, List.filter]
    rfl
  have h2 : isoLoop gnC4 esC4 imC4 5 8 ⟨[(12, 3), (10, 0)], [(12, 3)]⟩
      = isoLoop gnC4 esC4 imC4 5 7 ⟨[(12, 3), (10, 0)], []⟩ := by
    rw [show (8 : ℕ) = 7 + 1 from rfl,
      isoLoop_go gnC4 esC4 imC4 5 7 ⟨[(12, 3), (10, 0)], [(12, 3)]⟩ 12 3 [] 3
        (popMin_single _) (by norm_num [lookup_cons_ite]) (by norm_num),
      isoExpand_go gnC4 esC4 imC4 5 12 3 ⟨[(12, 3), (10, 0)], []⟩ 3
        (by norm_num) (by norm_num [imC4, lookup_cons_ite]),
      show adjOf esC4 3 = [] from rfl]
    rfl
  have h3 : isoLoop gnC4 esC4 imC4 5 7 ⟨[(12, 3), (10, 0)], []⟩
      = some [(12, 3), (10, 0)] := by
    rw [show (7 : ℕ) = 6 + 1 from rfl,
      isoLoop_none gnC4 esC4 imC4 5 6 ⟨[(12, 3), (10, 0)], []⟩ rfl]
  rw [h1, h2, h3]

theorem cexNetC4_loop10 :
    isoLoop gnC4 esC4 imC4 10 9 ⟨[(10, 0)], [(10, 0)]⟩
      = some [(12, 2), (11, 8), (10, 0)] := by
  have h1 : isoLoop gnC4 esC4 imC4 10 9 ⟨[(10, 0)], [(10, 0)]⟩
      = isoLoop gnC4 esC4 imC4 10 8
          ⟨[(12, 3), (11, 8), (10, 0)], [(12, 3), (11, 8)]⟩ := by
    rw [show (9 : ℕ) = 8 + 1 from rfl,
      isoLoop_go gnC4 esC4 imC4 10 8 ⟨[(10, 0)], [(10, 0)]⟩ 10 0 [] 0
        (popMin_single _) (by norm_num [lookup_cons_ite]) (by norm_num),
      isoExpand_go gnC4 esC4 imC4 10 10 0 ⟨[(10, 0)], []⟩ 0
        (by norm_num) (by norm_num [imC4, lookup_cons_ite]),
      show adjOf esC4 0 = [(1, 8), (2, 3)] from rfl]
    show isoLoop gnC4 esC4 imC4 10 8
      (isoRelaxStep gnC4 0 10 (isoRelaxStep gnC4 0 10 ⟨[(10, 0)], []⟩ (1, 8)) (2, 3)) = _
    rw [isoRelaxStep_new gnC4 0 10 ⟨[(10, 0)], []⟩ (1, 8) 11
        (by norm_num) rfl (by norm_num [lookup_cons_ite])]
    rw [show updA [(10, (0 : ℚ))] 11 (0 + 8) = [(11, 0 + 8), (10, 0)] from rfl]
    rw [isoRelaxStep_new gnC4 0 10 ⟨[(11, 0 + 8), (10, 0)], [(11, 0 + 8)]⟩ (2, 3) 12
        (by norm_num) rfl (by norm_num [lookup_cons_ite])]
    norm_num [updA, List.filter]
    rfl
  have h2 : isoLoop gnC4 esC4 imC4 10 8
        ⟨[(12, 3), (11, 8), (10, 0)], [(12, 3), (11, 8)]⟩
      = isoLoop gnC4 esC4 imC4 10 7 ⟨[(12, 3), (11, 8), (10, 0)], [(11, 8)]⟩ := by
    rw [show (8 : ℕ) = 7 + 1 from rfl,
      isoLoop_go gnC4 esC4 imC4 10 7 ⟨[(12, 3), (11, 8), (10, 0)], [(12, 3), (11, 8)]⟩
        12 3 [(11, 8)] 3
        (by rw [popMin_cons_of (12, 3) (11, 8) [(11, 8)] [] (popMin_single _)]
            norm_num)
        (by norm_num [lookup_cons_ite]) (by norm_num),
      isoExpand_go gnC4 esC4 imC4 10 12 3 ⟨[(12, 3), (11, 8), (10, 0)], [(11, 8)]⟩ 3
        (by norm_num) (by norm_num [imC4, lookup_cons_ite]),
      show adjOf esC4 3 = [] from rfl]
    rfl
  have h3 : isoLoop gnC4 esC4 imC4 10 7 ⟨[(12, 3), (11, 8), (10, 0)], [(11, 8)]⟩
      = isoLoop gnC4 esC4 imC4 10 6 ⟨[(12, 2), (11, 8), (10, 0)], [(12, 2)]⟩ := by
    rw [show (7 : ℕ) = 6 + 1 from rfl,
      isoLoop_go gnC4 esC4 imC4 10 6 ⟨[(12, 3), (11, 8), (10, 0)], [(11, 8)]⟩ 11 8 [] 8
        (popMin_single _) (by norm_num [lookup_cons_ite]) (by norm_num),
      isoExpand_go gnC4 esC4 imC4 10 11 8 ⟨[(12, 3), (11, 8), (10, 0)], []⟩ 1
        (by norm_num) (by norm_num [imC4, lookup_cons_ite]),
      show adjOf esC4 1 = [(0, 8), (2, -6)] from rfl]
    show isoLoop gnC4 esC4 imC4 10 6
      (isoRelaxStep gnC4 8 10
        (isoRelaxStep gnC4 8 10 ⟨[(12, 3), (11, 8), (10, 0)], []⟩ (0, 8)) (2, -6)) = _
    rw [isoRelaxStep_gt gnC4 8 10 ⟨[(12, 3), (11, 8), (10, 0)], []⟩ (0, 8) (by norm_num),
      isoRelaxStep_better gnC4 8 10 ⟨[(12, 3), (11, 8), (10, 0)], []⟩ (2, -6) 12 3
        (by norm_num) rfl (by norm_num [lookup_cons_ite]) (by norm_num)]
    norm_num [updA, List.filter]
    rfl
  have h4 : isoLoop gnC4 esC4 imC4 10 6 ⟨[(12, 2), (11, 8), (10, 0)], [(12, 2)]⟩
      = isoLoop gnC4 esC4 imC4 10 5 ⟨[(12, 2), (11, 8), (10, 0)], []⟩ := by
    rw [show (6 : ℕ) = 5 + 1 from rfl,
      isoLoop_go gnC4 esC4 imC4 10 5 ⟨[(12, 2), (11, 8), (10, 0)], [(12, 2)]⟩ 12 2 [] 2
        (popMin_single _) (by norm_num [lookup_cons_ite]) (by norm_num),
      isoExpand_go gnC4 esC4 imC4 10 12 2 ⟨[(12, 2), (11, 8), (10, 0)], []⟩ 3
        (by norm_num) (by norm_num [imC4, lookup_cons_ite]),
      show adjOf esC4 3 = [] from rfl]
    rfl
  have h5 : isoLoop gnC4 esC4 imC4 10 5 ⟨[(12, 2), (11, 8), (10, 0)], []⟩
      = some [(12, 2), (11, 8), (10, 0)] := by
    rw [show (5 : ℕ) = 4 + 1 from rfl,
      isoLoop_none gnC4 esC4 imC4 10 4 ⟨[(12, 2), (11, 8), (10, 0)], []⟩ rfl]
  rw [h1, h2, h3, h4, h5]

/-- C4 counterexample: on `cexNetC4`, both `calculate` runs from node 10
terminate, the thresholds satisfy 5 < 10, node 12 is present in both result
mappings, but its recorded cost is 3 in the threshold-5 result and 2 in the
threshold-10 result: a shared node changes cost, so the claim fails on this
graph (negative cached cost plus a re-added node id make the pruned searches
disagree below both thresholds). -/
theorem claim_C4_counterexample :
    calculate cexNetC4 10 5 9
      = some (.ok ⟨[(12, 3), (10, 0)], 5, 2, 10⟩) ∧
    calculate cexNetC4 10 10 9
      = some (.ok ⟨[(12, 2), (11, 8), (10, 0)], 10, 3, 10⟩) ∧
    (5 : ℚ) < 10 ∧
    ([(12, 3), (10, 0)] : List (ℕ × ℚ)).lookup 12 = some 3 ∧
    ([(12, 2), (11, 8), (10, 0)] : List (ℕ × ℚ)).lookup 12 = some 2 ∧
    (3 : ℚ) ≠ 2 := by
  refine ⟨?_, ?_, by norm_num, by rfl, by rfl, by norm_num⟩
  · exact calculate_eq_of cexNetC4 10 5 9 0 [(12, 3), (10, 0)] rfl cexNetC4_loop5
  · exact calculate_eq_of cexNetC4 10 10 9 0 [(12, 2), (11, 8), (10, 0)] rfl
      cexNetC4_loop10

/-- C2 counterexample: with threshold −1, `calculate` on the one-node network
succeeds and its mapping records the start node at cost 0, which exceeds the
threshold — the start is seeded at cost 0 unconditionally, so "every recorded
cost ≤ threshold" fails for any negative threshold. -/
theorem claim_C2_counterexample :
    calculate cexNetC2 7 (-1) 2 = some (.ok ⟨[(7, 0)], -1, 1, 7⟩) ∧
    ([(7, (0 : ℚ))]).lookup 7 = some 0 ∧ ¬((0 : ℚ) ≤ -1) := by
  refine ⟨rfl, rfl, by norm_num⟩

/-- Witness for the amended C4 theorem on a concrete instance: the one-node
network has no arcs (so all cached costs are trivially non-negative), both
runs with thresholds 0 < 1 terminate, and the amended theorem's subset and
equal-shared-cost conclusions hold of their results. -/
theorem claim_C4_amended_witness :
    (∀ p ∈ cexNetC2.graphEdges, 0 ≤ p.2.2.cost) ∧ (0 : ℚ) < 1 ∧
    calculate cexNetC2 7 0 2 = some (.ok ⟨[(7, 0)], 0, 1, 7⟩) ∧
    calculate cexNetC2 7 1 2 = some (.ok ⟨[(7, 0)], 1, 1, 7⟩) ∧
    ((∀ v d₁, ([(7, (0 : ℚ))]).lookup v = some d₁ →
        ∃ d₂, ([(7, (0 : ℚ))]).lookup v = some d₂) ∧
      (∀ v d₁ d₂, ([(7, (0 : ℚ))]).lookup v = some d₁ →
        ([(7, (0 : ℚ))]).lookup v = some d₂ → d₁ = d₂)) := by
  have hnn : ∀ p ∈ cexNetC2.graphEdges, 0 ≤ p.2.2.cost := by
    intro p hp
    rw [show cexNetC2.graphEdges = [] from rfl] at hp
    exact absurd hp (List.not_mem_nil p)
  exact ⟨hnn, by norm_num, rfl, rfl,
    claim_C4_amended cexNetC2 7 0 1 2 2 ⟨[(7, 0)], 0, 1, 7⟩ ⟨[(7, 0)], 1, 1, 7⟩
      hnn (by norm_num) rfl rfl⟩

/-- C2 amended: for every network whose cached arc costs are all non-negative
and every non-negative threshold, every terminating run of `calculate` from a
present start node yields a mapping in which the start node is recorded at
cost exactly 0 and every recorded cost lies between 0 and the threshold. -/
theorem claim_C2_amended (n : Network) (start : ℕ) (T : ℚ) (fuel : ℕ)
    (r : IsochroneResult)
    (hnn : ∀ p ∈ n.graphEdges, 0 ≤ p.2.2.cost)
    (hT : 0 ≤ T)
    (h : calculate n start T fuel = some (.ok r)) :
    r.travel_costs.lookup start = some 0 ∧
    ∀ v d, r.travel_costs.lookup v = some d → 0 ≤ d ∧ d ≤ T := by
  obtain ⟨si, _, hloop, _, _⟩ := calculate_ok n start T fuel r h
  have hf := isoLoop_final n.graphNodes n.graphEdges n.node_index_map start T
    fuel _ _ (isoInvB_init _ start T) hloop
  have hadj := idAdj_nonneg n.graphNodes n.graphEdges n.node_index_map hnn
  have hd0 : ∀ v d, r.travel_costs.lookup v = some d → 0 ≤ d := by
    intro v d hv
    rcases hf.2.2.2 v d hv with ⟨_, hd⟩ | ⟨c', hTW, hle⟩
    · rw [hd]
    · have hc0 : 0 ≤ c' := TWalk.cost_nonneg hadj hTW
      linarith
  constructor
  · obtain ⟨ds, hds, hdsle⟩ := hf.1
    have : ds = 0 := le_antisymm hdsle (hd0 start ds hds)
    rw [← this]
    exact hds
  · intro v d hv
    refine ⟨hd0 v d hv, ?_⟩
    rcases hf.2.1 v d hv with hle | ⟨_, hd⟩
    · exact hle
    · rw [hd]; exact hT

/-- Witness for the amended C2 theorem: the one-node network has no arcs, the
threshold 1 is non-negative, the run with fuel 2 terminates, and its mapping
records the start node 7 at exactly 0, within the bounds. -/
theorem claim_C2_amended_witness :
    (∀ p ∈ cexNetC2.graphEdges, 0 ≤ p.2.2.cost) ∧ (0 : ℚ) ≤ 1 ∧
    calculate cexNetC2 7 1 2 = some (.ok ⟨[(7, 0)], 1, 1, 7⟩) ∧
    (([(7, (0 : ℚ))]).lookup 7 = some 0 ∧
      ∀ v d, ([(7, (0 : ℚ))]).lookup v = some d → 0 ≤ d ∧ d ≤ 1) := by
  have hnn : ∀ p ∈ cexNetC2.graphEdges, 0 ≤ p.2.2.cost := by
    intro p hp
    rw [show cexNetC2.graphEdges = [] from rfl] at hp
    exact absurd hp (List.not_mem_nil p)
  exact ⟨hnn, by norm_num, rfl,
    claim_C2_amended cexNetC2 7 1 2 ⟨[(7, 0)], 1, 1, 7⟩ hnn (by norm_num) rfl⟩

theorem dijLoop_zero (gnodes : List Node) (es : List (ℕ × ℕ × EdgeWithCost))
    (from_idx to_idx : ℕ) (st : DijState) :
    dijkstraLoop gnodes es from_idx to_idx 0 st = none := rfl

theorem dijLoop_empty (gnodes : List Node) (es : List (ℕ × ℕ × EdgeWithCost))
    (from_idx to_idx : ℕ) (fuel : ℕ) (st : DijState)
    (h : popMin st.heap = none) :
    dijkstraLoop gnodes es from_idx to_idx (fuel + 1) st = some (.ok none) := by
  show (match popMin st.heap with
    | none => some (Except.ok none)
    | some ((node, cost), rest) =>
      if node = to_idx then
        match reconstructPath gnodes st.predecessors from_idx to_idx (fuel+1) with
        | none => none
        | some path => some (Except.ok (some (cost, path)))
      else
        match st.distances.lookup node with
        | some d =>
          if cost > d then
            dijkstraLoop gnodes es from_idx to_idx fuel ⟨st.distances, st.predecessors, rest⟩
          else
            dijkstraLoop gnodes es from_idx to_idx fuel
              (dijRelax node cost ⟨st.distances, st.predecessors, rest⟩ (adjOf es node))
        | none =>
          dijkstraLoop gnodes es from_idx to_idx fuel
            (dijRelax node cost ⟨st.distances, st.predecessors, rest⟩ (adjOf es node))) = _
  rw [h]

theorem dijLoop_target (gnodes : List Node) (es : List (ℕ × ℕ × EdgeWithCost))
    (from_idx to_idx : ℕ) (fuel : ℕ) (st : DijState)
    (c : ℚ) (rest : List (ℕ × ℚ)) (path : List ℕ)
    (h : popMin st.heap = some ((to_idx, c), rest))
    (hrec : reconstructPath gnodes st.predecessors from_idx to_idx (fuel + 1)
      = some path) :
    dijkstraLoop gnodes es from_idx to_idx (fuel + 1) st
      = some (.ok (some (c, path))) := by
  show (match popMin st.heap with
    | none => some (Except.ok none)
    | some ((node, cost), rest) =>
      if node = to_idx then
        match reconstructPath gnodes st.predecessors from_idx to_idx (fuel+1) with
        | none => none
        | some path => some (Except.ok (some (cost, path)))
      else
        match st.distances.lookup node with
        | some d =>
          if cost > d then
            dijkstraLoop gnodes es from_idx to_idx fuel ⟨st.distances, st.predecessors, rest⟩
          else
            dijkstraLoop gnodes es from_idx to_idx fuel
              (dijRelax node cost ⟨st.distances, st.predecessors, rest⟩ (adjOf es node))
        | none =>
          dijkstraLoop gnodes es from_idx to_idx fuel
            (dijRelax node cost ⟨st.distances, st.predecessors, rest⟩ (adjOf es node))) = _
  rw [h]
  dsimp only
  rw [if_pos rfl, hrec]

theorem dijLoop_stale (gnodes : List Node) (es : List (ℕ × ℕ × EdgeWithCost))
    (from_idx to_idx : ℕ) (fuel : ℕ) (st : DijState)
    (u : ℕ) (c : ℚ) (rest : List (ℕ × ℚ)) (d : ℚ)
    (h : popMin st.heap = some ((u, c), rest)) (hne : ¬ u = to_idx)
    (hl : st.distances.lookup u = some d) (hc : c > d) :
    dijkstraLoop gnodes es from_idx to_idx (fuel + 1) st
      = dijkstraLoop gnodes es from_idx to_idx fuel
          ⟨st.distances, st.predecessors, rest⟩ := by
  show (match popMin st.heap with
    | none => some (Except.ok none)
    | some ((node, cost), rest) =>
      if node = to_idx then
        match reconstructPath gnodes st.predecessors from_idx to_idx (fuel+1) with
        | none => none
        | some path => some (Except.ok (some (cost, path)))
      else
        match st.distances.lookup node with
        | some d =>
          if cost > d then
            dijkstraLoop gnodes es from_idx to_idx fuel ⟨st.distances, st.predecessors, rest⟩
          else
            dijkstraLoop gnodes es from_idx to_idx fuel
              (dijRelax node cost ⟨st.distances, st.predecessors, rest⟩ (adjOf es node))
        | none =>
          dijkstraLoop gnodes es from_idx to_idx fuel
            (dijRelax node cost ⟨st.distances, st.predecessors, rest⟩ (adjOf es node))) = _
  rw [h]
  dsimp only
  rw [if_neg hne, hl]
  dsimp only
  rw [if_pos hc]

theorem dijLoop_go (gnodes : List Node) (es : List (ℕ × ℕ × EdgeWithCost))
    (from_idx to_idx : ℕ) (fuel : ℕ) (st : DijState)
    (u : ℕ) (c : ℚ) (rest : List (ℕ × ℚ)) (d : ℚ)
    (h : popMin st.heap = some ((u, c), rest)) (hne : ¬ u = to_idx)
    (hl : st.distances.lookup u = some d) (hc : ¬ (c > d)) :
    dijkstraLoop gnodes es from_idx to_idx (fuel + 1) st
      = dijkstraLoop gnodes es from_idx to_idx fuel
          (dijRelax u c ⟨st.distances, st.predecessors, rest⟩ (adjOf es u)) := by
  show (match popMin st.heap with
    | none => some (Except.ok none)
    | some ((node, cost), rest) =>
      if node = to_idx then
        match reconstructPath gnodes st.predecessors from_idx to_idx (fuel+1) with
        | none => none
        | some path => some (Except.ok (some (cost, path)))
      else
        match st.distances.lookup node with
        | some d =>
          if cost > d then
            dijkstraLoop gnodes es from_idx to_idx fuel ⟨st.distances, st.predecessors, rest⟩
          else
            dijkstraLoop gnodes es from_idx to_idx fuel
              (dijRelax node cost ⟨st.distances, st.predecessors, rest⟩ (adjOf es node))
        | none =>
          dijkstraLoop gnodes es from_idx to_idx fuel
            (dijRelax node cost ⟨st.distances, st.predecessors, rest⟩ (adjOf es node))) = _
  rw [h]
  dsimp only
  rw [if_neg hne, hl]
  dsimp only
  rw [if_neg hc]

theorem dijLoop_go_new (gnodes : List Node) (es : List (ℕ × ℕ × EdgeWithCost))
    (from_idx to_idx : ℕ) (fuel : ℕ) (st : DijState)
    (u : ℕ) (c : ℚ) (rest : List (ℕ × ℚ))
    (h : popMin st.heap = some ((u, c), rest)) (hne : ¬ u = to_idx)
    (hl : st.distances.lookup u = none) :
    dijkstraLoop gnodes es from_idx to_idx (fuel + 1) st
      = dijkstraLoop gnodes es from_idx to_idx fuel
          (dijRelax u c ⟨st.distances, st.predecessors, rest⟩ (adjOf es u)) := by
  show (match popMin st.heap with
    | none => some (Except.ok none)
    | some ((node, cost), rest) =>
      if node = to_idx then
        match reconstructPath gnodes st.predecessors from_idx to_idx (fuel+1) with
        | none => none
        | some path => some (Except.ok (some (cost, path)))
      else
        match st.distances.lookup node with
        | some d =>
          if cost > d then
            dijkstraLoop gnodes es from_idx to_idx fuel ⟨st.distances, st.predecessors, rest⟩
          else
            dijkstraLoop gnodes es from_idx to_idx fuel
              (dijRelax node cost ⟨st.distances, st.predecessors, rest⟩ (adjOf es node))
        | none =>
          dijkstraLoop gnodes es from_idx to_idx fuel
            (dijRelax node cost ⟨st.distances, st.predecessors, rest⟩ (adjOf es node))) = _
  rw [h]
  dsimp only
  rw [if_neg hne, hl]

theorem dijRelaxStep_better (u : ℕ) (c : ℚ) (s : DijState) (a : ℕ × ℚ) (d : ℚ)
    (hl : s.distances.lookup a.1 = some d) (h : c + a.2 < d) :
    dijRelaxStep u c s a
      = ⟨updA s.distances a.1 (c + a.2), updA s.predecessors a.1 u,
         (a.1, c + a.2) :: s.heap⟩ := by
  unfold dijRelaxStep
  rw [hl]
  simp [h]

theorem dijRelaxStep_new (u : ℕ) (c : ℚ) (s : DijState) (a : ℕ × ℚ)
    (hl : s.distances.lookup a.1 = none) :
    dijRelaxStep u c s a
      = ⟨updA s.distances a.1 (c + a.2), updA s.predecessors a.1 u,
         (a.1, c + a.2) :: s.heap⟩ := by
  unfold dijRelaxStep
  rw [hl]
  rfl

theorem dijRelaxStep_skip (u : ℕ) (c : ℚ) (s : DijState) (a : ℕ × ℚ) (d : ℚ)
    (hl : s.distances.lookup a.1 = some d) (h : ¬ (c + a.2 < d)) :
    dijRelaxStep u c s a = s := by
  unfold dijRelaxStep
  rw [hl]
  simp [h]


/-! ## C6: unreachable targets and isolated starts -/

/-- Reachability between node indices along the stored arcs (in either
direction, as `adjOf` lists them): `ReachIdx es s v` holds when `v` lies in
the connected component of `s`. -/
inductive ReachIdx (es : List (ℕ × ℕ × EdgeWithCost)) (s : ℕ) : ℕ → Prop where
  | refl : ReachIdx es s s
  | step : ∀ {u v : ℕ} {w : ℚ}, ReachIdx es s u → (v, w) ∈ adjOf es u →
      ReachIdx es s v

theorem dijRelaxStep_cases (u : ℕ) (c : ℚ) (s : DijState) (a : ℕ × ℚ) :
    dijRelaxStep u c s a = s ∨
    dijRelaxStep u c s a = ⟨updA s.distances a.1 (c + a.2),
      updA s.predecessors a.1 u, (a.1, c + a.2) :: s.heap⟩ := by
  cases hl : s.distances.lookup a.1 with
  | none => exact Or.inr (dijRelaxStep_new u c s a hl)
  | some d =>
    by_cases h : c + a.2 < d
    · exact Or.inr (dijRelaxStep_better u c s a d hl h)
    · exact Or.inl (dijRelaxStep_skip u c s a d hl h)

theorem dijRelax_heap_mem (u : ℕ) (c : ℚ) (arcs : List (ℕ × ℚ)) :
    ∀ (st : DijState), ∀ e ∈ (dijRelax u c st arcs).heap,
      e ∈ st.heap ∨ ∃ a ∈ arcs, e.1 = a.1 := by
  induction arcs with
  | nil => intro st e he; exact Or.inl he
  | cons a arcs ih =>
    intro st e he
    have he' : e ∈ (dijRelax u c (dijRelaxStep u c st a) arcs).heap := he
    rcases ih (dijRelaxStep u c st a) e he' with hmem | ⟨b, hb, hb1⟩
    · rcases dijRelaxStep_cases u c st a with hc | hc
      · rw [hc] at hmem
        exact Or.inl hmem
      · rw [hc] at hmem
        rcases List.mem_cons.mp hmem with heq | hmem'
        · exact Or.inr ⟨a, List.mem_cons_self _ _, by rw [heq]⟩
        · exact Or.inl hmem'
    · exact Or.inr ⟨b, List.mem_cons_of_mem a hb, hb1⟩

/-- Every terminating run of the point-to-point search whose target index is
not in the start's connected component returns the "no path" value. -/
theorem dijLoop_unreachable (gnodes : List Node) (es : List (ℕ × ℕ × EdgeWithCost))
    (fi ti : ℕ) (hnr : ¬ ReachIdx es fi ti) :
    ∀ (fuel : ℕ) (st : DijState) (r : Except RoutingError (Option (ℚ × List ℕ))),
      (∀ e ∈ st.heap, ReachIdx es fi e.1) →
      dijkstraLoop gnodes es fi ti fuel st = some r → r = .ok none := by
  intro fuel
  induction fuel with
  | zero =>
    intro st r _ h
    rw [dijLoop_zero] at h
    cases h
  | succ fuel ih =>
    intro st r hR h
    cases hpop : popMin st.heap with
    | none =>
      rw [dijLoop_empty gnodes es fi ti fuel st hpop] at h
      injection h with h
      exact h.symm
    | some p =>
      obtain ⟨⟨u, c⟩, rest⟩ := p
      have hu : ReachIdx es fi u := hR (u, c) (popMin_mem _ _ _ hpop)
      have hne : ¬ u = ti := fun he => hnr (he ▸ hu)
      have hrest : ∀ e ∈ rest, ReachIdx es fi e.1 :=
        fun e he => hR e (popMin_sub _ _ _ hpop e he)
      have hrelax : ∀ e ∈ (dijRelax u c ⟨st.distances, st.predecessors, rest⟩
          (adjOf es u)).heap, ReachIdx es fi e.1 := by
        intro e he
        rcases dijRelax_heap_mem u c (adjOf es u) _ e he with hmem | ⟨a, ha, he1⟩
        · exact hrest e hmem
        · rw [he1]
          exact ReachIdx.step hu (show (a.1, a.2) ∈ adjOf es u from by simpa using ha)
      cases hl : st.distances.lookup u with
      | some d =>
        by_cases hst : c > d
        · rw [dijLoop_stale gnodes es fi ti fuel st u c rest d hpop hne hl hst] at h
          exact ih _ r hrest h
        · rw [dijLoop_go gnodes es fi ti fuel st u c rest d hpop hne hl hst] at h
          exact ih _ r hrelax h
      | none =>
        rw [dijLoop_go_new gnodes es fi ti fuel st u c rest hpop hne hl] at h
        exact ih _ r hrelax h


/-! ## C1: index walks, the searched node universe, predecessor links -/

/-- Walk between node indices along the stored arcs, carrying the visited
index list and the total arc cost. -/
inductive IWalk (adj : ℕ → List (ℕ × ℚ)) : ℕ → List ℕ → ℕ → ℚ → Prop where
  | nil : ∀ (u : ℕ), IWalk adj u [u] u 0
  | cons : ∀ {u v t : ℕ} {w c : ℚ} {l : List ℕ},
      (v, w) ∈ adj u → IWalk adj v l t c → IWalk adj u (u :: l) t (w + c)

theorem IWalk.nonneg_cost {adj : ℕ → List (ℕ × ℚ)}
    (hadj : ∀ x, ∀ a ∈ adj x, 0 ≤ a.2) :
    ∀ {u : ℕ} {l : List ℕ} {t : ℕ} {c : ℚ}, IWalk adj u l t c → 0 ≤ c := by
  intro u l t c h
  induction h with
  | nil u => exact le_refl 0
  | @cons u v t w c l harc hrest ih =>
    have hw0 := hadj u (v, w) harc
    linarith

theorem IWalk.snoc_arc {adj : ℕ → List (ℕ × ℚ)} :
    ∀ {u : ℕ} {l : List ℕ} {t : ℕ} {c : ℚ}, IWalk adj u l t c →
      ∀ {x : ℕ} {w : ℚ}, (x, w) ∈ adj t → IWalk adj u (l ++ [x]) x (c + w) := by
  intro u l t c h
  induction h with
  | nil u =>
    intro x w harc
    have h1 := IWalk.cons harc (IWalk.nil x)
    have hco : (0 : ℚ) + w = w + 0 := by ring
    rw [hco]
    exact h1
  | @cons u v t w c l harc hrest ih =>
    intro x w' harc'
    have h1 := IWalk.cons harc (ih harc')
    have hco : w + c + w' = w + (c + w') := by ring
    rw [hco]
    exact h1

/-- The finite universe of node indices the search can ever touch: the source
index together with every arc endpoint index. -/
def idxFinset (es : List (ℕ × ℕ × EdgeWithCost)) (fi : ℕ) : Finset ℕ :=
  insert fi (es.foldr (fun e s => insert e.1 (insert e.2.1 s)) ∅)

theorem mem_idxFinset_fi (es : List (ℕ × ℕ × EdgeWithCost)) (fi : ℕ) :
    fi ∈ idxFinset es fi := Finset.mem_insert_self _ _

theorem mem_idxFinset_endpoints (es : List (ℕ × ℕ × EdgeWithCost)) (fi : ℕ) :
    ∀ p ∈ es, p.1 ∈ idxFinset es fi ∧ p.2.1 ∈ idxFinset es fi := by
  have hfold : ∀ p ∈ es,
      p.1 ∈ es.foldr (fun e s => insert e.1 (insert e.2.1 s)) (∅ : Finset ℕ) ∧
      p.2.1 ∈ es.foldr (fun e s => insert e.1 (insert e.2.1 s)) (∅ : Finset ℕ) := by
    induction es with
    | nil => intro p hp; cases hp
    | cons e t ih =>
      intro p hp
      rcases List.mem_cons.mp hp with heq | hmem
      · subst heq
        exact ⟨Finset.mem_insert_self _ _,
          Finset.mem_insert_of_mem (Finset.mem_insert_self _ _)⟩
      · obtain ⟨h1, h2⟩ := ih p hmem
        exact ⟨Finset.mem_insert_of_mem (Finset.mem_insert_of_mem h1),
          Finset.mem_insert_of_mem (Finset.mem_insert_of_mem h2)⟩
  intro p hp
  obtain ⟨h1, h2⟩ := hfold p hp
  exact ⟨Finset.mem_insert_of_mem h1, Finset.mem_insert_of_mem h2⟩

theorem mem_idxFinset_adj (es : List (ℕ × ℕ × EdgeWithCost)) (fi u : ℕ) :
    ∀ a ∈ adjOf es u, a.1 ∈ idxFinset es fi := by
  intro a ha
  obtain ⟨p, hp, _, hend⟩ := adjOf_mem es u a ha
  obtain ⟨h1, h2⟩ := mem_idxFinset_endpoints es fi p hp
  rcases hend with h | h
  · rw [h]; exact h2
  · rw [h]; exact h1

theorem adjOf_nonneg (es : List (ℕ × ℕ × EdgeWithCost))
    (hnn : ∀ p ∈ es, 0 ≤ p.2.2.cost) :
    ∀ u, ∀ a ∈ adjOf es u, 0 ≤ a.2 := by
  intro u a ha
  obtain ⟨p, hp, hc, _⟩ := adjOf_mem es u a ha
  rw [hc]
  exact hnn p hp

/-- One predecessor link: x's recorded predecessor is y. -/
def PredR (preds : List (ℕ × ℕ)) (x y : ℕ) : Prop := preds.lookup x = some y

/-- A node is settled when it carries a recorded distance that no heap entry
of its own can match and that no heap entry at all undercuts: such a node can
never be pushed or improved again. -/
def settledD (st : DijState) (v : ℕ) : Prop :=
  ∃ dv, st.distances.lookup v = some dv ∧
    (∀ e ∈ st.heap, e.1 = v → dv < e.2) ∧ (∀ e ∈ st.heap, dv ≤ e.2)


theorem dijRelaxStep_spec (u : ℕ) (c : ℚ) (s : DijState) (a : ℕ × ℚ) :
    ((∃ d0, s.distances.lookup a.1 = some d0 ∧ d0 ≤ c + a.2) ∧
      dijRelaxStep u c s a = s) ∨
    ((∀ d0, s.distances.lookup a.1 = some d0 → c + a.2 < d0) ∧
      dijRelaxStep u c s a
        = ⟨updA s.distances a.1 (c + a.2), updA s.predecessors a.1 u,
           (a.1, c + a.2) :: s.heap⟩) := by
  cases hl : s.distances.lookup a.1 with
  | none =>
    right
    refine ⟨fun d0 h => ?_, dijRelaxStep_new u c s a hl⟩
    cases h
  | some d =>
    by_cases h : c + a.2 < d
    · right
      refine ⟨fun d0 h0 => ?_, dijRelaxStep_better u c s a d hl h⟩
      cases h0
      exact h
    · left
      exact ⟨⟨d, rfl, le_of_not_lt h⟩, dijRelaxStep_skip u c s a d hl h⟩

theorem dijFold_mono (u : ℕ) (c : ℚ) (L : List (ℕ × ℚ)) :
    ∀ (s : DijState) (v : ℕ) (d : ℚ), s.distances.lookup v = some d →
      ∃ d', (L.foldl (dijRelaxStep u c) s).distances.lookup v = some d' ∧
        d' ≤ d := by
  induction L with
  | nil => intro s v d h; exact ⟨d, h, le_refl d⟩
  | cons a L ih =>
    intro s v d h
    rcases dijRelaxStep_spec u c s a with ⟨_, heq⟩ | ⟨himp, heq⟩
    · rw [List.foldl_cons, heq]
      exact ih s v d h
    · rw [List.foldl_cons, heq]
      by_cases hv : v = a.1
      · have h2 : s.distances.lookup a.1 = some d := hv ▸ h
        obtain ⟨d', hd', hle⟩ := ih ⟨updA s.distances a.1 (c + a.2),
          updA s.predecessors a.1 u, (a.1, c + a.2) :: s.heap⟩ v (c + a.2)
          (show (updA s.distances a.1 (c + a.2)).lookup v = some (c + a.2) from
            hv ▸ lookup_updA_self s.distances a.1 (c + a.2))
        exact ⟨d', hd', le_trans hle (le_of_lt (himp d h2))⟩
      · obtain ⟨d', hd', hle⟩ := ih ⟨updA s.distances a.1 (c + a.2),
          updA s.predecessors a.1 u, (a.1, c + a.2) :: s.heap⟩ v d
          ((lookup_updA_ne s.distances a.1 v (c + a.2) hv).trans h)
        exact ⟨d', hd', hle⟩

theorem dijFold_heap_super (u : ℕ) (c : ℚ) (L : List (ℕ × ℚ)) :
    ∀ (s : DijState), ∀ e ∈ s.heap,
      e ∈ (L.foldl (dijRelaxStep u c) s).heap := by
  induction L with
  | nil => intro s e he; exact he
  | cons a L ih =>
    intro s e he
    rcases dijRelaxStep_spec u c s a with ⟨_, heq⟩ | ⟨_, heq⟩
    · rw [List.foldl_cons, heq]
      exact ih s e he
    · rw [List.foldl_cons, heq]
      exact ih _ e (List.mem_cons_of_mem _ he)

theorem dijFold_lookup (u : ℕ) (c : ℚ) (L : List (ℕ × ℚ)) :
    ∀ (s : DijState) (v : ℕ) (d' : ℚ),
      (L.foldl (dijRelaxStep u c) s).distances.lookup v = some d' →
      s.distances.lookup v = some d' ∨
      (∃ a ∈ L, v = a.1 ∧ d' = c + a.2 ∧
        (v, d') ∈ (L.foldl (dijRelaxStep u c) s).heap ∧
        ∀ d0, s.distances.lookup v = some d0 → d' < d0) := by
  induction L with
  | nil => intro s v d' h; exact Or.inl h
  | cons a L ih =>
    intro s v d' h
    rcases dijRelaxStep_spec u c s a with ⟨_, heq⟩ | ⟨himp, heq⟩
    · rw [List.foldl_cons, heq] at h ⊢
      rcases ih s v d' h with h1 | ⟨b, hb, h1, h2, h3, h4⟩
      · exact Or.inl h1
      · exact Or.inr ⟨b, List.mem_cons_of_mem a hb, h1, h2, h3, h4⟩
    · rw [List.foldl_cons, heq] at h ⊢
      rcases ih _ v d' h with h1 | ⟨b, hb, h1, h2, h3, h4⟩
      · by_cases hv : v = a.1
        · have h1' : some (c + a.2) = some d' :=
            (show (updA s.distances a.1 (c + a.2)).lookup v = some (c + a.2)
              from hv ▸ lookup_updA_self s.distances a.1 (c + a.2)).symm.trans h1
          cases h1'
          refine Or.inr ⟨a, List.mem_cons_self a L, hv, rfl, ?_, ?_⟩
          · exact dijFold_heap_super u c L _ (v, c + a.2)
              (by rw [hv]; exact List.mem_cons_self _ _)
          · intro d0 hd0
            exact himp d0 (hv ▸ hd0)
        · have h1' : s.distances.lookup v = some d' :=
            (lookup_updA_ne s.distances a.1 v (c + a.2) hv).symm.trans h1
          exact Or.inl h1'
      · refine Or.inr ⟨b, List.mem_cons_of_mem a hb, h1, h2, h3, fun d0 hd0 => ?_⟩
        by_cases hv : v = a.1
        · have h5 := h4 (c + a.2)
            (show (updA s.distances a.1 (c + a.2)).lookup v = some (c + a.2)
              from hv ▸ lookup_updA_self s.distances a.1 (c + a.2))
          have h6 := himp d0 (hv ▸ hd0)
          linarith
        · exact h4 d0 ((lookup_updA_ne s.distances a.1 v (c + a.2) hv).trans hd0)

theorem dijFold_arcs (u : ℕ) (c : ℚ) (L : List (ℕ × ℚ)) :
    ∀ (s : DijState), ∀ a ∈ L,
      ∃ d', (L.foldl (dijRelaxStep u c) s).distances.lookup a.1 = some d' ∧
        d' ≤ c + a.2 := by
  induction L with
  | nil => intro s a ha; cases ha
  | cons b L ih =>
    intro s a ha
    rcases List.mem_cons.mp ha with heq2 | hmem
    · subst heq2
      rcases dijRelaxStep_spec u c s a with ⟨⟨d0, hd0, hle⟩, heq⟩ | ⟨_, heq⟩
      · rw [List.foldl_cons, heq]
        obtain ⟨d', hd', hle'⟩ := dijFold_mono u c L s a.1 d0 hd0
        exact ⟨d', hd', le_trans hle' hle⟩
      · rw [List.foldl_cons, heq]
        obtain ⟨d', hd', hle'⟩ := dijFold_mono u c L
          ⟨updA s.distances a.1 (c + a.2), updA s.predecessors a.1 u,
            (a.1, c + a.2) :: s.heap⟩ a.1 (c + a.2)
          (lookup_updA_self s.distances a.1 (c + a.2))
        exact ⟨d', hd', hle'⟩
    · rcases dijRelaxStep_spec u c s b with ⟨_, heq⟩ | ⟨_, heq⟩
      · rw [List.foldl_cons, heq]
        exact ih s a hmem
      · rw [List.foldl_cons, heq]
        exact ih _ a hmem

theorem dijFold_ha_pw (u : ℕ) (c : ℚ) (L : List (ℕ × ℚ)) :
    ∀ (s : DijState),
      (∀ e ∈ s.heap, ∃ d, s.distances.lookup e.1 = some d ∧ d ≤ e.2) →
      s.heap.Pairwise (fun e1 e2 => e1.1 = e2.1 → e1.2 ≠ e2.2) →
      ((∀ e ∈ (L.foldl (dijRelaxStep u c) s).heap,
          ∃ d, (L.foldl (dijRelaxStep u c) s).distances.lookup e.1 = some d ∧
            d ≤ e.2) ∧
        (L.foldl (dijRelaxStep u c) s).heap.Pairwise
          (fun e1 e2 => e1.1 = e2.1 → e1.2 ≠ e2.2)) := by
  induction L with
  | nil => intro s h1 h2; exact ⟨h1, h2⟩
  | cons a L ih =>
    intro s h1 h2
    rcases dijRelaxStep_spec u c s a with ⟨_, heq⟩ | ⟨himp, heq⟩
    · rw [List.foldl_cons, heq]
      exact ih s h1 h2
    · rw [List.foldl_cons, heq]
      refine ih _ ?_ ?_
      · intro e he
        rcases List.mem_cons.mp he with heq2 | hmem
        · rw [heq2]
          exact ⟨c + a.2, lookup_updA_self s.distances a.1 (c + a.2), le_refl _⟩
        · obtain ⟨d, hd, hle⟩ := h1 e hmem
          by_cases hv : e.1 = a.1
          · refine ⟨c + a.2,
              show (updA s.distances a.1 (c + a.2)).lookup e.1 = some (c + a.2)
                from hv ▸ lookup_updA_self s.distances a.1 (c + a.2), ?_⟩
            have h3 := himp d (hv ▸ hd)
            linarith
          · exact ⟨d, (lookup_updA_ne s.distances a.1 e.1 (c + a.2) hv).trans hd,
              hle⟩
      · refine List.Pairwise.cons ?_ h2
        intro e hmem hfst
        obtain ⟨d, hd, hle⟩ := h1 e hmem
        have h3 := himp d (by rw [← hfst] at hd; exact hd)
        have h4 : c + a.2 < e.2 := lt_of_lt_of_le h3 hle
        exact ne_of_lt h4

theorem dijFold_heap (u : ℕ) (c : ℚ) (L : List (ℕ × ℚ)) :
    ∀ (s : DijState), ∃ pushed,
      (L.foldl (dijRelaxStep u c) s).heap = pushed ++ s.heap ∧
      ∀ e ∈ pushed, ∃ a ∈ L, e.1 = a.1 ∧ e.2 = c + a.2 ∧
        ∀ d0, s.distances.lookup e.1 = some d0 → e.2 < d0 := by
  induction L with
  | nil =>
    intro s
    exact ⟨[], rfl, fun e he => absurd he (List.not_mem_nil e)⟩
  | cons a L ih =>
    intro s
    rcases dijRelaxStep_spec u c s a with ⟨_, heq⟩ | ⟨himp, heq⟩
    · rw [List.foldl_cons, heq]
      obtain ⟨pushed, hp, hprop⟩ := ih s
      refine ⟨pushed, hp, fun e he => ?_⟩
      obtain ⟨b, hb, h1, h2, h3⟩ := hprop e he
      exact ⟨b, List.mem_cons_of_mem a hb, h1, h2, h3⟩
    · rw [List.foldl_cons, heq]
      obtain ⟨pushed, hp, hprop⟩ := ih ⟨updA s.distances a.1 (c + a.2),
        updA s.predecessors a.1 u, (a.1, c + a.2) :: s.heap⟩
      refine ⟨pushed ++ [(a.1, c + a.2)], ?_, ?_⟩
      · rw [hp]
        simp
      · intro e he
        rcases List.mem_append.mp he with he1 | he2
        · obtain ⟨b, hb, h1, h2, h3⟩ := hprop e he1
          refine ⟨b, List.mem_cons_of_mem a hb, h1, h2, fun d0 hd0 => ?_⟩
          by_cases hv : e.1 = a.1
          · have h4 := h3 (c + a.2)
              (show (updA s.distances a.1 (c + a.2)).lookup e.1 = some (c + a.2)
                from hv ▸ lookup_updA_self s.distances a.1 (c + a.2))
            have h5 := himp d0 (hv ▸ hd0)
            linarith
          · exact h3 d0
              ((lookup_updA_ne s.distances a.1 e.1 (c + a.2) hv).trans hd0)
        · have he3 : e = (a.1, c + a.2) := by simpa using he2
          rw [he3]
          exact ⟨a, List.mem_cons_self a L, rfl, rfl, fun d0 hd0 => himp d0 hd0⟩

theorem dijFold_preds (u : ℕ) (c : ℚ) (L : List (ℕ × ℚ)) :
    ∀ (s : DijState) (v : ℕ),
      ((L.foldl (dijRelaxStep u c) s).predecessors.lookup v
          = s.predecessors.lookup v ∧
        (L.foldl (dijRelaxStep u c) s).distances.lookup v
          = s.distances.lookup v) ∨
      (∃ a ∈ L, v = a.1 ∧
        (L.foldl (dijRelaxStep u c) s).predecessors.lookup v = some u ∧
        (L.foldl (dijRelaxStep u c) s).distances.lookup v = some (c + a.2) ∧
        ∀ d0, s.distances.lookup v = some d0 → c + a.2 < d0) := by
  induction L with
  | nil => intro s v; exact Or.inl ⟨rfl, rfl⟩
  | cons a L ih =>
    intro s v
    rcases dijRelaxStep_spec u c s a with ⟨_, heq⟩ | ⟨himp, heq⟩
    · rw [List.foldl_cons, heq]
      rcases ih s v with h | ⟨b, hb, h1, h2, h3, h4⟩
      · exact Or.inl h
      · exact Or.inr ⟨b, List.mem_cons_of_mem a hb, h1, h2, h3, h4⟩
    · rw [List.foldl_cons, heq]
      rcases ih ⟨updA s.distances a.1 (c + a.2), updA s.predecessors a.1 u,
          (a.1, c + a.2) :: s.heap⟩ v with ⟨h1, h2⟩ | ⟨b, hb, hv, h1, h2, h3⟩
      · by_cases hv : v = a.1
        · refine Or.inr ⟨a, List.mem_cons_self a L, hv, ?_, ?_,
            fun d0 hd0 => himp d0 (hv ▸ hd0)⟩
          · exact h1.trans
              (show (updA s.predecessors a.1 u).lookup v = some u
                from hv ▸ lookup_updA_self s.predecessors a.1 u)
          · exact h2.trans
              (show (updA s.distances a.1 (c + a.2)).lookup v = some (c + a.2)
                from hv ▸ lookup_updA_self s.distances a.1 (c + a.2))
        · refine Or.inl ⟨?_, ?_⟩
          · exact h1.trans (lookup_updA_ne s.predecessors a.1 v u hv)
          · exact h2.trans (lookup_updA_ne s.distances a.1 v (c + a.2) hv)
      · refine Or.inr ⟨b, List.mem_cons_of_mem a hb, hv, h1, h2,
          fun d0 hd0 => ?_⟩
        by_cases hva : v = a.1
        · have h5 := h3 (c + a.2)
            (show (updA s.distances a.1 (c + a.2)).lookup v = some (c + a.2)
              from hva ▸ lookup_updA_self s.distances a.1 (c + a.2))
          have h6 := himp d0 (hva ▸ hd0)
          linarith
        · exact h3 d0
            ((lookup_updA_ne s.distances a.1 v (c + a.2) hva).trans hd0)

theorem predChain_le (preds : List (ℕ × ℕ)) (dist : List (ℕ × ℚ))
    (es : List (ℕ × ℕ × EdgeWithCost))
    (hw : ∀ x, ∀ a ∈ adjOf es x, 0 ≤ a.2)
    (hpd : ∀ v p, preds.lookup v = some p → ∃ w dv dp, (v, w) ∈ adjOf es p ∧
      dist.lookup v = some dv ∧ dist.lookup p = some dp ∧ dp + w ≤ dv) :
    ∀ x y, Relation.TransGen (PredR preds) x y →
      ∃ dx dy, dist.lookup x = some dx ∧ dist.lookup y = some dy ∧ dy ≤ dx := by
  intro x y h
  induction h with
  | single hstep =>
    obtain ⟨w, dv, dp, harc, hv, hp, hle⟩ := hpd _ _ hstep
    have hw0 := hw _ _ harc
    exact ⟨dv, dp, hv, hp, by linarith⟩
  | tail hxy hstep ih =>
    obtain ⟨dx, db, hx, hb, hle1⟩ := ih
    obtain ⟨w, dv, dp, harc, hv, hp, hle⟩ := hpd _ _ hstep
    rw [hb] at hv
    cases hv
    have hw0 := hw _ _ harc
    exact ⟨dx, dp, hx, hp, by linarith⟩

theorem transGen_split (R : ℕ → ℕ → Prop) (k ku : ℕ)
    (hk : ∀ x y, R x y → x = k → y = ku) :
    ∀ x y, Relation.TransGen R x y →
      Relation.TransGen (fun p q => R p q ∧ p ≠ k) x y ∨
      (Relation.ReflTransGen (fun p q => R p q ∧ p ≠ k) x k ∧
        Relation.ReflTransGen R ku y) := by
  intro x y h
  induction h using Relation.TransGen.head_induction_on with
  | base hstep =>
    rename_i z
    by_cases hx : z = k
    · right
      subst hx
      exact ⟨Relation.ReflTransGen.refl,
        (hk _ _ hstep rfl) ▸ Relation.ReflTransGen.refl⟩
    · left
      exact Relation.TransGen.single ⟨hstep, hx⟩
  | ih hstep htail ihp =>
    rename_i z b
    by_cases hx : z = k
    · right
      subst hx
      refine ⟨Relation.ReflTransGen.refl, ?_⟩
      have hb := hk _ _ hstep rfl
      rw [← hb]
      exact htail.to_reflTransGen
    · rcases ihp with h1 | ⟨h1, h2⟩
      · left
        exact Relation.TransGen.head ⟨hstep, hx⟩ h1
      · right
        exact ⟨Relation.ReflTransGen.head ⟨hstep, hx⟩ h1, h2⟩

theorem reflTransGen_to_avoid (R : ℕ → ℕ → Prop) (k : ℕ) :
    ∀ x, Relation.ReflTransGen R x k →
      Relation.ReflTransGen (fun p q => R p q ∧ p ≠ k) x k := by
  intro x h
  induction h using Relation.ReflTransGen.head_induction_on with
  | refl => exact Relation.ReflTransGen.refl
  | head hstep htail ihp =>
    rename_i z b
    by_cases hx : z = k
    · subst hx
      exact Relation.ReflTransGen.refl
    · exact Relation.ReflTransGen.head ⟨hstep, hx⟩ ihp

theorem dijStep_pd_acy (es : List (ℕ × ℕ × EdgeWithCost)) (u : ℕ) (c : ℚ)
    (hw : ∀ x, ∀ a ∈ adjOf es x, 0 ≤ a.2)
    (s : DijState) (a : ℕ × ℚ)
    (harc : (a.1, a.2) ∈ adjOf es u) (hannn : 0 ≤ a.2)
    (hdu : s.distances.lookup u = some c)
    (hpd : ∀ v p, s.predecessors.lookup v = some p →
      ∃ w dv dp, (v, w) ∈ adjOf es p ∧ s.distances.lookup v = some dv ∧
        s.distances.lookup p = some dp ∧ dp + w ≤ dv)
    (hacy : ∀ v, ¬ Relation.TransGen (PredR s.predecessors) v v) :
    (∀ v p, (dijRelaxStep u c s a).predecessors.lookup v = some p →
      ∃ w dv dp, (v, w) ∈ adjOf es p ∧
        (dijRelaxStep u c s a).distances.lookup v = some dv ∧
        (dijRelaxStep u c s a).distances.lookup p = some dp ∧ dp + w ≤ dv) ∧
    (∀ v, ¬ Relation.TransGen (PredR (dijRelaxStep u c s a).predecessors) v v) ∧
    (dijRelaxStep u c s a).distances.lookup u = some c := by
  rcases dijRelaxStep_spec u c s a with ⟨_, heq⟩ | ⟨himp, heq⟩
  · rw [heq]
    exact ⟨hpd, hacy, hdu⟩
  · rw [heq]
    have hau : ¬ (a.1 = u) := by
      intro h
      have h2 := himp c (h ▸ hdu)
      linarith
    have hR' : ∀ x y, PredR (updA s.predecessors a.1 u) x y →
        (x = a.1 ∧ y = u) ∨ (PredR s.predecessors x y ∧ x ≠ a.1) := by
      intro x y hxy
      by_cases hx : x = a.1
      · left
        refine ⟨hx, ?_⟩
        have h2 : (updA s.predecessors a.1 u).lookup x = some u :=
          hx ▸ lookup_updA_self s.predecessors a.1 u
        have h3 : some u = some y := h2.symm.trans hxy
        cases h3
        rfl
      · right
        exact ⟨(lookup_updA_ne s.predecessors a.1 x u hx).symm.trans hxy, hx⟩
    refine ⟨?_, ?_, ?_⟩
    · intro v p hvp
      by_cases hv : v = a.1
      · rcases hR' v p hvp with ⟨_, hp⟩ | ⟨_, hne⟩
        · refine ⟨a.2, c + a.2, c, hp ▸ hv ▸ harc, ?_, ?_, le_refl _⟩
          · exact show (updA s.distances a.1 (c + a.2)).lookup v
              = some (c + a.2) from hv ▸ lookup_updA_self s.distances a.1 (c + a.2)
          · exact show (updA s.distances a.1 (c + a.2)).lookup p = some c from
              hp ▸ ((lookup_updA_ne s.distances a.1 u (c + a.2)
                (fun h => hau h.symm)).trans hdu)
        · exact absurd hv hne
      · rcases hR' v p hvp with ⟨hveq, _⟩ | ⟨hold, _⟩
        · exact absurd hveq hv
        · obtain ⟨w, dv, dp, harc2, hv2, hp2, hle2⟩ := hpd v p hold
          by_cases hp3 : p = a.1
          · refine ⟨w, dv, c + a.2, harc2, ?_, ?_, ?_⟩
            · exact (lookup_updA_ne s.distances a.1 v (c + a.2) hv).trans hv2
            · exact show (updA s.distances a.1 (c + a.2)).lookup p
                = some (c + a.2) from hp3 ▸ lookup_updA_self s.distances a.1 (c + a.2)
            · have h4 := himp dp (hp3 ▸ hp2)
              linarith
          · refine ⟨w, dv, dp, harc2, ?_, ?_, hle2⟩
            · exact (lookup_updA_ne s.distances a.1 v (c + a.2) hv).trans hv2
            · exact (lookup_updA_ne s.distances a.1 p (c + a.2) hp3).trans hp2
    · intro z hz
      rcases transGen_split (PredR (updA s.predecessors a.1 u)) a.1 u
          (fun x y hxy hx =>
            ((hR' x y hxy).resolve_right (fun h => h.2 hx)).2)
          z z hz with h1 | ⟨h1, h2⟩
      · refine hacy z (h1.mono ?_)
        intro p q hpq
        exact ((hR' p q hpq.1).resolve_left (fun h => hpq.2 h.1)).1
      · have h1' : Relation.ReflTransGen (PredR (updA s.predecessors a.1 u))
            z a.1 := h1.mono (fun p q hpq => hpq.1)
        have hcomp : Relation.ReflTransGen (PredR (updA s.predecessors a.1 u))
            u a.1 := h2.trans h1'
        have hav := reflTransGen_to_avoid
          (PredR (updA s.predecessors a.1 u)) a.1 u hcomp
        have hold : Relation.ReflTransGen (PredR s.predecessors) u a.1 := by
          refine hav.mono ?_
          intro p q hpq
          exact ((hR' p q hpq.1).resolve_left (fun h => hpq.2 h.1)).1
        rcases Relation.reflTransGen_iff_eq_or_transGen.mp hold with heq2 | htg
        · exact hau heq2
        · obtain ⟨du2, dk, hu2, hk2, hle2⟩ :=
            predChain_le s.predecessors s.distances es hw hpd u a.1 htg
          rw [hdu] at hu2
          cases hu2
          have h5 := himp dk hk2
          linarith
    · exact show (updA s.distances a.1 (c + a.2)).lookup u = some c from
        (lookup_updA_ne s.distances a.1 u (c + a.2)
          (fun h => hau h.symm)).trans hdu

theorem dijFold_pd_acy (es : List (ℕ × ℕ × EdgeWithCost)) (u : ℕ) (c : ℚ)
    (hw : ∀ x, ∀ a ∈ adjOf es x, 0 ≤ a.2) (L : List (ℕ × ℚ)) :
    ∀ (s : DijState),
      (∀ a ∈ L, (a.1, a.2) ∈ adjOf es u ∧ 0 ≤ a.2) →
      s.distances.lookup u = some c →
      (∀ v p, s.predecessors.lookup v = some p →
        ∃ w dv dp, (v, w) ∈ adjOf es p ∧ s.distances.lookup v = some dv ∧
          s.distances.lookup p = some dp ∧ dp + w ≤ dv) →
      (∀ v, ¬ Relation.TransGen (PredR s.predecessors) v v) →
      ((∀ v p, (L.foldl (dijRelaxStep u c) s).predecessors.lookup v = some p →
          ∃ w dv dp, (v, w) ∈ adjOf es p ∧
            (L.foldl (dijRelaxStep u c) s).distances.lookup v = some dv ∧
            (L.foldl (dijRelaxStep u c) s).distances.lookup p = some dp ∧
            dp + w ≤ dv) ∧
        (∀ v, ¬ Relation.TransGen
          (PredR (L.foldl (dijRelaxStep u c) s).predecessors) v v) ∧
        (L.foldl (dijRelaxStep u c) s).distances.lookup u = some c) := by
  induction L with
  | nil => intro s _ h1 h2 h3; exact ⟨h2, h3, h1⟩
  | cons a L ih =>
    intro s hL h1 h2 h3
    obtain ⟨harc, hannn⟩ := hL a (List.mem_cons_self a L)
    obtain ⟨hpd2, hacy2, hdu2⟩ :=
      dijStep_pd_acy es u c hw s a harc hannn h1 h2 h3
    rw [List.foldl_cons]
    exact ih (dijRelaxStep u c s a)
      (fun b hb => hL b (List.mem_cons_of_mem a hb)) hdu2 hpd2 hacy2

theorem popMin_mem_rest (l : List (ℕ × ℚ)) (x e : ℕ × ℚ) (r : List (ℕ × ℚ))
    (h : popMin l = some (x, r)) (he : e ∈ l) (hne : e ≠ x) : e ∈ r := by
  have hperm := popMin_perm l x r h
  rcases List.mem_cons.mp (hperm.mem_iff.mp he) with h1 | h1
  · exact absurd h1 hne
  · exact h1

theorem predR_nil : ∀ x y, ¬ PredR ([] : List (ℕ × ℕ)) x y := by
  intro x y h
  simp [PredR, List.lookup] at h

/-- Loop invariant of `dijkstra_search` under non-negative arc costs: heap
entries dominate the recorded distances; per-node heap entry costs are
pairwise distinct; recorded nodes lie in the finite index universe; the
source is recorded at 0 and every value is non-negative; every recorded node
still has a matching heap entry or has relaxed all its arcs; the source has
no predecessor while every other recorded node has one; predecessor links
are arc-witnessed and distance-compatible; the predecessor relation is
acyclic; and the target, once recorded, always has a matching heap entry. -/
structure DInv (es : List (ℕ × ℕ × EdgeWithCost)) (fi ti : ℕ)
    (st : DijState) : Prop where
  ha : ∀ e ∈ st.heap, ∃ d, st.distances.lookup e.1 = some d ∧ d ≤ e.2
  hpw : st.heap.Pairwise (fun e1 e2 => e1.1 = e2.1 → e1.2 ≠ e2.2)
  hdomN : ∀ v d, st.distances.lookup v = some d → v ∈ idxFinset es fi
  h0 : st.distances.lookup fi = some 0
  hnn : ∀ v d, st.distances.lookup v = some d → 0 ≤ d
  hcl : ∀ v d, st.distances.lookup v = some d →
    (∃ e ∈ st.heap, e.1 = v ∧ e.2 ≤ d) ∨
    (∀ a ∈ adjOf es v, ∃ d2, st.distances.lookup a.1 = some d2 ∧ d2 ≤ d + a.2)
  hpfi : st.predecessors.lookup fi = none
  hdp : ∀ v d, st.distances.lookup v = some d →
    v = fi ∨ ∃ p, st.predecessors.lookup v = some p
  hpd : ∀ v p, st.predecessors.lookup v = some p →
    ∃ w dv dp, (v, w) ∈ adjOf es p ∧ st.distances.lookup v = some dv ∧
      st.distances.lookup p = some dp ∧ dp + w ≤ dv
  hacy : ∀ v, ¬ Relation.TransGen (PredR st.predecessors) v v
  hent : ∀ d, st.distances.lookup ti = some d →
    ∃ e ∈ st.heap, e.1 = ti ∧ e.2 ≤ d

theorem dijInv_init (es : List (ℕ × ℕ × EdgeWithCost)) (fi ti : ℕ) :
    DInv es fi ti ⟨[(fi, 0)], [], [(fi, 0)]⟩ := by
  have hls : List.lookup fi [(fi, (0 : ℚ))] = some 0 := by simp [List.lookup]
  refine ⟨?_, ?_, ?_, hls, ?_, ?_, rfl, ?_, ?_, ?_, ?_⟩
  · intro e he
    have he2 : e = (fi, 0) := by simpa using he
    rw [he2]
    exact ⟨0, hls, le_refl 0⟩
  · exact List.pairwise_singleton _ _
  · intro v d hv
    obtain ⟨hv1, _⟩ := lookup_singleton fi v 0 d hv
    rw [hv1]
    exact mem_idxFinset_fi es fi
  · intro v d hv
    obtain ⟨_, hd⟩ := lookup_singleton fi v 0 d hv
    rw [hd]
  · intro v d hv
    obtain ⟨hv1, hd⟩ := lookup_singleton fi v 0 d hv
    exact Or.inl ⟨(fi, 0), List.mem_cons_self _ _, hv1.symm, hd.ge⟩
  · intro v d hv
    exact Or.inl (lookup_singleton fi v 0 d hv).1
  · intro v p hvp
    simp [List.lookup] at hvp
  · intro v h
    cases h with
    | single hstep => exact predR_nil _ _ hstep
    | tail h1 hstep => exact predR_nil _ _ hstep
  · intro d hv
    obtain ⟨h1, hd⟩ := lookup_singleton fi ti 0 d hv
    exact ⟨(fi, 0), List.mem_cons_self _ _, h1.symm, hd.ge⟩

theorem dijInv_stale (es : List (ℕ × ℕ × EdgeWithCost)) (fi ti : ℕ)
    (st : DijState) (inv : DInv es fi ti st) (x : ℕ) (cx : ℚ)
    (rest : List (ℕ × ℚ)) (hpop : popMin st.heap = some ((x, cx), rest))
    (hxt : ¬ x = ti) (d : ℚ) (hl : st.distances.lookup x = some d)
    (hst : cx > d) :
    DInv es fi ti ⟨st.distances, st.predecessors, rest⟩ := by
  refine ⟨?_, ?_, inv.hdomN, inv.h0, inv.hnn, ?_, inv.hpfi, inv.hdp, inv.hpd,
    inv.hacy, ?_⟩
  · intro e he
    exact inv.ha e (popMin_sub _ _ _ hpop e he)
  · have hperm := popMin_perm _ _ _ hpop
    have hp2 : ((x, cx) :: rest).Pairwise
        (fun e1 e2 => e1.1 = e2.1 → e1.2 ≠ e2.2) :=
      (hperm.pairwise_iff
        (fun {e1 e2} h heq => Ne.symm (h heq.symm))).mp inv.hpw
    exact hp2.of_cons
  · intro v d2 hv
    rcases inv.hcl v d2 hv with ⟨e, he, he1, he2⟩ | h2
    · left
      refine ⟨e, popMin_mem_rest _ _ _ _ hpop he ?_, he1, he2⟩
      intro heq
      rw [heq] at he1 he2
      rw [← he1] at hv
      rw [hl] at hv
      cases hv
      exact absurd he2 (not_le_of_lt hst)
    · exact Or.inr h2
  · intro d2 hv
    obtain ⟨e, he, he1, he2⟩ := inv.hent d2 hv
    refine ⟨e, popMin_mem_rest _ _ _ _ hpop he ?_, he1, he2⟩
    intro heq
    rw [heq] at he1
    exact hxt he1

theorem dijInv_go (es : List (ℕ × ℕ × EdgeWithCost)) (fi ti : ℕ)
    (hw : ∀ x2, ∀ a ∈ adjOf es x2, 0 ≤ a.2)
    (st : DijState) (inv : DInv es fi ti st) (x : ℕ) (cx : ℚ)
    (rest : List (ℕ × ℚ)) (hpop : popMin st.heap = some ((x, cx), rest))
    (hxt : ¬ x = ti) (hl : st.distances.lookup x = some cx) :
    DInv es fi ti
      (dijRelax x cx ⟨st.distances, st.predecessors, rest⟩ (adjOf es x)) := by
  have hcx0 : 0 ≤ cx := inv.hnn x cx hl
  have ha0 : ∀ e ∈ (⟨st.distances, st.predecessors, rest⟩ : DijState).heap,
      ∃ d, (⟨st.distances, st.predecessors, rest⟩ :
        DijState).distances.lookup e.1 = some d ∧ d ≤ e.2 :=
    fun e he => inv.ha e (popMin_sub _ _ _ hpop e he)
  have hpw0 : ((⟨st.distances, st.predecessors, rest⟩ :
      DijState).heap).Pairwise (fun e1 e2 => e1.1 = e2.1 → e1.2 ≠ e2.2) := by
    have hperm := popMin_perm _ _ _ hpop
    have hp2 : ((x, cx) :: rest).Pairwise
        (fun e1 e2 => e1.1 = e2.1 → e1.2 ≠ e2.2) :=
      (hperm.pairwise_iff
        (fun {e1 e2} h heq => Ne.symm (h heq.symm))).mp inv.hpw
    exact hp2.of_cons
  have harcs : ∀ a ∈ adjOf es x, (a.1, a.2) ∈ adjOf es x ∧ 0 ≤ a.2 := by
    intro a ha2
    constructor
    · have : (a.1, a.2) = a := rfl
      rw [this]
      exact ha2
    · exact hw x a ha2
  obtain ⟨hpdF, hacyF, hdxF⟩ := dijFold_pd_acy es x cx hw (adjOf es x)
    ⟨st.distances, st.predecessors, rest⟩ harcs hl inv.hpd inv.hacy
  obtain ⟨haF, hpwF⟩ := dijFold_ha_pw x cx (adjOf es x)
    ⟨st.distances, st.predecessors, rest⟩ ha0 hpw0
  have h0F : (dijRelax x cx ⟨st.distances, st.predecessors, rest⟩
      (adjOf es x)).distances.lookup fi = some 0 := by
    obtain ⟨d2, hd2, hle2⟩ := dijFold_mono x cx (adjOf es x)
      ⟨st.distances, st.predecessors, rest⟩ fi 0 inv.h0
    rcases dijFold_lookup x cx (adjOf es x)
        ⟨st.distances, st.predecessors, rest⟩ fi d2 hd2 with h1 | ⟨a, haL, _, hda, _, himp⟩
    · have h2 : some (0 : ℚ) = some d2 := inv.h0.symm.trans h1
      cases h2
      exact hd2
    · have h3 := himp 0 inv.h0
      have h4 := hw x a haL
      rw [hda] at h3
      linarith
  refine ⟨haF, hpwF, ?_, h0F, ?_, ?_, ?_, ?_, hpdF, hacyF, ?_⟩
  · intro v d hv
    rcases dijFold_lookup x cx (adjOf es x)
        ⟨st.distances, st.predecessors, rest⟩ v d hv with h1 | ⟨a, haL, hva, _, _, _⟩
    · exact inv.hdomN v d h1
    · rw [hva]
      exact mem_idxFinset_adj es fi x a haL
  · intro v d hv
    rcases dijFold_lookup x cx (adjOf es x)
        ⟨st.distances, st.predecessors, rest⟩ v d hv with h1 | ⟨a, haL, _, hda, _, _⟩
    · exact inv.hnn v d h1
    · have h4 := hw x a haL
      rw [hda]
      linarith
  · intro v d hv
    by_cases hvx : v = x
    · subst hvx
      right
      intro a haL
      obtain ⟨d2, hd2, hle2⟩ := dijFold_arcs v cx (adjOf es v)
        ⟨st.distances, st.predecessors, rest⟩ a haL
      have hdx : d = cx := by
        have h2 : some d = some cx := hv.symm.trans hdxF
        cases h2
        rfl
      exact ⟨d2, hd2, by rw [hdx]; exact hle2⟩
    · rcases dijFold_lookup x cx (adjOf es x)
          ⟨st.distances, st.predecessors, rest⟩ v d hv
        with h1 | ⟨a, haL, hva, hda, hheap, himp⟩
      · rcases inv.hcl v d h1 with ⟨e, he, he1, he2⟩ | hclose
        · left
          refine ⟨e, dijFold_heap_super x cx (adjOf es x) _ e
            (popMin_mem_rest _ _ _ _ hpop he ?_), he1, he2⟩
          intro heq
          rw [heq] at he1
          exact hvx he1.symm
        · right
          intro a haL
          obtain ⟨d2, hd2, hle2⟩ := hclose a haL
          obtain ⟨d3, hd3, hle3⟩ := dijFold_mono x cx (adjOf es x)
            ⟨st.distances, st.predecessors, rest⟩ a.1 d2 hd2
          exact ⟨d3, hd3, le_trans hle3 hle2⟩
      · left
        exact ⟨(v, d), hheap, rfl, le_refl d⟩
  · rcases dijFold_preds x cx (adjOf es x)
        ⟨st.distances, st.predecessors, rest⟩ fi with ⟨h1, _⟩ | ⟨a, haL, _, _, _, himp⟩
    · exact h1.trans inv.hpfi
    · have h3 := himp 0 inv.h0
      have h4 := hw x a haL
      linarith
  · intro v d hv
    rcases dijFold_preds x cx (adjOf es x)
        ⟨st.distances, st.predecessors, rest⟩ v with ⟨h1, h2⟩ | ⟨a, haL, hva, hp, _, _⟩
    · have h3 : st.distances.lookup v = some d := h2.symm.trans hv
      rcases inv.hdp v d h3 with hfi | ⟨p, hp2⟩
      · exact Or.inl hfi
      · exact Or.inr ⟨p, h1.trans hp2⟩
    · exact Or.inr ⟨x, hp⟩
  · intro d hv
    rcases dijFold_lookup x cx (adjOf es x)
        ⟨st.distances, st.predecessors, rest⟩ ti d hv
      with h1 | ⟨a, haL, hva, hda, hheap, himp⟩
    · obtain ⟨e, he, he1, he2⟩ := inv.hent d h1
      refine ⟨e, dijFold_heap_super x cx (adjOf es x) _ e
        (popMin_mem_rest _ _ _ _ hpop he ?_), he1, he2⟩
      intro heq
      rw [heq] at he1
      exact hxt he1
    · exact ⟨(ti, d), hva ▸ hheap, rfl, le_refl d⟩

theorem settled_stale (st : DijState) (x : ℕ) (cx : ℚ) (rest : List (ℕ × ℚ))
    (hpop : popMin st.heap = some ((x, cx), rest)) (v : ℕ)
    (h : settledD st v) :
    settledD ⟨st.distances, st.predecessors, rest⟩ v := by
  obtain ⟨dv, h1, h2, h3⟩ := h
  exact ⟨dv, h1, fun e he hev => h2 e (popMin_sub _ _ _ hpop e he) hev,
    fun e he => h3 e (popMin_sub _ _ _ hpop e he)⟩

theorem settled_go (es : List (ℕ × ℕ × EdgeWithCost)) (fi ti : ℕ)
    (hw : ∀ x2, ∀ a ∈ adjOf es x2, 0 ≤ a.2)
    (st : DijState) (inv : DInv es fi ti st) (x : ℕ) (cx : ℚ)
    (rest : List (ℕ × ℚ)) (hpop : popMin st.heap = some ((x, cx), rest))
    (hl : st.distances.lookup x = some cx) :
    (∀ v, settledD st v → settledD
      (dijRelax x cx ⟨st.distances, st.predecessors, rest⟩ (adjOf es x)) v) ∧
    settledD (dijRelax x cx ⟨st.distances, st.predecessors, rest⟩
      (adjOf es x)) x ∧
    ¬ settledD st x := by
  obtain ⟨pushed, hheap, hprop⟩ := dijFold_heap x cx (adjOf es x)
    ⟨st.distances, st.predecessors, rest⟩
  rw [show List.foldl (dijRelaxStep x cx)
      ⟨st.distances, st.predecessors, rest⟩ (adjOf es x)
    = dijRelax x cx ⟨st.distances, st.predecessors, rest⟩ (adjOf es x)
    from rfl] at hheap
  have hpushed_ge : ∀ e ∈ pushed, cx ≤ e.2 := by
    intro e he
    obtain ⟨a, haL, _, he2, _⟩ := hprop e he
    have h4 := hw x a haL
    rw [he2]
    linarith
  refine ⟨?_, ?_, ?_⟩
  · intro v hv
    obtain ⟨dv, h1, h2, h3⟩ := hv
    have hdvcx : dv ≤ cx := h3 (x, cx) (popMin_mem _ _ _ hpop)
    have h1F : (dijRelax x cx ⟨st.distances, st.predecessors, rest⟩
        (adjOf es x)).distances.lookup v = some dv := by
      obtain ⟨dv', hdv', hle'⟩ := dijFold_mono x cx (adjOf es x)
        ⟨st.distances, st.predecessors, rest⟩ v dv h1
      rcases dijFold_lookup x cx (adjOf es x)
          ⟨st.distances, st.predecessors, rest⟩ v dv' hdv'
        with hcase | ⟨a, haL, _, hda, _, himp⟩
      · have h5 : some dv = some dv' := h1.symm.trans hcase
        cases h5
        exact hdv'
      · exfalso
        have h5 := himp dv h1
        have h6 := hw x a haL
        rw [hda] at h5
        linarith
    refine ⟨dv, h1F, ?_, ?_⟩
    · intro e he hev
      rw [hheap] at he
      rcases List.mem_append.mp he with he1 | he2
      · exfalso
        obtain ⟨a, haL, _, he2b, himp⟩ := hprop e he1
        have h5 := himp dv (hev ▸ h1)
        have h6 := hw x a haL
        rw [he2b] at h5
        linarith
      · exact h2 e (popMin_sub _ _ _ hpop e he2) hev
    · intro e he
      rw [hheap] at he
      rcases List.mem_append.mp he with he1 | he2
      · exact le_trans hdvcx (hpushed_ge e he1)
      · exact h3 e (popMin_sub _ _ _ hpop e he2)
  · have h1F : (dijRelax x cx ⟨st.distances, st.predecessors, rest⟩
        (adjOf es x)).distances.lookup x = some cx := by
      obtain ⟨dv', hdv', hle'⟩ := dijFold_mono x cx (adjOf es x)
        ⟨st.distances, st.predecessors, rest⟩ x cx hl
      rcases dijFold_lookup x cx (adjOf es x)
          ⟨st.distances, st.predecessors, rest⟩ x dv' hdv'
        with hcase | ⟨a, haL, _, hda, _, himp⟩
      · have h5 : some cx = some dv' := hl.symm.trans hcase
        cases h5
        exact hdv'
      · exfalso
        have h5 := himp cx hl
        have h6 := hw x a haL
        rw [hda] at h5
        linarith
    have hperm := popMin_perm _ _ _ hpop
    have hp2 : ((x, cx) :: rest).Pairwise
        (fun e1 e2 => e1.1 = e2.1 → e1.2 ≠ e2.2) :=
      (hperm.pairwise_iff
        (fun {e1 e2} h heq => Ne.symm (h heq.symm))).mp inv.hpw
    have hdistinct : ∀ e ∈ rest, x = e.1 → cx ≠ e.2 := by
      have h5 := List.pairwise_cons.mp hp2
      exact fun e he => h5.1 e he
    refine ⟨cx, h1F, ?_, ?_⟩
    · intro e he hev
      rw [hheap] at he
      rcases List.mem_append.mp he with he1 | he2
      · exfalso
        obtain ⟨a, haL, _, he2b, himp⟩ := hprop e he1
        have h5 := himp cx (hev ▸ hl)
        have h6 := hw x a haL
        rw [he2b] at h5
        linarith
      · have h5 := inv.ha e (popMin_sub _ _ _ hpop e he2)
        obtain ⟨d2, hd2, hle2⟩ := h5
        have h6 : some cx = some d2 := by
          rw [hev] at hd2
          exact hl.symm.trans hd2
        cases h6
        exact lt_of_le_of_ne hle2 (hdistinct e he2 hev.symm)
    · intro e he
      rw [hheap] at he
      rcases List.mem_append.mp he with he1 | he2
      · exact hpushed_ge e he1
      · exact popMin_le _ _ _ hpop e (popMin_sub _ _ _ hpop e he2)
  · intro hv
    obtain ⟨dv, h1, h2, _⟩ := hv
    have h5 : some cx = some dv := hl.symm.trans h1
    cases h5
    exact lt_irrefl cx (h2 (x, cx) (popMin_mem _ _ _ hpop) rfl)

/-- Frontier property of the search state: every walk cost from the source
either dominates a recorded distance at its endpoint or dominates some heap
entry cost. -/
theorem dij_opt (es : List (ℕ × ℕ × EdgeWithCost)) (fi ti : ℕ)
    (hw : ∀ x2, ∀ a ∈ adjOf es x2, 0 ≤ a.2)
    (st : DijState) (inv : DInv es fi ti st) :
    ∀ {u : ℕ} {l : List ℕ} {z : ℕ} {cW : ℚ}, IWalk (adjOf es) u l z cW →
      ∀ du, st.distances.lookup u = some du →
        (∃ dz, st.distances.lookup z = some dz ∧ dz ≤ du + cW) ∨
        (∃ e ∈ st.heap, e.2 ≤ du + cW) := by
  intro u l z cW hwalk
  induction hwalk with
  | nil u =>
    intro du hdu
    exact Or.inl ⟨du, hdu, by linarith⟩
  | @cons u v t w c l harc hrest ih =>
    intro du hdu
    have hw0 := hw u (v, w) harc
    have hc0 : 0 ≤ c := IWalk.nonneg_cost hw hrest
    rcases inv.hcl u du hdu with ⟨e, he, _, he2⟩ | hclose
    · right
      exact ⟨e, he, by linarith⟩
    · obtain ⟨dv, hdv, hlev⟩ := hclose (v, w) harc
      rcases ih dv hdv with ⟨dz, hdz, hlez⟩ | ⟨e, he, hlee⟩
      · left
        exact ⟨dz, hdz, by linarith⟩
      · right
        exact ⟨e, he, by linarith⟩

theorem chase_zero (preds : List (ℕ × ℕ)) (cur : ℕ) :
    chase preds cur 0 = none := rfl

theorem chase_succ_none (preds : List (ℕ × ℕ)) (cur fuel : ℕ)
    (h : preds.lookup cur = none) : chase preds cur (fuel + 1) = some [] := by
  show (match preds.lookup cur with
    | none => some []
    | some p => (chase preds p fuel).map (fun l => cur :: l)) = some []
  rw [h]

theorem chase_succ_some (preds : List (ℕ × ℕ)) (cur fuel : ℕ) (p : ℕ)
    (h : preds.lookup cur = some p) :
    chase preds cur (fuel + 1) = (chase preds p fuel).map (fun l => cur :: l) := by
  show (match preds.lookup cur with
    | none => some []
    | some p => (chase preds p fuel).map (fun l => cur :: l)) = _
  rw [h]

theorem chase_mono (preds : List (ℕ × ℕ)) :
    ∀ (f : ℕ) (cur : ℕ) (l : List ℕ), chase preds cur f = some l →
      chase preds cur (f + 1) = some l := by
  intro f
  induction f with
  | zero =>
    intro cur l h
    rw [chase_zero] at h
    cases h
  | succ f ih =>
    intro cur l h
    cases hl : preds.lookup cur with
    | none =>
      rw [chase_succ_none _ _ _ hl] at h
      rw [chase_succ_none _ _ _ hl]
      exact h
    | some p =>
      rw [chase_succ_some _ _ _ _ hl] at h
      rw [chase_succ_some _ _ _ _ hl]
      cases hc : chase preds p f with
      | none => rw [hc] at h; cases h
      | some l2 =>
        rw [hc] at h
        rw [ih p l2 hc]
        exact h

theorem chase_le (preds : List (ℕ × ℕ)) (f f2 : ℕ) (hle : f ≤ f2)
    (cur : ℕ) (l : List ℕ) (h : chase preds cur f = some l) :
    chase preds cur f2 = some l := by
  induction hle with
  | refl => exact h
  | step hle2 ih => exact chase_mono preds _ cur l ih

theorem descendants_finite (preds : List (ℕ × ℕ)) (cur : ℕ) :
    {x | Relation.TransGen (PredR preds) cur x}.Finite := by
  refine Set.Finite.subset (List.finite_toSet (preds.map Prod.snd)) ?_
  intro x hx
  have hmem : ∃ y, preds.lookup y = some x := by
    cases hx with
    | single hstep => exact ⟨cur, hstep⟩
    | tail h1 hstep => exact ⟨_, hstep⟩
  obtain ⟨y, hy⟩ := hmem
  have hm := lookup_isSome_mem preds y x hy
  simp only [List.coe_toFinset, Set.mem_setOf_eq]
  exact List.mem_map.mpr ⟨(y, x), hm, rfl⟩

theorem chase_exists (preds : List (ℕ × ℕ))
    (hacy : ∀ v, ¬ Relation.TransGen (PredR preds) v v) :
    ∀ cur, ∃ f l, chase preds cur f = some l := by
  suffices h : ∀ (n : ℕ) (cur : ℕ),
      Set.ncard {x | Relation.TransGen (PredR preds) cur x} ≤ n →
      ∃ f l, chase preds cur f = some l from
    fun cur => h _ cur (le_refl _)
  intro n
  induction n with
  | zero =>
    intro cur hn
    cases hl : preds.lookup cur with
    | none => exact ⟨1, [], chase_succ_none preds cur 0 hl⟩
    | some p =>
      exfalso
      have hp : p ∈ {x | Relation.TransGen (PredR preds) cur x} :=
        Relation.TransGen.single hl
      have hpos : 0 < Set.ncard {x | Relation.TransGen (PredR preds) cur x} :=
        (Set.ncard_pos (descendants_finite preds cur)).mpr ⟨p, hp⟩
      omega
  | succ n ih =>
    intro cur hn
    cases hl : preds.lookup cur with
    | none => exact ⟨1, [], chase_succ_none preds cur 0 hl⟩
    | some p =>
      have hsub : {x | Relation.TransGen (PredR preds) p x}
          ⊆ {x | Relation.TransGen (PredR preds) cur x} :=
        fun x hx => (Relation.TransGen.single (show PredR preds cur p from hl)).trans hx
      have hpmem : p ∈ {x | Relation.TransGen (PredR preds) cur x} :=
        Relation.TransGen.single hl
      have hpnot : p ∉ {x | Relation.TransGen (PredR preds) p x} :=
        fun hx => hacy p hx
      have hss : {x | Relation.TransGen (PredR preds) p x}
          ⊂ {x | Relation.TransGen (PredR preds) cur x} :=
        ⟨hsub, fun h2 => hpnot (h2 hpmem)⟩
      have hcard := Set.ncard_lt_ncard hss (descendants_finite preds cur)
      obtain ⟨f, l, hf⟩ := ih p (by omega)
      refine ⟨f + 1, cur :: l, ?_⟩
      rw [chase_succ_some preds cur f p hl, hf]
      rfl

theorem chase_mem (preds : List (ℕ × ℕ)) :
    ∀ (f : ℕ) (cur : ℕ) (l : List ℕ), chase preds cur f = some l →
      ∀ x ∈ l, ∃ p, preds.lookup x = some p := by
  intro f
  induction f with
  | zero =>
    intro cur l h
    rw [chase_zero] at h
    cases h
  | succ f ih =>
    intro cur l h x hx
    cases hl : preds.lookup cur with
    | none =>
      rw [chase_succ_none _ _ _ hl] at h
      cases h
      cases hx
    | some p =>
      rw [chase_succ_some _ _ _ _ hl] at h
      cases hc : chase preds p f with
      | none => rw [hc] at h; cases h
      | some l2 =>
        rw [hc] at h
        have h3 : some (cur :: l2) = some l := h
        cases h3
        rcases List.mem_cons.mp hx with h1 | h1
        · rw [h1]
          exact ⟨p, hl⟩
        · exact ih p l2 hc x h1

theorem chase_spec (es : List (ℕ × ℕ × EdgeWithCost))
    (preds : List (ℕ × ℕ)) (dist : List (ℕ × ℚ)) (fi : ℕ)
    (h0 : dist.lookup fi = some 0)
    (hdp : ∀ v d, dist.lookup v = some d →
      v = fi ∨ ∃ p, preds.lookup v = some p)
    (hpd : ∀ v p, preds.lookup v = some p →
      ∃ w dv dp, (v, w) ∈ adjOf es p ∧ dist.lookup v = some dv ∧
        dist.lookup p = some dp ∧ dp + w ≤ dv) :
    ∀ (f : ℕ) (cur : ℕ) (l : List ℕ), chase preds cur f = some l →
      ∀ dv, dist.lookup cur = some dv →
        ∃ S, IWalk (adjOf es) fi (fi :: l.reverse) cur S ∧ S ≤ dv := by
  intro f
  induction f with
  | zero =>
    intro cur l h
    rw [chase_zero] at h
    cases h
  | succ f ih =>
    intro cur l h dv hdv
    cases hl : preds.lookup cur with
    | none =>
      rw [chase_succ_none _ _ _ hl] at h
      cases h
      rcases hdp cur dv hdv with hfi | ⟨p, hp⟩
      · subst hfi
        have h2 : some (0 : ℚ) = some dv := h0.symm.trans hdv
        cases h2
        exact ⟨0, IWalk.nil cur, le_refl 0⟩
      · rw [hl] at hp
        cases hp
    | some p =>
      rw [chase_succ_some _ _ _ _ hl] at h
      cases hc : chase preds p f with
      | none => rw [hc] at h; cases h
      | some l2 =>
        rw [hc] at h
        have h3 : some (cur :: l2) = some l := h
        cases h3
        obtain ⟨w, dvv, dp, harc, hv2, hp2, hle2⟩ := hpd cur p hl
        have hdveq : some dvv = some dv := hv2.symm.trans hdv
        cases hdveq
        obtain ⟨S, hwalk, hSle⟩ := ih p l2 hc dp hp2
        have hwalk2 := IWalk.snoc_arc hwalk harc
        have hlist : (fi :: l2.reverse) ++ [cur] = fi :: (cur :: l2).reverse := by
          simp
        rw [hlist] at hwalk2
        exact ⟨S + w, hwalk2, by linarith⟩

/-- Main run theorem for the point-to-point search: under non-negative arc
costs, if the target is connected to the source then from any state
satisfying the invariant the loop terminates in the target branch and
returns an optimal, predecessor-reconstructed path. -/
theorem dij_run (gnodes : List Node) (es : List (ℕ × ℕ × EdgeWithCost))
    (fi ti : ℕ)
    (hw : ∀ x2, ∀ a ∈ adjOf es x2, 0 ≤ a.2)
    (hconn : ∃ l0 c0, IWalk (adjOf es) fi l0 ti c0) :
    ∀ (m1 m2 : ℕ) (st : DijState), DInv es fi ti st →
      Set.ncard {v | v ∈ idxFinset es fi ∧ ¬ settledD st v} < m1 →
      st.heap.length < m2 →
      ∃ (fuel : ℕ) (c : ℚ) (l : List ℕ),
        dijkstraLoop gnodes es fi ti fuel st
          = some (.ok (some (c, (l.filterMap (weightId gnodes)
              ++ (weightId gnodes fi).toList).reverse))) ∧
        IWalk (adjOf es) fi (fi :: l.reverse) ti c ∧
        (∀ l2 c2, IWalk (adjOf es) fi l2 ti c2 → c ≤ c2) ∧
        (∀ x2 ∈ l, x2 ∈ idxFinset es fi) := by
  intro m1
  induction m1 with
  | zero => intro m2 st _ h1 _; omega
  | succ m1 ih1 =>
    intro m2
    induction m2 with
    | zero => intro st _ _ h2; omega
    | succ m2 ih2 =>
      intro st inv h1 h2
      cases hpop : popMin st.heap with
      | none =>
        exfalso
        obtain ⟨l0, c0, hwalk⟩ := hconn
        rcases dij_opt es fi ti hw st inv hwalk 0 inv.h0 with
          ⟨dz, hdz, _⟩ | ⟨e, he, _⟩
        · obtain ⟨e, he, _, _⟩ := inv.hent dz hdz
          rw [(popMin_none_iff _).mp hpop] at he
          cases he
        · rw [(popMin_none_iff _).mp hpop] at he
          cases he
      | some pr =>
        obtain ⟨⟨x, cx⟩, rest⟩ := pr
        by_cases hxt : x = ti
        · subst hxt
          obtain ⟨dti, hdti, hle1⟩ := inv.ha (x, cx) (popMin_mem _ _ _ hpop)
          obtain ⟨e, he, he1, he2⟩ := inv.hent dti hdti
          have hcxle : cx ≤ e.2 := popMin_le _ _ _ hpop e he
          have hcxd : cx = dti := le_antisymm (le_trans hcxle he2) hle1
          have hopt : ∀ l2 c2, IWalk (adjOf es) fi l2 x c2 → cx ≤ c2 := by
            intro l2 c2 hwalk2
            rcases dij_opt es fi x hw st inv hwalk2 0 inv.h0 with
              ⟨dz, hdz, hlez⟩ | ⟨e2, he2b, hlee⟩
            · have h3 : some dti = some dz := hdti.symm.trans hdz
              cases h3
              rw [hcxd]
              linarith
            · have h4 := popMin_le _ _ _ hpop e2 he2b
              linarith
          obtain ⟨f, l, hch⟩ := chase_exists st.predecessors inv.hacy x
          obtain ⟨S, hwalkS, hSle⟩ := chase_spec es st.predecessors
            st.distances fi inv.h0 inv.hdp inv.hpd f x l hch dti hdti
          have hSeq : S = cx := le_antisymm
            (by rw [hcxd]; exact hSle) (hopt _ S hwalkS)
          cases f with
          | zero =>
            rw [chase_zero] at hch
            cases hch
          | succ f2 =>
            have hrec : reconstructPath gnodes st.predecessors fi x (f2 + 1)
                = some ((l.filterMap (weightId gnodes)
                    ++ (weightId gnodes fi).toList).reverse) := by
              unfold reconstructPath
              rw [hch]
              rfl
            refine ⟨f2 + 1, cx, l, ?_, hSeq ▸ hwalkS, hopt, ?_⟩
            · exact dijLoop_target gnodes es fi x f2 st cx rest _ hpop hrec
            · intro x2 hx2
              obtain ⟨p, hp⟩ := chase_mem st.predecessors (f2 + 1) x l hch x2 hx2
              obtain ⟨w, dv2, dp2, _, hv2, _, _⟩ := inv.hpd x2 p hp
              exact inv.hdomN x2 dv2 hv2
        · cases hlx : st.distances.lookup x with
          | none =>
            exfalso
            obtain ⟨d2, hd2, _⟩ := inv.ha (x, cx) (popMin_mem _ _ _ hpop)
            rw [hlx] at hd2
            cases hd2
          | some d =>
            have hfin : {v | v ∈ idxFinset es fi ∧ ¬ settledD st v}.Finite :=
              Set.Finite.subset (idxFinset es fi).finite_toSet
                (fun v hv => hv.1)
            by_cases hst : cx > d
            · have hinv2 := dijInv_stale es fi ti st inv x cx rest hpop hxt
                d hlx hst
              have hsub : {v | v ∈ idxFinset es fi ∧
                  ¬ settledD ⟨st.distances, st.predecessors, rest⟩ v}
                  ⊆ {v | v ∈ idxFinset es fi ∧ ¬ settledD st v} := by
                intro v hv
                exact ⟨hv.1, fun hs => hv.2
                  (settled_stale st x cx rest hpop v hs)⟩
              have hcard := Set.ncard_le_ncard hsub hfin
              have hlen : rest.length < m2 := by
                have hpl := (popMin_perm _ _ _ hpop).length_eq
                rw [List.length_cons] at hpl
                omega
              obtain ⟨fuel, c, l, hrun, hw2, hopt2, hmem2⟩ := ih2
                ⟨st.distances, st.predecessors, rest⟩ hinv2 (by omega) hlen
              refine ⟨fuel + 1, c, l, ?_, hw2, hopt2, hmem2⟩
              rw [dijLoop_stale gnodes es fi ti fuel st x cx rest d hpop
                hxt hlx hst]
              exact hrun
            · have hdcx : d = cx := by
                obtain ⟨d2, hd2, hle2⟩ := inv.ha (x, cx) (popMin_mem _ _ _ hpop)
                have h3 : some d = some d2 := hlx.symm.trans hd2
                cases h3
                exact le_antisymm hle2 (le_of_not_lt hst)
              have hlcx : st.distances.lookup x = some cx := by
                rw [hlx, hdcx]
              have hinv2 := dijInv_go es fi ti hw st inv x cx rest hpop
                hxt hlcx
              obtain ⟨hpers, hxsettled, hxunsettled⟩ :=
                settled_go es fi ti hw st inv x cx rest hpop hlcx
              have hss : {v | v ∈ idxFinset es fi ∧ ¬ settledD
                    (dijRelax x cx ⟨st.distances, st.predecessors, rest⟩
                      (adjOf es x)) v}
                  ⊂ {v | v ∈ idxFinset es fi ∧ ¬ settledD st v} := by
                constructor
                · intro v hv
                  exact ⟨hv.1, fun hs => hv.2 (hpers v hs)⟩
                · intro hsup
                  have hxin : x ∈ {v | v ∈ idxFinset es fi ∧
                      ¬ settledD st v} := ⟨inv.hdomN x cx hlcx, hxunsettled⟩
                  exact (hsup hxin).2 hxsettled
              have hcard := Set.ncard_lt_ncard hss hfin
              obtain ⟨fuel, c, l, hrun, hw2, hopt2, hmem2⟩ := ih1
                ((dijRelax x cx ⟨st.distances, st.predecessors, rest⟩
                    (adjOf es x)).heap.length + 1)
                (dijRelax x cx ⟨st.distances, st.predecessors, rest⟩
                  (adjOf es x)) hinv2 (by omega) (Nat.lt_succ_self _)
              refine ⟨fuel + 1, c, l, ?_, hw2, hopt2, hmem2⟩
              rw [dijLoop_go gnodes es fi ti fuel st x cx rest cx hpop hxt
                hlcx (lt_irrefl cx)]
              exact hrun

theorem filterMap_allSome_length (f : ℕ → Option ℕ) :
    ∀ l : List ℕ, (∀ x ∈ l, (f x).isSome) →
      (l.filterMap f).length = l.length := by
  intro l
  induction l with
  | nil => intro _; rfl
  | cons a l ih =>
    intro h
    obtain ⟨b, hb⟩ := Option.isSome_iff_exists.mp (h a (List.mem_cons_self a l))
    rw [List.filterMap_cons, hb]
    simp only [List.length_cons]
    rw [ih (fun x hx => h x (List.mem_cons_of_mem a hx))]

theorem filterMap_allSome_getLast (f : ℕ → Option ℕ) :
    ∀ l : List ℕ, (∀ x ∈ l, (f x).isSome) →
      (l.filterMap f).getLast? = l.getLast?.bind f := by
  intro l
  induction l with
  | nil => intro _; rfl
  | cons a l ih =>
    intro h
    obtain ⟨b, hb⟩ := Option.isSome_iff_exists.mp (h a (List.mem_cons_self a l))
    rw [List.filterMap_cons, hb]
    cases l with
    | nil => simp [hb]
    | cons a2 l2 =>
      have htail := ih (fun x hx => h x (List.mem_cons_of_mem a hx))
      have hne : (a2 :: l2).filterMap f ≠ [] := by
        have hlen := filterMap_allSome_length f (a2 :: l2)
          (fun x hx => h x (List.mem_cons_of_mem a hx))
        intro hnil
        rw [hnil] at hlen
        simp at hlen
      obtain ⟨b2, fl2, hfl⟩ : ∃ b2 fl2, (a2 :: l2).filterMap f = b2 :: fl2 := by
        cases hfm : (a2 :: l2).filterMap f with
        | nil => exact absurd hfm hne
        | cons b2 fl2 => exact ⟨b2, fl2, rfl⟩
      rw [hfl, List.getLast?_cons_cons, ← hfl, htail, List.getLast?_cons_cons]

theorem IWalk.ne_nil {adj : ℕ → List (ℕ × ℚ)} {u : ℕ} {l : List ℕ} {t : ℕ}
    {c : ℚ} (h : IWalk adj u l t c) : l ≠ [] := by
  cases h with
  | nil u => simp
  | cons harc hrest => simp

theorem IWalk.last_eq {adj : ℕ → List (ℕ × ℚ)} :
    ∀ {u : ℕ} {l : List ℕ} {t : ℕ} {c : ℚ}, IWalk adj u l t c →
      l.getLast? = some t := by
  intro u l t c h
  induction h with
  | nil u => rfl
  | @cons u v t w c l harc hrest ih =>
    cases l with
    | nil => exact absurd rfl hrest.ne_nil
    | cons b l2 =>
      rw [List.getLast?_cons_cons]
      exact ih

/-- C1: for every network with non-negative cached arc costs, ids `from` and
`to` both present in the node lookup (with indices carrying those very ids,
and every index in the searched universe carrying an id, as every API-built
network does), and `to` connected to `from`, `shortest_path` terminates and
returns `Ok(Some(cost, path))` where `path` is the id-image of an index walk
from the source index to the target index, its first element is the from id,
its last is the to id, no element is dropped, the cost equals the total arc
cost of that walk, and the cost is at most the cost of every walk between the
two indices (optimality). -/
theorem claim_C1 (n : Network) (from_id to_id fi ti : ℕ)
    (hnn : ∀ p ∈ n.graphEdges, 0 ≤ p.2.2.cost)
    (hf : n.node_index_map.lookup from_id = some fi)
    (ht : n.node_index_map.lookup to_id = some ti)
    (hfid : weightId n.graphNodes fi = some from_id)
    (htid : weightId n.graphNodes ti = some to_id)
    (hwid : ∀ v ∈ idxFinset n.graphEdges fi, (weightId n.graphNodes v).isSome)
    (hconn : ∃ l0 c0, IWalk (adjOf n.graphEdges) fi l0 ti c0) :
    ∃ (fuel : ℕ) (cost : ℚ) (path il : List ℕ),
      shortestPath n from_id to_id fuel = some (.ok (some (cost, path))) ∧
      IWalk (adjOf n.graphEdges) fi il ti cost ∧
      path = il.filterMap (weightId n.graphNodes) ∧
      path.length = il.length ∧
      path.head? = some from_id ∧
      path.getLast? = some to_id ∧
      (∀ l2 c2, IWalk (adjOf n.graphEdges) fi l2 ti c2 → cost ≤ c2) := by
  have hw := adjOf_nonneg n.graphEdges hnn
  obtain ⟨fuel, c, l, hrun, hwalkIl, hopt, hmem⟩ := dij_run n.graphNodes
    n.graphEdges fi ti hw hconn
    (Set.ncard {v | v ∈ idxFinset n.graphEdges fi ∧
      ¬ settledD ⟨[(fi, 0)], [], [(fi, 0)]⟩ v} + 1) 2
    ⟨[(fi, 0)], [], [(fi, 0)]⟩ (dijInv_init n.graphEdges fi ti)
    (Nat.lt_succ_self _) (by norm_num)
  have hspeq : shortestPath n from_id to_id fuel
      = dijkstraLoop n.graphNodes n.graphEdges fi ti fuel
          ⟨[(fi, 0)], [], [(fi, 0)]⟩ := by
    unfold shortestPath
    rw [hf, ht]
  have hallsome : ∀ x ∈ fi :: l.reverse,
      (weightId n.graphNodes x).isSome := by
    intro x hx
    rcases List.mem_cons.mp hx with h1 | h1
    · rw [h1, hfid]
      rfl
    · exact hwid x (hmem x (List.mem_reverse.mp h1))
  have hpath : (l.filterMap (weightId n.graphNodes)
        ++ (weightId n.graphNodes fi).toList).reverse
      = (fi :: l.reverse).filterMap (weightId n.graphNodes) := by
    rw [List.filterMap_cons, hfid, List.filterMap_reverse,
      List.reverse_append]
    rfl
  refine ⟨fuel, c, (fi :: l.reverse).filterMap (weightId n.graphNodes),
    fi :: l.reverse, ?_, hwalkIl, rfl, ?_, ?_, ?_, hopt⟩
  · rw [hspeq, hrun, hpath]
  · exact filterMap_allSome_length _ _ hallsome
  · rw [List.filterMap_cons, hfid]
    rfl
  · rw [filterMap_allSome_getLast _ _ hallsome,
      show (fi :: l.reverse).getLast? = some ti from IWalk.last_eq hwalkIl]
    exact htid

/-- Two-node network with one edge of cached Walking cost 4, for the C1
witness: node id 1 sits at index 0 and node id 2 at index 1. -/
def netC1 : Network := buildNetwork
  [ .node ⟨1, 0, 0, none⟩, .node ⟨2, 0, 0, none⟩,
    .edge ⟨1, 1, 2, 0, [(RoutingMode.Walking, 4)], none, false, none, none⟩
      RoutingMode.Walking ]

/-- Witness for C1 on `netC1`: all cached costs are non-negative, id 2 is
connected to id 1, and the shortest-path conclusion holds there. -/
theorem claim_C1_witness :
    (∀ p ∈ netC1.graphEdges, 0 ≤ p.2.2.cost) ∧
    (∃ l0 c0, IWalk (adjOf netC1.graphEdges) 0 l0 1 c0) ∧
    (∃ (fuel : ℕ) (cost : ℚ) (path il : List ℕ),
      shortestPath netC1 1 2 fuel = some (.ok (some (cost, path))) ∧
      IWalk (adjOf netC1.graphEdges) 0 il 1 cost ∧
      path = il.filterMap (weightId netC1.graphNodes) ∧
      path.length = il.length ∧
      path.head? = some 1 ∧
      path.getLast? = some 2 ∧
      (∀ l2 c2, IWalk (adjOf netC1.graphEdges) 0 l2 1 c2 → cost ≤ c2)) := by
  have hnn : ∀ p ∈ netC1.graphEdges, 0 ≤ p.2.2.cost := by
    intro p hp
    rw [show netC1.graphEdges = [(0, 1, ⟨1, 4⟩)] from rfl] at hp
    rcases List.mem_singleton.mp hp with h
    rw [h]
    norm_num
  have harc : ((1 : ℕ), (4 : ℚ)) ∈ adjOf netC1.graphEdges 0 := by
    rw [show adjOf netC1.graphEdges 0 = [(1, 4)] from rfl]
    exact List.mem_cons_self _ _
  have hconn : ∃ l0 c0, IWalk (adjOf netC1.graphEdges) 0 l0 1 c0 :=
    ⟨[0, 1], 4 + 0, IWalk.cons harc (IWalk.nil 1)⟩
  have hwid : ∀ v ∈ idxFinset netC1.graphEdges 0,
      (weightId netC1.graphNodes v).isSome := by decide
  exact ⟨hnn, hconn, claim_C1 netC1 1 2 0 1 hnn rfl rfl rfl rfl hwid hconn⟩

/-- No-path run theorem: under non-negative arc costs, from any invariant
state whose heap holds only source-reachable nodes, a search for an
unreachable target drains its heap and returns the no-path value. -/
theorem dij_run_nopath (gnodes : List Node) (es : List (ℕ × ℕ × EdgeWithCost))
    (fi ti : ℕ)
    (hw : ∀ x2, ∀ a ∈ adjOf es x2, 0 ≤ a.2)
    (hnr : ¬ ReachIdx es fi ti) :
    ∀ (m1 m2 : ℕ) (st : DijState), DInv es fi ti st →
      (∀ e ∈ st.heap, ReachIdx es fi e.1) →
      Set.ncard {v | v ∈ idxFinset es fi ∧ ¬ settledD st v} < m1 →
      st.heap.length < m2 →
      ∃ fuel, dijkstraLoop gnodes es fi ti fuel st = some (.ok none) := by
  intro m1
  induction m1 with
  | zero => intro m2 st _ _ h1 _; omega
  | succ m1 ih1 =>
    intro m2
    induction m2 with
    | zero => intro st _ _ _ h2; omega
    | succ m2 ih2 =>
      intro st inv hR h1 h2
      cases hpop : popMin st.heap with
      | none =>
        exact ⟨1, dijLoop_empty gnodes es fi ti 0 st hpop⟩
      | some pr =>
        obtain ⟨⟨x, cx⟩, rest⟩ := pr
        have hu : ReachIdx es fi x := hR (x, cx) (popMin_mem _ _ _ hpop)
        have hxt : ¬ x = ti := fun he => hnr (he ▸ hu)
        have hrest : ∀ e ∈ rest, ReachIdx es fi e.1 :=
          fun e he => hR e (popMin_sub _ _ _ hpop e he)
        cases hlx : st.distances.lookup x with
        | none =>
          exfalso
          obtain ⟨d2, hd2, _⟩ := inv.ha (x, cx) (popMin_mem _ _ _ hpop)
          rw [hlx] at hd2
          cases hd2
        | some d =>
          have hfin : {v | v ∈ idxFinset es fi ∧ ¬ settledD st v}.Finite :=
            Set.Finite.subset (idxFinset es fi).finite_toSet
              (fun v hv => hv.1)
          by_cases hst : cx > d
          · have hinv2 := dijInv_stale es fi ti st inv x cx rest hpop hxt
              d hlx hst
            have hsub : {v | v ∈ idxFinset es fi ∧
                ¬ settledD ⟨st.distances, st.predecessors, rest⟩ v}
                ⊆ {v | v ∈ idxFinset es fi ∧ ¬ settledD st v} := by
              intro v hv
              exact ⟨hv.1, fun hs => hv.2
                (settled_stale st x cx rest hpop v hs)⟩
            have hcard := Set.ncard_le_ncard hsub hfin
            have hlen : rest.length < m2 := by
              have hpl := (popMin_perm _ _ _ hpop).length_eq
              rw [List.length_cons] at hpl
              omega
            obtain ⟨fuel, hrun⟩ := ih2 ⟨st.distances, st.predecessors, rest⟩
              hinv2 hrest (by omega) hlen
            refine ⟨fuel + 1, ?_⟩
            rw [dijLoop_stale gnodes es fi ti fuel st x cx rest d hpop
              hxt hlx hst]
            exact hrun
          · have hdcx : d = cx := by
              obtain ⟨d2, hd2, hle2⟩ := inv.ha (x, cx) (popMin_mem _ _ _ hpop)
              have h3 : some d = some d2 := hlx.symm.trans hd2
              cases h3
              exact le_antisymm hle2 (le_of_not_lt hst)
            have hlcx : st.distances.lookup x = some cx := by
              rw [hlx, hdcx]
            have hinv2 := dijInv_go es fi ti hw st inv x cx rest hpop
              hxt hlcx
            have hrelax : ∀ e ∈ (dijRelax x cx
                ⟨st.distances, st.predecessors, rest⟩ (adjOf es x)).heap,
                ReachIdx es fi e.1 := by
              intro e he
              rcases dijRelax_heap_mem x cx (adjOf es x) _ e he with
                hmem | ⟨a, ha, he1⟩
              · exact hrest e hmem
              · rw [he1]
                exact ReachIdx.step hu
                  (show (a.1, a.2) ∈ adjOf es x from by simpa using ha)
            obtain ⟨hpers, hxsettled, hxunsettled⟩ :=
              settled_go es fi ti hw st inv x cx rest hpop hlcx
            have hss : {v | v ∈ idxFinset es fi ∧ ¬ settledD
                  (dijRelax x cx ⟨st.distances, st.predecessors, rest⟩
                    (adjOf es x)) v}
                ⊂ {v | v ∈ idxFinset es fi ∧ ¬ settledD st v} := by
              constructor
              · intro v hv
                exact ⟨hv.1, fun hs => hv.2 (hpers v hs)⟩
              · intro hsup
                have hxin : x ∈ {v | v ∈ idxFinset es fi ∧
                    ¬ settledD st v} := ⟨inv.hdomN x cx hlcx, hxunsettled⟩
                exact (hsup hxin).2 hxsettled
            have hcard := Set.ncard_lt_ncard hss hfin
            obtain ⟨fuel, hrun⟩ := ih1
              ((dijRelax x cx ⟨st.distances, st.predecessors, rest⟩
                  (adjOf es x)).heap.length + 1)
              (dijRelax x cx ⟨st.distances, st.predecessors, rest⟩
                (adjOf es x)) hinv2 hrelax (by omega) (Nat.lt_succ_self _)
            refine ⟨fuel + 1, ?_⟩
            rw [dijLoop_go gnodes es fi ti fuel st x cx rest cx hpop hxt
              hlcx (lt_irrefl cx)]
            exact hrun

/-- C6: (a) for every network whose cached arc costs are all non-negative (the
spec's cost model: a cost is a non-negative scalar, and a negative edge length
is a caller error), whenever both node ids are present in the lookup but the
target's index lies outside the source's connected component, `shortest_path`
terminates and returns the no-path value `Ok(None)` — and moreover any run
that returns at all returns `Ok(None)`, never an error; (b) for every start
node present in the graph but incident to no arcs, `calculate` terminates and
returns a result whose mapping is exactly the singleton with the start node
at cost 0.  The non-negativity hypothesis in (a) is a side condition of this
exact-rational embedding: exact relaxation admits an unbounded strict
improvement chain along a negative cycle, whereas the saturating
floating-point arithmetic of the code eventually fails the strict-improvement
test and drains the heap either way. -/
theorem claim_C6_no_path :
    (∀ (n : Network) (from_id to_id fi ti : ℕ),
      (∀ p ∈ n.graphEdges, 0 ≤ p.2.2.cost) →
      n.node_index_map.lookup from_id = some fi →
      n.node_index_map.lookup to_id = some ti →
      ¬ ReachIdx n.graphEdges fi ti →
      (∃ fuel, shortestPath n from_id to_id fuel = some (.ok none)) ∧
      (∀ fuel r, shortestPath n from_id to_id fuel = some r →
        r = .ok none)) ∧
    (∀ (n : Network) (start si : ℕ) (T : ℚ),
      n.node_index_map.lookup start = some si →
      adjOf n.graphEdges si = [] →
      ∃ fuel r, calculate n start T fuel = some (.ok r) ∧
        r.travel_costs = [(start, 0)] ∧ r.reachable_nodes = 1 ∧
        r.start_node = start) := by
  constructor
  · intro n from_id to_id fi ti hnn hf ht hnr
    have hw := adjOf_nonneg n.graphEdges hnn
    have hsp : ∀ fuel, shortestPath n from_id to_id fuel
        = dijkstraLoop n.graphNodes n.graphEdges fi ti fuel
            ⟨[(fi, 0)], [], [(fi, 0)]⟩ := by
      intro fuel
      unfold shortestPath
      rw [hf, ht]
    have hR0 : ∀ e ∈ (⟨[(fi, 0)], [], [(fi, 0)]⟩ : DijState).heap,
        ReachIdx n.graphEdges fi e.1 := by
      intro e he
      have he2 : e = (fi, (0 : ℚ)) := by simpa using he
      rw [he2]
      exact ReachIdx.refl
    constructor
    · obtain ⟨fuel, hrun⟩ := dij_run_nopath n.graphNodes n.graphEdges fi ti
        hw hnr
        (Set.ncard {v | v ∈ idxFinset n.graphEdges fi ∧
          ¬ settledD ⟨[(fi, 0)], [], [(fi, 0)]⟩ v} + 1) 2
        ⟨[(fi, 0)], [], [(fi, 0)]⟩ (dijInv_init n.graphEdges fi ti) hR0
        (Nat.lt_succ_self _) (by norm_num)
      refine ⟨fuel, ?_⟩
      rw [hsp fuel]
      exact hrun
    · intro fuel r h
      rw [hsp fuel] at h
      exact dijLoop_unreachable n.graphNodes n.graphEdges fi ti hnr fuel
        _ r hR0 h
  · intro n start si T hl hadj
    have hpop : popMin [((start : ℕ), (0 : ℚ))] = some ((start, 0), []) :=
      popMin_single _
    have hlk : ([((start : ℕ), (0 : ℚ))]).lookup start = some 0 := by
      rw [lookup_cons_ite]
      simp
    have h1 : isoLoop n.graphNodes n.graphEdges n.node_index_map T 2
        ⟨[(start, 0)], [(start, 0)]⟩
        = isoLoop n.graphNodes n.graphEdges n.node_index_map T 1
            ⟨[(start, 0)], []⟩ := by
      rw [show (2 : ℕ) = 1 + 1 from rfl,
        isoLoop_go n.graphNodes n.graphEdges n.node_index_map T 1
          ⟨[(start, 0)], [(start, 0)]⟩ start 0 [] 0 hpop hlk (by norm_num)]
      by_cases hT : (0 : ℚ) > T
      · rw [isoExpand_gt n.graphNodes n.graphEdges n.node_index_map T start 0
            ⟨[(start, 0)], []⟩ hT]
      · rw [isoExpand_go n.graphNodes n.graphEdges n.node_index_map T start 0
            ⟨[(start, 0)], []⟩ si hT hl, hadj]
        rfl
    have h2 : isoLoop n.graphNodes n.graphEdges n.node_index_map T 1
        ⟨[(start, 0)], []⟩ = some [(start, 0)] := by
      rw [show (1 : ℕ) = 0 + 1 from rfl,
        isoLoop_none n.graphNodes n.graphEdges n.node_index_map T 0
          ⟨[(start, 0)], []⟩ rfl]
    exact ⟨2, ⟨[(start, 0)], T, 1, start⟩,
      calculate_eq_of n start T 2 si [(start, 0)] hl (h1.trans h2),
      rfl, rfl, rfl⟩

/-- Witness for C6 on the two-node arcless network: no cached costs (so all
are trivially non-negative), ids 0 and 1 present, 1 unreachable from 0, and
both conclusions hold there. -/
theorem claim_C6_witness :
    ((∃ fuel, shortestPath (buildNetwork [.node ⟨0, 0, 0, none⟩,
        .node ⟨1, 0, 0, none⟩]) 0 1 fuel = some (.ok none)) ∧
      (∀ fuel r, shortestPath (buildNetwork [.node ⟨0, 0, 0, none⟩,
        .node ⟨1, 0, 0, none⟩]) 0 1 fuel = some r → r = .ok none)) ∧
    (∃ fuel r, calculate (buildNetwork [.node ⟨0, 0, 0, none⟩,
        .node ⟨1, 0, 0, none⟩]) 0 3 fuel = some (.ok r) ∧
      r.travel_costs = [(0, 0)] ∧ r.reachable_nodes = 1 ∧
      r.start_node = 0) := by
  have hnn : ∀ p ∈ (buildNetwork [.node ⟨0, 0, 0, none⟩,
      .node ⟨1, 0, 0, none⟩]).graphEdges, 0 ≤ p.2.2.cost := by
    intro p hp
    rw [show (buildNetwork [.node ⟨0, 0, 0, none⟩,
      .node ⟨1, 0, 0, none⟩]).graphEdges = [] from rfl] at hp
    exact absurd hp (List.not_mem_nil p)
  have hnr : ¬ ReachIdx (buildNetwork [.node ⟨0, 0, 0, none⟩,
      .node ⟨1, 0, 0, none⟩]).graphEdges 0 1 := by
    intro h
    cases h with
    | step hu harc =>
      rw [show adjOf (buildNetwork [.node ⟨0, 0, 0, none⟩,
        .node ⟨1, 0, 0, none⟩]).graphEdges _ = [] from rfl] at harc
      exact absurd harc (List.not_mem_nil _)
  exact ⟨claim_C6_no_path.1 (buildNetwork [.node ⟨0, 0, 0, none⟩,
      .node ⟨1, 0, 0, none⟩]) 0 1 0 1 hnn rfl rfl hnr,
    claim_C6_no_path.2 (buildNetwork [.node ⟨0, 0, 0, none⟩,
      .node ⟨1, 0, 0, none⟩]) 0 0 3 rfl rfl⟩
